import Mathlib

/-!
The conversion core of kylin_mp4_convert (`converter.go`).

A shallow embedding of `FFmpegConverter` and of the standard-library routines it
calls.  Go strings are lists of characters, `float64` values are exact
rationals, the file system is an explicit state, and the callbacks are observed
through the list of calls made to them.
-/

namespace Kylin

/-- A Go string. -/
abbrev Str := List Char

/-! ## `strings` -/

/-- Go `strings.HasPrefix`. -/
def HasPrefix (s pre : Str) : Bool := pre.isPrefixOf s

/-- Go `strings.TrimPrefix`. -/
def TrimPrefix (s pre : Str) : Str :=
  if HasPrefix s pre then s.drop pre.length else s

/-- Go `strings.HasSuffix`. -/
def HasSuffix (s suf : Str) : Bool := suf.isSuffixOf s

/-- Go `strings.TrimSuffix`. -/
def TrimSuffix (s suf : Str) : Str :=
  if HasSuffix s suf then s.take (s.length - suf.length) else s

/-- Go `strings.Contains`. -/
def Contains : Str → Str → Bool
  | [], sub => sub.isEmpty
  | c :: cs, sub => HasPrefix (c :: cs) sub || Contains cs sub

/-! ## `strconv` and the two regular expressions -/

/-- The class `\d` of the Go regexp engine: the ASCII digits. -/
def isDigit (c : Char) : Bool := decide (48 ≤ c.toNat) && decide (c.toNat ≤ 57)

/-- Value of a run of decimal digits. -/
def decimalValue (ds : Str) : Nat :=
  ds.foldl (fun n c => 10 * n + (c.toNat - 48)) 0

/-- Go `strconv.Atoi` on a non-empty run of digits (the only arguments it gets
here), on a 64-bit platform: a value that does not fit `int` is reported as a
range error, which the callers drop, together with the largest `int`. -/
def Atoi (ds : Str) : Nat := min (decimalValue ds) (2 ^ 63 - 1)

/-- The four capture groups of a match. -/
structure Groups where
  g1 : Str
  g2 : Str
  g3 : Str
  g4 : Str
deriving DecidableEq, Repr

/-- The pattern `(\d{2}):(\d{2}):(\d{2})\.(\d+)` matched at the start of the
string; the last group is greedy. -/
def timeReAt : Str → Option Groups
  | h1 :: h2 :: c1 :: m1 :: m2 :: c2 :: s1 :: s2 :: d :: f :: rest =>
    if isDigit h1 && isDigit h2 && c1 == ':' && isDigit m1 && isDigit m2 && c2 == ':'
        && isDigit s1 && isDigit s2 && d == '.' && isDigit f then
      some ⟨[h1, h2], [m1, m2], [s1, s2], f :: rest.takeWhile isDigit⟩
    else none
  | _ => none

/-- What `FindStringSubmatch` returns for the pattern of `parseTimeString`: the
leftmost match. -/
def timeReFind : Str → Option Groups
  | [] => none
  | c :: cs =>
    match timeReAt (c :: cs) with
    | some g => some g
    | none => timeReFind cs

/-- The literal `Duration: ` that opens the pattern of `GetVideoDuration`. -/
def durationLit : Str := ['D', 'u', 'r', 'a', 't', 'i', 'o', 'n', ':', ' ']

/-- The pattern `Duration: (\d{2}):(\d{2}):(\d{2})\.(\d{2})` matched at the start
of the string. -/
def durationReAt (s : Str) : Option Groups :=
  if HasPrefix s durationLit then
    match s.drop 10 with
    | h1 :: h2 :: c1 :: m1 :: m2 :: c2 :: s1 :: s2 :: d :: f1 :: f2 :: _ =>
      if isDigit h1 && isDigit h2 && c1 == ':' && isDigit m1 && isDigit m2 && c2 == ':'
          && isDigit s1 && isDigit s2 && d == '.' && isDigit f1 && isDigit f2 then
        some ⟨[h1, h2], [m1, m2], [s1, s2], [f1, f2]⟩
      else none
    | _ => none
  else none

/-- What `FindStringSubmatch` returns for the pattern of `GetVideoDuration`: the
leftmost match. -/
def durationReFind : Str → Option Groups
  | [] => none
  | c :: cs =>
    match durationReAt (c :: cs) with
    | some g => some g
    | none => durationReFind cs

/-! ## `bufio.Scanner` -/

/-- Length in bytes of a Go string: a character takes as many bytes as its
UTF-8 encoding. -/
def byteLen : Str → Nat
  | [] => 0
  | c :: cs => c.utf8Size + byteLen cs

/-- Go `bufio.MaxScanTokenSize`, the size of the buffer of a `Scanner`. -/
def maxScanTokenSize : Nat := 65536

/-- The function `dropCR` of `bufio`: one carriage return at the end of a line is
dropped. -/
def dropCR (line : Str) : Str :=
  if line.getLast? = some '\r' then line.dropLast else line

/-- The tokens `scanner.Scan()` and `scanner.Text()` deliver for the split
function `ScanLines`, with `cur` the bytes of the current line read so far.  A
line is delivered without its newline.  A line that does not fit the buffer
together with its newline ends the scan: `Scan` returns false (the error
`ErrTooLong`, which the callers never read); so does a last line without
newline that fills the buffer. -/
def scanFrom : Str → Str → List Str
  | cur, [] =>
    if cur = [] then [] else if maxScanTokenSize ≤ byteLen cur then [] else [dropCR cur]
  | cur, c :: rest =>
    if c = '\n' then
      if maxScanTokenSize ≤ byteLen cur then [] else dropCR cur :: scanFrom [] rest
    else scanFrom (cur ++ [c]) rest

/-- The lines a `bufio.NewScanner` delivers for a stream. -/
def scanLines (stream : Str) : List Str := scanFrom [] stream

/-! ## Progress monitoring -/

/-- The receiver: which of the two callbacks are installed (non-nil). -/
structure FFmpegConverter where
  progressCallback : Bool
  statusCallback : Bool
deriving DecidableEq, Repr

/-- The status texts the converter produces, by format string and argument. -/
inductive Status where
  /-- The message of `BackupExistingFile`, naming the backup path. -/
  | backup (backupPath : Str)
  /-- The message before the conversion, naming the base of the input. -/
  | start (base : Str)
  /-- The message after the conversion, naming the output path. -/
  | done (outputPath : Str)
  /-- The percentage message of `monitorLines`, for `progress*100`. -/
  | percent (value : ℚ)
deriving DecidableEq

/-- A call made to one of the callbacks. -/
inductive Event where
  /-- One call `fc.progressCallback(p)`. -/
  | progress (p : ℚ)
  /-- One call `fc.statusCallback(msg)`. -/
  | status (msg : Status)
deriving DecidableEq

/-- The literal `out_time=`. -/
def outTimeLit : Str := ['o', 'u', 't', '_', 't', 'i', 'm', 'e', '=']

/-- Go `parseTimeString`. -/
def parseTimeString (timeStr : Str) : ℚ :=
  match timeReFind timeStr with
  | none => 0
  | some g =>
    let hours := Atoi g.g1
    let minutes := Atoi g.g2
    let seconds := Atoi g.g3
    let microseconds := Atoi g.g4
    let microsecondsFloat : ℚ := (microseconds : ℚ) / 1000000
    ((hours * 3600 + minutes * 60 + seconds : Nat) : ℚ) + microsecondsFloat

/-- The body of the loop of `monitorLines`: the calls made for one line. -/
def monitorLine (fc : FFmpegConverter) (totalDuration : ℚ) (line : Str) : List Event :=
  if HasPrefix line outTimeLit then
    let timeStr := TrimPrefix line outTimeLit
    let currentTime := parseTimeString timeStr
    if totalDuration > 0 ∧ currentTime > 0 then
      let progress := currentTime / totalDuration
      let progress := if progress > 1 then 1 else progress
      (if fc.progressCallback then [Event.progress progress] else [])
        ++ (if fc.statusCallback then [Event.status (Status.percent (progress * 100))] else [])
    else []
  else []

/-- The loop `for scanner.Scan()` of `monitorProgress` over the lines the scanner
delivers, in order. -/
def monitorLines (fc : FFmpegConverter) (totalDuration : ℚ) : List Str → List Event
  | [] => []
  | line :: rest => monitorLine fc totalDuration line ++ monitorLines fc totalDuration rest

/-- Go `monitorProgress`: the calls made for the stream `stderr`. -/
def monitorProgress (fc : FFmpegConverter) (totalDuration : ℚ) (stderr : Str) : List Event :=
  monitorLines fc totalDuration (scanLines stderr)

/-- The fractions among a list of callback calls. -/
def fractions : List Event → List ℚ
  | [] => []
  | Event.progress p :: es => p :: fractions es
  | Event.status _ :: es => fractions es

/-- The loop `for scanner.Scan()` of `GetVideoDuration` over the lines the
scanner delivers; the zero value of `duration` stands when no line matches. -/
def scanDurationLines : List Str → ℚ
  | [] => 0
  | line :: rest =>
    if Contains line ['D', 'u', 'r', 'a', 't', 'i', 'o', 'n', ':'] then
      match durationReFind line with
      | some g =>
        let hours := Atoi g.g1
        let minutes := Atoi g.g2
        let seconds := Atoi g.g3
        let milliseconds := Atoi g.g4
        ((hours * 3600 + minutes * 60 + seconds : Nat) : ℚ) + (milliseconds : ℚ) / 100
      | none => scanDurationLines rest
    else scanDurationLines rest

/-- The scan of `GetVideoDuration` over the diagnostic stream `stderr`. -/
def scanDuration (stderr : Str) : ℚ := scanDurationLines (scanLines stderr)

/-! ## `path/filepath` on a Unix system

The separator is `/`, there are no volume names and `FromSlash` is the
identity. -/

/-- Go `os.IsPathSeparator`. -/
def IsPathSeparator (c : Char) : Bool := c == '/'

/-- The condition `r+k == n || os.IsPathSeparator(path[r+k])` of `Clean`, on the
part of the path from `r+k` on. -/
def atElemEnd : Str → Bool
  | [] => true
  | c :: _ => IsPathSeparator c

/-- The loop `for out.w > dotdot && !os.IsPathSeparator(out.index(out.w)) { out.w-- }`
of `Clean`, started at `out.w = w`; the result is the final `out.w`. -/
def backtrack (out : Str) (dotdot : Nat) : Nat → Nat
  | 0 => 0
  | w + 1 =>
    if w + 1 > dotdot ∧ IsPathSeparator (out.getD (w + 1) '/') = false then
      backtrack out dotdot w
    else w + 1

/-- The main loop `for r < n` of `Clean`.  `path` is what is left to read
(`path[r:]`), `out` the bytes written so far (`out.w` is its length); every
round reads at least one byte, so the length of the path is enough fuel.  The
result is the buffer and `dotdot` on exit. -/
def cleanLoop (rooted : Bool) : Nat → Str → Str → Nat → Str × Nat
  | 0, _, out, dotdot => (out, dotdot)
  | _ + 1, [], out, dotdot => (out, dotdot)
  | fuel + 1, c :: rest, out, dotdot =>
    if IsPathSeparator c then
      -- empty path element
      cleanLoop rooted fuel rest out dotdot
    else if c == '.' && atElemEnd rest then
      -- . element
      cleanLoop rooted fuel rest out dotdot
    else if c == '.' && rest.head? == some '.' && atElemEnd rest.tail then
      -- .. element: remove to last separator
      if out.length > dotdot then
        -- can backtrack
        cleanLoop rooted fuel rest.tail (out.take (backtrack out dotdot (out.length - 1))) dotdot
      else if !rooted then
        -- cannot backtrack, but not rooted, so append .. element
        let out1 := if out.length > 0 then out ++ ['/'] else out
        let out2 := out1 ++ ['.', '.']
        cleanLoop rooted fuel rest.tail out2 out2.length
      else
        cleanLoop rooted fuel rest.tail out dotdot
    else
      -- real path element: add slash if needed, copy element
      let out1 :=
        if (rooted && out.length != 1) || (!rooted && out.length != 0) then out ++ ['/'] else out
      cleanLoop rooted fuel ((c :: rest).dropWhile (fun x => !IsPathSeparator x))
        (out1 ++ (c :: rest).takeWhile (fun x => !IsPathSeparator x)) dotdot

/-- Go `filepath.Clean`. -/
def Clean (path : Str) : Str :=
  match path with
  | [] => ['.']
  | c :: rest =>
    let rooted := IsPathSeparator c
    let out :=
      if rooted then (cleanLoop true (c :: rest).length rest ['/'] 1).1
      else (cleanLoop false (c :: rest).length (c :: rest) [] 0).1
    -- Turn empty string into "."
    if out.length = 0 then ['.'] else out

/-- Go `filepath.Join`. -/
def Join : List Str → Str
  | [] => []
  | e :: es => if e ≠ [] then Clean (List.intercalate ['/'] (e :: es)) else Join es

/-- The loop `for i >= 0 && !os.IsPathSeparator(path[i]) { i-- }` of `Dir` and
`Base`, started at `i = k - 1`; the result is the final `i + 1`. -/
def lastElemStart (path : Str) : Nat → Nat
  | 0 => 0
  | k + 1 => if IsPathSeparator (path.getD k '/') then k + 1 else lastElemStart path k

/-- Go `filepath.Dir`. -/
def Dir (path : Str) : Str :=
  Clean (path.take (lastElemStart path path.length))

/-- The loop of `Base` that strips trailing slashes, on the length of the path. -/
def stripTrailing (path : Str) : Nat → Nat
  | 0 => 0
  | k + 1 => if IsPathSeparator (path.getD k '/') then stripTrailing path k else k + 1

/-- Go `filepath.Base`. -/
def Base (path : Str) : Str :=
  if path = [] then ['.'] else
  -- Strip trailing slashes.
  let path := path.take (stripTrailing path path.length)
  -- Find the last element
  let path := path.drop (lastElemStart path path.length)
  -- If empty now, it had only slashes.
  if path = [] then ['/'] else path

/-- The loop of `Ext`, started at `i = k - 1`. -/
def extLoop (path : Str) : Nat → Str
  | 0 => []
  | k + 1 =>
    if IsPathSeparator (path.getD k '/') then []
    else if path.getD k '/' == '.' then path.drop k
    else extLoop path k

/-- Go `filepath.Ext`. -/
def Ext (path : Str) : Str := extLoop path path.length

/-- Go `strings.ToLower`.  It lowers the letters `A` to `Z`; the only other
characters Go sends to an ASCII character are U+212A and U+0130, to `k` and
`i`, which occur in no extension of `audioExts`, so the comparison made by
`GetOutputPath` is the one made here. -/
def ToLower (s : Str) : Str := s.map Char.toLower

/-! ## Output path -/

/-- The table `audioExts` of `GetOutputPath`. -/
def audioExts : List Str :=
  [['.', 'w', 'a', 'v'], ['.', 'm', 'p', '3'], ['.', 'o', 'g', 'g'], ['.', 'm', '4', 'a'],
   ['.', 'f', 'l', 'a', 'c'], ['.', 'a', 'a', 'c']]

/-- The extension `.mp3`. -/
def mp3 : Str := ['.', 'm', 'p', '3']

/-- The extension `.mp4`. -/
def mp4 : Str := ['.', 'm', 'p', '4']

/-- Go `GetOutputPath`. -/
def GetOutputPath (inputPath : Str) : Str :=
  let ext := ToLower (Ext inputPath)
  let dir := Dir inputPath
  let name := TrimSuffix (Base inputPath) (Ext inputPath)
  if audioExts.any (fun audioExt => ext == audioExt) then
    Join [dir, name ++ mp3]
  else
    Join [dir, name ++ mp4]

/-! ## The file system and the external program -/

/-- What a name refers to. -/
inductive Kind where
  /-- Anything that is not a directory. -/
  | file
  /-- A directory. -/
  | dir
deriving DecidableEq, Repr

/-- The file system: the names that exist, each with what it is.  The first
binding of a name is the one that counts. -/
abbrev FS := List (Str × Kind)

/-- The binding of a name in the file system, when there is one. -/
def lookup : FS → Str → Option Kind
  | [], _ => none
  | (n, k) :: rest, name => if n = name then some k else lookup rest name

/-- The outside of the program.  The external program: whether `ffmpeg -version`
runs and succeeds, the bytes `ffmpeg -i input` writes to its standard error
(`none` when it cannot be started), and for the transcoding run the bytes on its
standard error, whether it succeeded and the file system it leaves (`none` when
it cannot be started).  The operating system: for which names `os.Stat` fails
with an error other than "does not exist" (a name that is too long, a path
through a regular file, a directory that may not be searched), for which names
`os.Mkdir` fails whatever the names bound, and for which pairs `os.Rename`
fails whatever the names bound (permissions, another device). -/
structure Env where
  versionOk : Bool
  probe : FS → Str → Option Str
  transcode : FS → Str → Str → Option (Str × Bool × FS)
  statError : FS → Str → Bool
  mkdirError : FS → Str → Bool
  renameError : FS → Str → Str → Bool

/-- What `os.Stat` returns. -/
inductive StatResult where
  /-- No error: the name exists and is of this kind. -/
  | ok (k : Kind)
  /-- An error for which `os.IsNotExist` holds. -/
  | notExist
  /-- Any other error; `os.IsNotExist` is false of it. -/
  | failed
deriving DecidableEq, Repr

/-- Go `os.Stat`. -/
def Stat (env : Env) (fs : FS) (name : Str) : StatResult :=
  if env.statError fs name then StatResult.failed
  else
    match lookup fs name with
    | some k => StatResult.ok k
    | none => StatResult.notExist

/-- Go `os.Mkdir`, followed by the check `MkdirAll` makes when it fails: a
directory that is already there is no error.  It fails when the name is bound
and when `env.mkdirError` says so (permissions, a parent that is missing or is
no directory). -/
def Mkdir (env : Env) (fs : FS) (path : Str) : Option FS :=
  if env.mkdirError fs path = true ∨ lookup fs path ≠ none then
    match Stat env fs path with
    | StatResult.ok Kind.dir => some fs
    | _ => none
  else some ((path, Kind.dir) :: fs)

/-- Go `os.MkdirAll`.  Its loop `for i > 0 && os.IsPathSeparator(path[i-1]) { i-- }`
is `stripTrailing` and its loop `for j > 0 && !os.IsPathSeparator(path[j-1]) { j-- }`
is `lastElemStart`.  Every nested call gets a shorter path, so the length of the
path plus one is enough fuel (`mkdirAll_fuel`), and `none` is the error. -/
def MkdirAll (env : Env) (fs : FS) : Nat → Str → Option FS
  | 0, _ => none
  | fuel + 1, path =>
    match Stat env fs path with
    | StatResult.ok Kind.dir => some fs
    | StatResult.ok Kind.file => none
    | _ =>
      let i := stripTrailing path path.length
      let j := lastElemStart path i
      if j > 1 then
        -- Create parent.
        match MkdirAll env fs fuel (path.take (j - 1)) with
        | none => none
        | some fs1 => Mkdir env fs1 path
      else Mkdir env fs path

/-- Whether the path `p` lies below the path `d`. -/
def isBelow (d p : Str) : Bool := (d ++ ['/']).isPrefixOf p

/-- The name a path has after `oldpath` has become `newpath`. -/
def rebase (oldpath newpath p : Str) : Str :=
  if p = oldpath then newpath
  else if isBelow oldpath p then newpath ++ p.drop oldpath.length
  else p

/-- Go `os.Rename`: `none` is the error.  It fails when the old path does not
exist, when one path lies below the other, when the new path is a directory and
the old one is not or the other way round, and when the new path is a directory
that is not empty; otherwise what the new path was bound to is replaced, and
the old path and all that lies below it move. -/
def Rename (env : Env) (fs : FS) (oldpath newpath : Str) : Option FS :=
  if env.renameError fs oldpath newpath then none
  else
    match lookup fs oldpath with
    | none => none
    | some k =>
      if oldpath = newpath then some fs
      else if isBelow oldpath newpath || isBelow newpath oldpath then none
      else if lookup fs newpath ≠ none ∧ lookup fs newpath ≠ some k then none
      else if fs.any (fun e => isBelow newpath e.1) then none
      else some ((fs.filter (fun e => e.1 ≠ newpath)).map
        (fun e => (rebase oldpath newpath e.1, e.2)))

/-- The errors `ConvertWithProgress` returns. -/
inductive Error where
  /-- The error of `CheckFFmpeg`. -/
  | ffmpegMissing
  /-- The backup directory could not be created. -/
  | mkdirFailed
  /-- The error of `os.Rename`. -/
  | renameFailed
  /-- The transcoding process could not be started. -/
  | startFailed
  /-- The transcoding process ended with an error. -/
  | execFailed
deriving DecidableEq, Repr

/-- What the converter does to the outside, in the order in which it does it. -/
inductive Action where
  /-- The program `ffmpeg` is run with these arguments. -/
  | exec (args : List Str)
  /-- A call of `os.MkdirAll`. -/
  | mkdirAll (dir : Str)
  /-- A call of `os.Rename`. -/
  | rename (oldpath newpath : Str)
  /-- A call of one of the callbacks. -/
  | call (e : Event)
deriving DecidableEq

/-- How a function of the converter ends: its error, the file system it leaves
and what it did. -/
structure Outcome where
  err : Option Error
  fs : FS
  log : List Action
deriving DecidableEq

/-- The name of the program. -/
def ffmpeg : Str := ['f', 'f', 'm', 'p', 'e', 'g']

/-- Go `CheckFFmpeg`: `true` when there is no error. -/
def CheckFFmpeg (env : Env) : Bool := env.versionOk

/-- The verb `%d` of `fmt.Sprintf` for a counter that is not negative. -/
def itoa (i : Nat) : Str := Nat.toDigits 10 i

/-- The name of the backup directory. -/
def backupName : Str := ['b', 'a', 'c', 'k', 'u', 'p']

/-- The loop of `BackupExistingFile` that looks for a free backup path, entered
with the counter `i` and the current `backupPath`; it goes on unless the error
of `os.Stat` is one for which `os.IsNotExist` holds.  `none` when the fuel runs
out before it ends. -/
def probeLoop (env : Env) (fs : FS) (backupDir base : Str) : Nat → Nat → Str → Option Str
  | 0, _, _ => none
  | fuel + 1, i, backupPath =>
    if Stat env fs backupPath = StatResult.notExist then some backupPath
    else probeLoop env fs backupDir base fuel (i + 1) (Join [backupDir, base ++ '.' :: itoa i])

/-- Go `BackupExistingFile`; `none` when the fuel of the search runs out. -/
def BackupExistingFile (fc : FFmpegConverter) (env : Env) (fuel : Nat) (fs : FS)
    (outputPath : Str) : Option Outcome :=
  if Stat env fs outputPath = StatResult.notExist then some ⟨none, fs, []⟩
  else
    let backupDir := Join [Dir outputPath, backupName]
    match MkdirAll env fs (backupDir.length + 1) backupDir with
    | none => some ⟨some Error.mkdirFailed, fs, [Action.mkdirAll backupDir]⟩
    | some fs1 =>
      match probeLoop env fs1 backupDir (Base outputPath) fuel 1
          (Join [backupDir, Base outputPath]) with
      | none => none
      | some backupPath =>
        let log := [Action.mkdirAll backupDir]
          ++ (if fc.statusCallback then [Action.call (Event.status (Status.backup backupPath))]
              else [])
          ++ [Action.rename outputPath backupPath]
        match Rename env fs1 outputPath backupPath with
        | none => some ⟨some Error.renameFailed, fs1, log⟩
        | some fs2 => some ⟨none, fs2, log⟩

/-- Go `GetVideoDuration`: the duration and whether there was an error, which is
the error of `cmd.Start`. -/
def GetVideoDuration (env : Env) (fs : FS) (inputPath : Str) : ℚ × Bool :=
  match env.probe fs inputPath with
  | none => (0, true)
  | some stderr => (scanDuration stderr, false)

/-- The arguments of the transcoding run. -/
def transcodeArgs (inputPath outputPath : Str) : List Str :=
  [['-', 'y'], ['-', 'i'], inputPath, ['-', 'c', ':', 'v'], ['l', 'i', 'b', 'x', '2', '6', '4'],
   ['-', 'p', 'r', 'e', 's', 'e', 't'], ['u', 'l', 't', 'r', 'a', 'f', 'a', 's', 't'],
   ['-', 'c', ':', 'a'], ['a', 'a', 'c'], ['-', 'p', 'r', 'o', 'g', 'r', 'e', 's', 's'],
   ['p', 'i', 'p', 'e', ':', '2'], outputPath]

/-- Go `ConvertFile`.  The monitor runs beside the wait for the process; here
its calls come first, in the order of the lines. -/
def ConvertFile (fc : FFmpegConverter) (env : Env) (fs : FS) (inputPath outputPath : Str) :
    Outcome :=
  let d := GetVideoDuration env fs inputPath
  let duration := if d.2 then 0 else d.1
  let log := [Action.exec [ffmpeg, ['-', 'i'], inputPath],
    Action.exec (ffmpeg :: transcodeArgs inputPath outputPath)]
  match env.transcode fs inputPath outputPath with
  | none => ⟨some Error.startFailed, fs, log⟩
  | some (stderr, ok, fs1) =>
    let log := log ++ (monitorProgress fc duration stderr).map Action.call
    if ok then
      ⟨none, fs1, log ++ (if fc.progressCallback then [Action.call (Event.progress 1)] else [])⟩
    else ⟨some Error.execFailed, fs1, log⟩

/-- Go `ConvertWithProgress`; the two arguments say whether the callbacks given
are non-nil.  `none` when the fuel of the backup search runs out. -/
def ConvertWithProgress (env : Env) (fuel : Nat) (fs : FS) (inputPath : Str)
    (progressCallback statusCallback : Bool) : Option Outcome :=
  let fc : FFmpegConverter := ⟨progressCallback, statusCallback⟩
  let log0 := [Action.exec [ffmpeg, ['-', 'v', 'e', 'r', 's', 'i', 'o', 'n']]]
  if CheckFFmpeg env = false then some ⟨some Error.ffmpegMissing, fs, log0⟩
  else
    let outputPath := GetOutputPath inputPath
    match BackupExistingFile fc env fuel fs outputPath with
    | none => none
    | some b =>
      match b.err with
      | some e => some ⟨some e, b.fs, log0 ++ b.log⟩
      | none =>
        let log1 := log0 ++ b.log
          ++ (if statusCallback then [Action.call (Event.status (Status.start (Base inputPath)))]
              else [])
        let c := ConvertFile fc env b.fs inputPath outputPath
        match c.err with
        | some e => some ⟨some e, c.fs, log1 ++ c.log⟩
        | none =>
          some ⟨none, c.fs, log1 ++ c.log
            ++ (if statusCallback then [Action.call (Event.status (Status.done outputPath))]
                else [])⟩

/-! ## Reference notions used in the statements -/

/-- Value of a decimal digit character. -/
def digitVal (c : Char) : Nat := c.toNat - 48

/-- The text `h1h2:m1m2:s1s2.` followed by a fraction. -/
def timeText (h1 h2 m1 m2 s1 s2 : Char) (frac : Str) : Str :=
  [h1, h2, ':', m1, m2, ':', s1, s2, '.'] ++ frac

/-- Whole seconds denoted by `h1h2:m1m2:s1s2`. -/
def wholeSeconds (h1 h2 m1 m2 s1 s2 : Char) : Nat :=
  (10 * digitVal h1 + digitVal h2) * 3600 + (10 * digitVal m1 + digitVal m2) * 60
    + (10 * digitVal s1 + digitVal s2)

/-- A string has an occurrence of `\d{2}:\d{2}:\d{2}\.\d+`. -/
def HasTimeMatch (s : Str) : Prop :=
  ∃ pre h1 h2 m1 m2 s1 s2 f rest, isDigit h1 = true ∧ isDigit h2 = true ∧ isDigit m1 = true
    ∧ isDigit m2 = true ∧ isDigit s1 = true ∧ isDigit s2 = true ∧ isDigit f = true
    ∧ s = pre ++ (timeText h1 h2 m1 m2 s1 s2 [f] ++ rest)

/-- The text `Duration: h1h2:m1m2:s1s2.c1c2`. -/
def durationText (h1 h2 m1 m2 s1 s2 c1 c2 : Char) : Str :=
  durationLit ++ [h1, h2, ':', m1, m2, ':', s1, s2, '.', c1, c2]

/-- A string has an occurrence of `Duration: \d{2}:\d{2}:\d{2}\.\d{2}`. -/
def HasDurationMatch (s : Str) : Prop :=
  ∃ pre h1 h2 m1 m2 s1 s2 c1 c2 rest, isDigit h1 = true ∧ isDigit h2 = true
    ∧ isDigit m1 = true ∧ isDigit m2 = true ∧ isDigit s1 = true ∧ isDigit s2 = true
    ∧ isDigit c1 = true ∧ isDigit c2 = true
    ∧ s = pre ++ (durationText h1 h2 m1 m2 s1 s2 c1 c2 ++ rest)

/-- The out_time samples of a stream that `monitorLines` acts on: the parsed
times, when positive, of the lines that start with `out_time=`. -/
def samples : List Str → List ℚ
  | [] => []
  | line :: rest =>
    if HasPrefix line outTimeLit = true ∧ 0 < parseTimeString (line.drop 9) then
      parseTimeString (line.drop 9) :: samples rest
    else samples rest

/-- The elements of a path: the pieces between separators. -/
def splitSep : Str → List Str
  | [] => [[]]
  | c :: cs =>
    if IsPathSeparator c then [] :: splitSep cs
    else (c :: (splitSep cs).headD []) :: (splitSep cs).tail

/-- What the default case of `Clean` writes for the element `e`. -/
def pushElem (rooted : Bool) (out e : Str) : Str :=
  (if (rooted && out.length != 1) || (!rooted && out.length != 0) then out ++ ['/'] else out) ++ e

/-- What the `..` case of `Clean` writes when it cannot backtrack. -/
def pushDotDot (out : Str) : Str :=
  (if out.length > 0 then out ++ ['/'] else out) ++ ['.', '.']

/-- One round of the loop of `Clean`, seen as acting on a whole element. -/
def stepElem (rooted : Bool) (s : Str × Nat) (e : Str) : Str × Nat :=
  if e = [] ∨ e = ['.'] then s
  else if e = ['.', '.'] then
    if s.1.length > s.2 then (s.1.take (backtrack s.1 s.2 (s.1.length - 1)), s.2)
    else if !rooted then (pushDotDot s.1, (pushDotDot s.1).length)
    else s
  else (pushElem rooted s.1 e, s.2)

/-- An element that `Clean` copies: not empty, not `.`, not `..`, no separator. -/
def Regular (e : Str) : Prop := e ≠ [] ∧ e ≠ ['.'] ∧ e ≠ ['.', '.'] ∧ ∀ c ∈ e, c ≠ '/'

/-- The buffer and `dotdot` with which `Clean` enters its loop. -/
def initState (rooted : Bool) : Str × Nat := if rooted then (['/'], 1) else ([], 0)

/-- Whether `Clean` treats the path as rooted. -/
def isRooted (path : Str) : Bool := path.head? == some '/'

/-- The buffer and `dotdot` when `Clean` leaves its loop. -/
def cleanState (path : Str) : Str × Nat :=
  (splitSep (path.drop (if isRooted path then 1 else 0))).foldl (stepElem (isRooted path))
    (initState (isRooted path))

/-- The states of the loop of `Clean` that can be reached from the initial one. -/
inductive Reach (rooted : Bool) : Str × Nat → Prop
  | init : Reach rooted (initState rooted)
  | push {out : Str} {dd : Nat} {e : Str} :
      Reach rooted (out, dd) → Regular e → Reach rooted (pushElem rooted out e, dd)
  | dotdot {out : Str} :
      rooted = false → Reach rooted (out, out.length) →
      Reach rooted (pushDotDot out, (pushDotDot out).length)

/-- A path that is empty or ends in a separator: the part of a path before its
last element. -/
def IsDirPart (a : Str) : Prop := a = [] ∨ ∃ b, a = b ++ ['/']

/-- A string without separator. -/
def NoSep (e : Str) : Prop := ∀ c ∈ e, c ≠ '/'

/-- A string without dot. -/
def NoDot (e : Str) : Prop := ∀ c ∈ e, c ≠ '.'

/-- The extension `GetOutputPath` gives to an input whose extension is `ext`. -/
def newExt (ext : Str) : Str := if ToLower ext ∈ audioExts then mp3 else mp4

/-- The backup directory `BackupExistingFile` uses for `outputPath`. -/
def backupDirOf (outputPath : Str) : Str := Join [Dir outputPath, backupName]

/-- The backup paths `BackupExistingFile` tries for `outputPath`, in order: the
base of the output path in the backup directory, then the same with `.1`,
`.2` and so on appended. -/
def candidate (outputPath : Str) (n : Nat) : Str :=
  if n = 0 then Join [backupDirOf outputPath, Base outputPath]
  else Join [backupDirOf outputPath, Base outputPath ++ '.' :: itoa n]

/-- The seconds denoted by `h1h2:m1m2:s1s2.f1f2f3f4f5f6`, as a rational. -/
def microTime (h1 h2 m1 m2 s1 s2 f1 f2 f3 f4 f5 f6 : Char) : ℚ :=
  (wholeSeconds h1 h2 m1 m2 s1 s2 : ℚ)
    + ((100000 * digitVal f1 + 10000 * digitVal f2 + 1000 * digitVal f3
        + 100 * digitVal f4 + 10 * digitVal f5 + digitVal f6 : Nat) : ℚ) / 1000000

/-- The line `out_time=h1h2:m1m2:s1s2.f1f2f3f4f5f6`. -/
def outTimeLine (h1 h2 m1 m2 s1 s2 f1 f2 f3 f4 f5 f6 : Char) : Str :=
  outTimeLit ++ [h1, h2, ':', m1, m2, ':', s1, s2, '.', f1, f2, f3, f4, f5, f6]

/-- The stream made of the given lines, each ended by a newline. -/
def joinLines : List Str → Str
  | [] => []
  | l :: ls => l ++ '\n' :: joinLines ls

/-- A line without newline. -/
def NoNewline (l : Str) : Prop := ∀ c ∈ l, c ≠ '\n'

/-- A line the scanner delivers as it is: no newline inside, shorter than the
buffer, no carriage return at its end. -/
def Scannable (l : Str) : Prop :=
  NoNewline l ∧ byteLen l < maxScanTokenSize ∧ l.getLast? ≠ some '\r'

/-- Whether an element of the path is longer than the 255 bytes a name may have. -/
def tooLong (p : Str) : Bool := (splitSep p).any (fun e => decide (255 < byteLen e))

/-- Whether the path runs through a name that is bound to a regular file. -/
def underFile (fs : FS) (p : Str) : Bool :=
  fs.any (fun e => decide (e.2 = Kind.file) && isBelow e.1 p)

/-- An operating system whose `os.Stat` fails with `ENAMETOOLONG`, an error
other than "does not exist", for a path with an element of more than 255 bytes;
`ffmpeg` is there and its runs cannot be started. -/
def nameLimit : Env :=
  ⟨true, fun _ _ => none, fun _ _ _ => none, fun _ p => tooLong p, fun _ _ => false,
    fun _ _ _ => false⟩

/-- An operating system whose `os.Stat` and `os.Mkdir` fail with `ENOTDIR`, an
error other than "does not exist", for a path through a regular file; `ffmpeg`
is there and its runs cannot be started. -/
def notDir : Env :=
  ⟨true, fun _ _ => none, fun _ _ _ => none, fun fs p => underFile fs p,
    fun fs p => underFile fs p, fun _ _ _ => false⟩

/-- An operating system without such errors; `ffmpeg` is there and its runs
cannot be started. -/
def plain : Env :=
  ⟨true, fun _ _ => none, fun _ _ _ => none, fun _ _ => false, fun _ _ => false,
    fun _ _ _ => false⟩

/-- A file name of 255 bytes. -/
def longBase : Str := List.replicate 251 'x' ++ ['.', 'm', 'p', '4']

/-- The output path `/v/` followed by `longBase`. -/
def longPath : Str := ['/', 'v', '/'] ++ longBase

/-- A file system in which `longPath` and its first backup path exist. -/
def longFS : FS :=
  [(longPath, Kind.file), (['/', 'v', '/', 'b', 'a', 'c', 'k', 'u', 'p'], Kind.dir),
    (['/', 'v', '/', 'b', 'a', 'c', 'k', 'u', 'p', '/'] ++ longBase, Kind.file),
    (['/', 'v'], Kind.dir)]

/-! # Properties -/

theorem digitVal_le {c : Char} (h : isDigit c = true) : digitVal c ≤ 9 := by
  simp [isDigit] at h
  unfold digitVal
  omega

theorem atoi_two {a b : Char} (ha : isDigit a = true) (hb : isDigit b = true) :
    Atoi [a, b] = 10 * digitVal a + digitVal b := by
  have h1 := digitVal_le ha
  have h2 := digitVal_le hb
  simp only [Atoi, decimalValue, List.foldl, digitVal] at *
  omega

theorem atoi_six {a b c d e f : Char} (ha : isDigit a = true) (hb : isDigit b = true)
    (hc : isDigit c = true) (hd : isDigit d = true) (he : isDigit e = true)
    (hf : isDigit f = true) :
    Atoi [a, b, c, d, e, f] = 100000 * digitVal a + 10000 * digitVal b + 1000 * digitVal c
      + 100 * digitVal d + 10 * digitVal e + digitVal f := by
  have h1 := digitVal_le ha
  have h2 := digitVal_le hb
  have h3 := digitVal_le hc
  have h4 := digitVal_le hd
  have h5 := digitVal_le he
  have h6 := digitVal_le hf
  simp only [Atoi, decimalValue, List.foldl, digitVal] at *
  omega

theorem timeReAt_shape {h1 h2 m1 m2 s1 s2 f : Char} (rest : Str)
    (hh1 : isDigit h1 = true) (hh2 : isDigit h2 = true) (hm1 : isDigit m1 = true)
    (hm2 : isDigit m2 = true) (hs1 : isDigit s1 = true) (hs2 : isDigit s2 = true)
    (hf : isDigit f = true) :
    timeReAt (timeText h1 h2 m1 m2 s1 s2 [f] ++ rest)
      = some ⟨[h1, h2], [m1, m2], [s1, s2], f :: rest.takeWhile isDigit⟩ := by
  simp [timeText, timeReAt, hh1, hh2, hm1, hm2, hs1, hs2, hf]

theorem timeReAt_inv {s : Str} {g : Groups} (h : timeReAt s = some g) :
    ∃ h1 h2 m1 m2 s1 s2 f rest, isDigit h1 = true ∧ isDigit h2 = true ∧ isDigit m1 = true
      ∧ isDigit m2 = true ∧ isDigit s1 = true ∧ isDigit s2 = true ∧ isDigit f = true
      ∧ s = timeText h1 h2 m1 m2 s1 s2 [f] ++ rest := by
  unfold timeReAt at h
  split at h
  · rename_i h1 h2 c1 m1 m2 c2 s1 s2 d f rest
    split at h
    · rename_i hc
      simp only [Bool.and_eq_true, beq_iff_eq] at hc
      obtain ⟨⟨⟨⟨⟨⟨⟨⟨⟨a1, a2⟩, a3⟩, a4⟩, a5⟩, a6⟩, a7⟩, a8⟩, a9⟩, a10⟩ := hc
      subst a3 a6 a9
      exact ⟨h1, h2, m1, m2, s1, s2, f, rest, a1, a2, a4, a5, a7, a8, a10, by simp [timeText]⟩
    · cases h
  · cases h

theorem timeReFind_of_at {s : Str} {g : Groups} (h : timeReAt s = some g) :
    timeReFind s = some g := by
  cases s with
  | nil => simp [timeReAt] at h
  | cons c cs => rw [timeReFind, h]

theorem timeReFind_timeText {h1 h2 m1 m2 s1 s2 f : Char} (frac : Str)
    (hh1 : isDigit h1 = true) (hh2 : isDigit h2 = true) (hm1 : isDigit m1 = true)
    (hm2 : isDigit m2 = true) (hs1 : isDigit s1 = true) (hs2 : isDigit s2 = true)
    (hf : isDigit f = true) (hfrac : ∀ c ∈ frac, isDigit c = true) :
    timeReFind (timeText h1 h2 m1 m2 s1 s2 (f :: frac))
      = some ⟨[h1, h2], [m1, m2], [s1, s2], f :: frac⟩ := by
  have h := timeReAt_shape frac hh1 hh2 hm1 hm2 hs1 hs2 hf
  have htw : List.takeWhile isDigit frac = frac := by
    rw [List.takeWhile_eq_self_iff]
    exact hfrac
  rw [htw] at h
  have hc : timeText h1 h2 m1 m2 s1 s2 [f] ++ frac = timeText h1 h2 m1 m2 s1 s2 (f :: frac) := by
    simp [timeText]
  rw [hc] at h
  exact timeReFind_of_at h

theorem parseTimeString_exact (h1 h2 m1 m2 s1 s2 f1 f2 f3 f4 f5 f6 : Char)
    (hh1 : isDigit h1 = true) (hh2 : isDigit h2 = true) (hm1 : isDigit m1 = true)
    (hm2 : isDigit m2 = true) (hs1 : isDigit s1 = true) (hs2 : isDigit s2 = true)
    (hf1 : isDigit f1 = true) (hf2 : isDigit f2 = true) (hf3 : isDigit f3 = true)
    (hf4 : isDigit f4 = true) (hf5 : isDigit f5 = true) (hf6 : isDigit f6 = true) :
    parseTimeString (timeText h1 h2 m1 m2 s1 s2 [f1, f2, f3, f4, f5, f6])
      = microTime h1 h2 m1 m2 s1 s2 f1 f2 f3 f4 f5 f6 := by
  have h := timeReFind_timeText [f2, f3, f4, f5, f6] hh1 hh2 hm1 hm2 hs1 hs2 hf1
    (by simp [hf2, hf3, hf4, hf5, hf6])
  simp only [parseTimeString, h, atoi_two hh1 hh2, atoi_two hm1 hm2, atoi_two hs1 hs2,
    atoi_six hf1 hf2 hf3 hf4 hf5 hf6, wholeSeconds, microTime]

theorem timeReFind_eq_none_iff (s : Str) : timeReFind s = none ↔ ¬ HasTimeMatch s := by
  induction s with
  | nil =>
    simp only [timeReFind, true_iff]
    rintro ⟨pre, h1, h2, m1, m2, s1, s2, f, rest, -, -, -, -, -, -, -, he⟩
    simp [timeText] at he
  | cons c cs ih =>
    constructor
    · intro h
      rw [timeReFind] at h
      split at h
      · cases h
      · rename_i hat
        rintro ⟨pre, h1, h2, m1, m2, s1, s2, f, rest, a1, a2, a3, a4, a5, a6, a7, he⟩
        cases pre with
        | nil =>
          rw [he, List.nil_append, timeReAt_shape rest a1 a2 a3 a4 a5 a6 a7] at hat
          cases hat
        | cons p ps =>
          rw [List.cons_append, List.cons.injEq] at he
          exact (ih.mp h) ⟨ps, h1, h2, m1, m2, s1, s2, f, rest, a1, a2, a3, a4, a5, a6, a7, he.2⟩
    · intro h
      rw [timeReFind]
      split
      · rename_i g hat
        obtain ⟨h1, h2, m1, m2, s1, s2, f, rest, a1, a2, a3, a4, a5, a6, a7, he⟩ := timeReAt_inv hat
        exact absurd ⟨[], h1, h2, m1, m2, s1, s2, f, rest, a1, a2, a3, a4, a5, a6, a7, he⟩ h
      · rw [ih]
        rintro ⟨pre, h1, h2, m1, m2, s1, s2, f, rest, a1, a2, a3, a4, a5, a6, a7, he⟩
        exact h ⟨c :: pre, h1, h2, m1, m2, s1, s2, f, rest, a1, a2, a3, a4, a5, a6, a7, by rw [he]; rfl⟩

theorem durationReAt_shape {h1 h2 m1 m2 s1 s2 c1 c2 : Char} (rest : Str)
    (hh1 : isDigit h1 = true) (hh2 : isDigit h2 = true) (hm1 : isDigit m1 = true)
    (hm2 : isDigit m2 = true) (hs1 : isDigit s1 = true) (hs2 : isDigit s2 = true)
    (hc1 : isDigit c1 = true) (hc2 : isDigit c2 = true) :
    durationReAt (durationText h1 h2 m1 m2 s1 s2 c1 c2 ++ rest)
      = some ⟨[h1, h2], [m1, m2], [s1, s2], [c1, c2]⟩ := by
  simp [durationText, durationLit, durationReAt, HasPrefix, hh1, hh2, hm1, hm2, hs1, hs2,
    hc1, hc2]

theorem hasPrefix_iff (s pre : Str) : HasPrefix s pre = true ↔ ∃ t, s = pre ++ t := by
  unfold HasPrefix
  rw [List.isPrefixOf_iff_prefix]
  constructor
  · rintro ⟨t, ht⟩
    exact ⟨t, ht.symm⟩
  · rintro ⟨t, ht⟩
    exact ⟨t, ht.symm⟩

theorem durationReAt_inv {s : Str} {g : Groups} (h : durationReAt s = some g) :
    ∃ h1 h2 m1 m2 s1 s2 c1 c2 rest, isDigit h1 = true ∧ isDigit h2 = true
      ∧ isDigit m1 = true ∧ isDigit m2 = true ∧ isDigit s1 = true ∧ isDigit s2 = true
      ∧ isDigit c1 = true ∧ isDigit c2 = true
      ∧ s = durationText h1 h2 m1 m2 s1 s2 c1 c2 ++ rest := by
  unfold durationReAt at h
  split at h
  · rename_i hp
    obtain ⟨t, rfl⟩ := (hasPrefix_iff _ _).mp hp
    have hd : List.drop 10 (durationLit ++ t) = t := by
      simp [durationLit]
    rw [hd] at h
    split at h
    · rename_i h1 h2 k1 m1 m2 k2 s1 s2 d f1 f2 rest
      split at h
      · rename_i hc
        simp only [Bool.and_eq_true, beq_iff_eq] at hc
        obtain ⟨⟨⟨⟨⟨⟨⟨⟨⟨⟨a1, a2⟩, a3⟩, a4⟩, a5⟩, a6⟩, a7⟩, a8⟩, a9⟩, a10⟩, a11⟩ := hc
        subst a3 a6 a9
        exact ⟨h1, h2, m1, m2, s1, s2, f1, f2, rest, a1, a2, a4, a5, a7, a8, a10, a11,
          by simp [durationText]⟩
      · cases h
    · cases h
  · cases h

theorem durationReFind_eq_none_iff (s : Str) :
    durationReFind s = none ↔ ¬ HasDurationMatch s := by
  induction s with
  | nil =>
    simp only [durationReFind, true_iff]
    rintro ⟨pre, h1, h2, m1, m2, s1, s2, c1, c2, rest, -, -, -, -, -, -, -, -, he⟩
    simp [durationText, durationLit] at he
  | cons c cs ih =>
    constructor
    · intro h
      rw [durationReFind] at h
      split at h
      · cases h
      · rename_i hat
        rintro ⟨pre, h1, h2, m1, m2, s1, s2, c1, c2, rest, a1, a2, a3, a4, a5, a6, a7, a8, he⟩
        cases pre with
        | nil =>
          rw [he, List.nil_append, durationReAt_shape rest a1 a2 a3 a4 a5 a6 a7 a8] at hat
          cases hat
        | cons p ps =>
          rw [List.cons_append, List.cons.injEq] at he
          exact (ih.mp h) ⟨ps, h1, h2, m1, m2, s1, s2, c1, c2, rest, a1, a2, a3, a4, a5, a6,
            a7, a8, he.2⟩
    · intro h
      rw [durationReFind]
      split
      · rename_i g hat
        obtain ⟨h1, h2, m1, m2, s1, s2, c1, c2, rest, a1, a2, a3, a4, a5, a6, a7, a8, he⟩ :=
          durationReAt_inv hat
        exact absurd ⟨[], h1, h2, m1, m2, s1, s2, c1, c2, rest, a1, a2, a3, a4, a5, a6, a7,
          a8, he⟩ h
      · rw [ih]
        rintro ⟨pre, h1, h2, m1, m2, s1, s2, c1, c2, rest, a1, a2, a3, a4, a5, a6, a7, a8, he⟩
        exact h ⟨c :: pre, h1, h2, m1, m2, s1, s2, c1, c2, rest, a1, a2, a3, a4, a5, a6, a7,
          a8, by rw [he]; rfl⟩

theorem durationReFind_leftmost {h1 h2 m1 m2 s1 s2 c1 c2 : Char} (x y : Str)
    (hh1 : isDigit h1 = true) (hh2 : isDigit h2 = true) (hm1 : isDigit m1 = true)
    (hm2 : isDigit m2 = true) (hs1 : isDigit s1 = true) (hs2 : isDigit s2 = true)
    (hc1 : isDigit c1 = true) (hc2 : isDigit c2 = true)
    (hleft : ∀ a b k1 k2 k3 k4 k5 k6 k7 k8, isDigit k1 = true → isDigit k2 = true →
      isDigit k3 = true → isDigit k4 = true → isDigit k5 = true → isDigit k6 = true →
      isDigit k7 = true → isDigit k8 = true →
      x ++ (durationText h1 h2 m1 m2 s1 s2 c1 c2 ++ y)
        = a ++ (durationText k1 k2 k3 k4 k5 k6 k7 k8 ++ b) → x.length ≤ a.length) :
    durationReFind (x ++ (durationText h1 h2 m1 m2 s1 s2 c1 c2 ++ y))
      = some ⟨[h1, h2], [m1, m2], [s1, s2], [c1, c2]⟩ := by
  induction x with
  | nil =>
    have h := durationReAt_shape y hh1 hh2 hm1 hm2 hs1 hs2 hc1 hc2
    have hne : durationText h1 h2 m1 m2 s1 s2 c1 c2 ++ y
        = 'D' :: (['u', 'r', 'a', 't', 'i', 'o', 'n', ':', ' ', h1, h2, ':', m1, m2, ':', s1, s2,
            '.', c1, c2] ++ y) := by
      simp [durationText, durationLit]
    rw [List.nil_append]
    rw [hne] at h ⊢
    rw [durationReFind, h]
  | cons c cs ih =>
    rw [List.cons_append, durationReFind]
    split
    · rename_i g hat
      obtain ⟨k1, k2, k3, k4, k5, k6, k7, k8, b, a1, a2, a3, a4, a5, a6, a7, a8, he⟩ :=
        durationReAt_inv hat
      have := hleft [] b k1 k2 k3 k4 k5 k6 k7 k8 a1 a2 a3 a4 a5 a6 a7 a8
        (by rw [List.cons_append, he]; rfl)
      simp at this
    · apply ih
      intro a b k1 k2 k3 k4 k5 k6 k7 k8 a1 a2 a3 a4 a5 a6 a7 a8 he
      have := hleft (c :: a) b k1 k2 k3 k4 k5 k6 k7 k8 a1 a2 a3 a4 a5 a6 a7 a8
        (by rw [List.cons_append, he]; rfl)
      simpa using this

theorem contains_append_left (a s sub : Str) (h : Contains s sub = true) :
    Contains (a ++ s) sub = true := by
  induction a with
  | nil => simpa using h
  | cons c cs ih => simp [Contains, ih]

theorem contains_durationText (x y : Str) (h1 h2 m1 m2 s1 s2 c1 c2 : Char) :
    Contains (x ++ (durationText h1 h2 m1 m2 s1 s2 c1 c2 ++ y))
      ['D', 'u', 'r', 'a', 't', 'i', 'o', 'n', ':'] = true := by
  apply contains_append_left
  simp [durationText, durationLit, Contains, HasPrefix]

theorem scanDurationLines_skip (l : Str) (rest : List Str) (h : ¬ HasDurationMatch l) :
    scanDurationLines (l :: rest) = scanDurationLines rest := by
  rw [scanDurationLines, (durationReFind_eq_none_iff l).mpr h]
  simp

theorem scanDurationLines_skip_all (pre rest : List Str) (h : ∀ l ∈ pre, ¬ HasDurationMatch l) :
    scanDurationLines (pre ++ rest) = scanDurationLines rest := by
  induction pre with
  | nil => rfl
  | cons l ls ih =>
    rw [List.cons_append, scanDurationLines_skip l _ (h l (List.mem_cons_self _ _))]
    exact ih (fun l' hl => h l' (List.mem_cons_of_mem _ hl))

theorem fractions_append (a b : List Event) : fractions (a ++ b) = fractions a ++ fractions b := by
  induction a with
  | nil => rfl
  | cons e es ih =>
    cases e with
    | progress p => simp [fractions, ih]
    | status m => simp [fractions, ih]

theorem monitorLines_append (fc : FFmpegConverter) (T : ℚ) (a b : List Str) :
    monitorLines fc T (a ++ b) = monitorLines fc T a ++ monitorLines fc T b := by
  induction a with
  | nil => rfl
  | cons l ls ih => simp [monitorLines, ih]

theorem trimPrefix_outTime (line : Str) (h : HasPrefix line outTimeLit = true) :
    TrimPrefix line outTimeLit = line.drop 9 := by
  rw [TrimPrefix, if_pos h]
  rfl

theorem clamp_eq_min (p : ℚ) : (if p > 1 then 1 else p) = min 1 p := by
  split
  · rename_i h
    exact (min_eq_left (le_of_lt h)).symm
  · rename_i h
    exact (min_eq_right (not_lt.mp h)).symm

theorem fractions_monitorLine (fc : FFmpegConverter) (T : ℚ) (line : Str) :
    fractions (monitorLine fc T line)
      = if HasPrefix line outTimeLit = true ∧ 0 < parseTimeString (line.drop 9) then
          (if 0 < T ∧ fc.progressCallback = true then
            [min 1 (parseTimeString (line.drop 9) / T)] else [])
        else [] := by
  unfold monitorLine
  by_cases hp : HasPrefix line outTimeLit = true
  · simp only [hp, if_true, trimPrefix_outTime line hp, true_and, gt_iff_lt, clamp_eq_min]
    by_cases hT : 0 < T <;> by_cases he : 0 < parseTimeString (line.drop 9) <;>
      by_cases h1 : fc.progressCallback = true <;> by_cases h2 : fc.statusCallback = true <;>
      simp [hT, he, h1, h2, fractions]
  · simp [hp, fractions]

theorem fractions_monitorLines (fc : FFmpegConverter) (T : ℚ) (lines : List Str) :
    fractions (monitorLines fc T lines)
      = if 0 < T ∧ fc.progressCallback = true then
          (samples lines).map (fun e => min 1 (e / T)) else [] := by
  induction lines with
  | nil => simp [monitorLines, fractions, samples]
  | cons l ls ih =>
    rw [monitorLines, fractions_append, ih, fractions_monitorLine, samples]
    by_cases hc : HasPrefix l outTimeLit = true ∧ 0 < parseTimeString (l.drop 9) <;>
      by_cases hT : 0 < T ∧ fc.progressCallback = true <;> simp [hc, hT]

theorem monitorLine_eq_nil (fc : FFmpegConverter) (T : ℚ) (line : Str)
    (h : HasPrefix line outTimeLit = false ∨ parseTimeString (line.drop 9) = 0 ∨ T ≤ 0) :
    monitorLine fc T line = [] := by
  unfold monitorLine
  by_cases hp : HasPrefix line outTimeLit = true
  · simp only [hp, if_true, trimPrefix_outTime line hp]
    rcases h with h | h | h
    · rw [hp] at h
      cases h
    · simp [h]
    · simp [not_lt.mpr h]
  · simp [hp]

theorem parseTimeString_of_find {s : Str} {g : Groups} (h : timeReFind s = some g) :
    parseTimeString s = ((Atoi g.g1 * 3600 + Atoi g.g2 * 60 + Atoi g.g3 : Nat) : ℚ)
      + (Atoi g.g4 : ℚ) / 1000000 := by
  simp only [parseTimeString, h]

theorem scanDurationLines_of_find {l : Str} {g : Groups} (rest : List Str)
    (hc : Contains l ['D', 'u', 'r', 'a', 't', 'i', 'o', 'n', ':'] = true)
    (h : durationReFind l = some g) :
    scanDurationLines (l :: rest) = ((Atoi g.g1 * 3600 + Atoi g.g2 * 60 + Atoi g.g3 : Nat) : ℚ)
      + (Atoi g.g4 : ℚ) / 100 := by
  simp only [scanDurationLines, hc, h, if_true]

/-! ## `Clean` by elements -/

theorem splitSep_eq (path : Str) :
    splitSep path = path.takeWhile (fun x => !IsPathSeparator x)
      :: (match path.dropWhile (fun x => !IsPathSeparator x) with
          | [] => []
          | _ :: r => splitSep r) := by
  induction path with
  | nil => rfl
  | cons c cs ih =>
    by_cases hc : IsPathSeparator c = true
    · simp [splitSep, hc, List.takeWhile, List.dropWhile]
    · simp only [Bool.not_eq_true] at hc
      rw [splitSep]
      simp only [hc, Bool.false_eq_true, if_false, List.takeWhile, List.dropWhile, Bool.not_false]
      rw [ih]
      simp

theorem stepElem_nil (r : Bool) (s : Str × Nat) : stepElem r s [] = s := by
  simp [stepElem]

theorem stepElem_dot (r : Bool) (s : Str × Nat) : stepElem r s ['.'] = s := by
  simp [stepElem]

theorem foldl_splitSep (r : Bool) (s : Str × Nat) (path : Str) :
    (splitSep path).foldl (stepElem r) s
      = (splitSep (path.dropWhile (fun x => !IsPathSeparator x))).foldl (stepElem r)
          (stepElem r s (path.takeWhile (fun x => !IsPathSeparator x))) := by
  rw [splitSep_eq path]
  cases hd : path.dropWhile (fun x => !IsPathSeparator x) with
  | nil => simp [splitSep, stepElem_nil]
  | cons d ds =>
    have hsep : IsPathSeparator d = true := by
      have := List.head_dropWhile_not (fun x => !IsPathSeparator x) path (by rw [hd]; simp)
      simpa [hd] using this
    simp [splitSep, hsep, stepElem_nil]

theorem cleanLoop_eq_foldl (r : Bool) : ∀ (fuel : Nat) (path : Str) (s : Str × Nat),
    path.length ≤ fuel → cleanLoop r fuel path s.1 s.2 = (splitSep path).foldl (stepElem r) s := by
  intro fuel
  induction fuel with
  | zero =>
    intro path s h
    have : path = [] := List.length_eq_zero.mp (Nat.le_zero.mp h)
    subst this
    simp [cleanLoop, splitSep, stepElem_nil]
  | succ fuel ih =>
    intro path s h
    cases path with
    | nil => simp [cleanLoop, splitSep, stepElem_nil]
    | cons c rest =>
      have hrest : rest.length ≤ fuel := by simpa using h
      rw [cleanLoop]
      by_cases hc : IsPathSeparator c = true
      · rw [if_pos hc, ih rest s hrest]
        simp [splitSep, hc, stepElem_nil]
      · rw [if_neg hc]
        simp only [Bool.not_eq_true] at hc
        by_cases h1 : (c == '.' && atElemEnd rest) = true
        · rw [if_pos h1, ih rest s hrest, foldl_splitSep r s (c :: rest)]
          simp only [Bool.and_eq_true, beq_iff_eq] at h1
          obtain ⟨rfl, h1⟩ := h1
          cases rest with
          | nil => simp [List.takeWhile, List.dropWhile, hc, stepElem_dot]
          | cons d ds =>
            have hd : IsPathSeparator d = true := by simpa [atElemEnd] using h1
            simp [List.takeWhile, List.dropWhile, hc, hd, stepElem_dot]
        · rw [if_neg h1]
          by_cases h2 : (c == '.' && rest.head? == some '.' && atElemEnd rest.tail) = true
          · rw [if_pos h2, foldl_splitSep r s (c :: rest)]
            simp only [Bool.and_eq_true, beq_iff_eq] at h2
            obtain ⟨⟨rfl, h2⟩, h3⟩ := h2
            cases rest with
            | nil => simp at h2
            | cons d ds =>
              simp only [List.head?_cons, Option.some.injEq] at h2
              subst h2
              have hds : ds.length ≤ fuel := by
                simp at hrest
                omega
              have htw : List.takeWhile (fun x => !IsPathSeparator x) ('.' :: '.' :: ds)
                  = ['.', '.'] := by
                cases ds with
                | nil => simp [List.takeWhile, hc]
                | cons e es =>
                  have he : IsPathSeparator e = true := by simpa [atElemEnd] using h3
                  simp [List.takeWhile, hc, he]
              have hdw : List.dropWhile (fun x => !IsPathSeparator x) ('.' :: '.' :: ds) = ds := by
                cases ds with
                | nil => simp [List.dropWhile, hc]
                | cons e es =>
                  have he : IsPathSeparator e = true := by simpa [atElemEnd] using h3
                  simp [List.dropWhile, hc, he]
              rw [htw, hdw]
              simp only [List.tail_cons]
              by_cases hb : s.1.length > s.2
              · rw [if_pos hb]
                have := ih ds (s.1.take (backtrack s.1 s.2 (s.1.length - 1)), s.2) hds
                simp only at this
                rw [this]
                simp [stepElem, hb]
              · rw [if_neg hb]
                cases r with
                | true =>
                  simp only [Bool.not_true, Bool.false_eq_true, if_false]
                  rw [ih ds s hds]
                  simp [stepElem, hb]
                | false =>
                  simp only [Bool.not_false, if_true]
                  have := ih ds (pushDotDot s.1, (pushDotDot s.1).length) hds
                  simp only [pushDotDot] at this
                  rw [this]
                  simp [stepElem, hb, pushDotDot]
          · rw [if_neg h2, foldl_splitSep r s (c :: rest)]
            have hdw : ((c :: rest).dropWhile (fun x => !IsPathSeparator x)).length ≤ fuel := by
              have : (c :: rest).dropWhile (fun x => !IsPathSeparator x)
                  = rest.dropWhile (fun x => !IsPathSeparator x) := by
                simp [List.dropWhile, hc]
              rw [this]
              exact le_trans (List.dropWhile_sublist _).length_le hrest
            have := ih ((c :: rest).dropWhile (fun x => !IsPathSeparator x))
              (pushElem r s.1 ((c :: rest).takeWhile (fun x => !IsPathSeparator x)), s.2) hdw
            simp only [pushElem] at this
            rw [this]
            congr 1
            have hne1 : (c :: rest).takeWhile (fun x => !IsPathSeparator x) ≠ ['.'] := by
              intro he
              apply h1
              simp only [List.takeWhile, hc, Bool.not_false, List.cons.injEq] at he
              obtain ⟨rfl, he⟩ := he
              cases rest with
              | nil => simp [atElemEnd]
              | cons d ds =>
                by_cases hd : IsPathSeparator d = true
                · simp [atElemEnd, hd]
                · simp [List.takeWhile, hd] at he
            have hne2 : (c :: rest).takeWhile (fun x => !IsPathSeparator x) ≠ ['.', '.'] := by
              intro he
              apply h2
              simp only [List.takeWhile, hc, Bool.not_false, List.cons.injEq] at he
              obtain ⟨rfl, he⟩ := he
              cases rest with
              | nil => simp at he
              | cons d ds =>
                by_cases hd : IsPathSeparator d = true
                · simp [List.takeWhile, hd] at he
                · simp only [List.takeWhile, hd, Bool.not_eq_true, Bool.not_false,
                    List.cons.injEq] at he
                  obtain ⟨rfl, he⟩ := he
                  cases ds with
                  | nil => simp [atElemEnd]
                  | cons e es =>
                    by_cases hee : IsPathSeparator e = true
                    · simp [atElemEnd, hee]
                    · simp [List.takeWhile, hee] at he
            have hne0 : (c :: rest).takeWhile (fun x => !IsPathSeparator x) ≠ [] := by
              simp [List.takeWhile, hc]
            simp [stepElem, hne0, hne1, hne2, pushElem]

theorem getD_append_add (o l : Str) (j : Nat) (d : Char) :
    (o ++ l).getD (o.length + j) d = l.getD j d := by
  rw [List.getD_append_right _ _ _ _ (Nat.le_add_right _ _)]
  simp

theorem backtrack_sep (o e : Str) (dd : Nat) (he : ∀ c ∈ e, c ≠ '/') (hdd : dd ≤ o.length) :
    ∀ j, j ≤ e.length → backtrack (o ++ '/' :: e) dd (o.length + j) = o.length := by
  intro j
  induction j with
  | zero =>
    intro _
    cases ho : o.length with
    | zero => simp [backtrack]
    | succ w =>
      have hg : (o ++ '/' :: e).getD (w + 1) '/' = '/' := by
        have := getD_append_add o ('/' :: e) 0 '/'
        rw [ho] at this
        simpa using this
      rw [Nat.add_zero, backtrack, if_neg]
      rintro ⟨-, h⟩
      rw [hg] at h
      simp [IsPathSeparator] at h
  | succ j ih =>
    intro hj
    have hg : (o ++ '/' :: e).getD (o.length + j + 1) '/' = e.getD j '/' := by
      have := getD_append_add o ('/' :: e) (j + 1) '/'
      simpa [Nat.add_assoc] using this
    have hj2 : j < e.length := hj
    have hne : e.getD j '/' ≠ '/' := by
      rw [List.getD_eq_getElem _ _ hj2]
      exact he _ (List.getElem_mem _)
    rw [← Nat.add_assoc, backtrack, hg]
    have hgt : o.length + j + 1 > dd := by omega
    simp only [hgt, true_and, IsPathSeparator, beq_eq_false_iff_ne, ne_eq, hne, not_false_eq_true,
      if_true]
    exact ih (Nat.le_of_lt hj2)

theorem backtrack_nosep (o e : Str) (he : ∀ c ∈ e, c ≠ '/') :
    ∀ j, j < e.length → backtrack (o ++ e) o.length (o.length + j) = o.length := by
  intro j
  induction j with
  | zero =>
    intro _
    cases ho : o.length with
    | zero => simp [backtrack]
    | succ w => simp [backtrack]
  | succ j ih =>
    intro hj
    have hg : (o ++ e).getD (o.length + j + 1) '/' = e.getD (j + 1) '/' := by
      have := getD_append_add o e (j + 1) '/'
      simpa [Nat.add_assoc] using this
    have hne : e.getD (j + 1) '/' ≠ '/' := by
      rw [List.getD_eq_getElem _ _ hj]
      exact he _ (List.getElem_mem _)
    rw [← Nat.add_assoc, backtrack, hg]
    have hgt : o.length + j + 1 > o.length := by omega
    simp only [hgt, true_and, IsPathSeparator, beq_eq_false_iff_ne, ne_eq, hne, not_false_eq_true,
      if_true]
    exact ih (Nat.lt_of_succ_lt hj)

theorem reach_inv {r : Bool} {s : Str × Nat} (h : Reach r s) :
    s.2 ≤ s.1.length ∧ (r = true → s.2 = 1 ∧ s.1.head? = some '/')
      ∧ (r = false → s.1.head? ≠ some '/') := by
  induction h with
  | init => cases r <;> simp [initState]
  | @push out dd e _ hreg ih =>
    obtain ⟨h1, h2, h3⟩ := ih
    simp only at h1 h2 h3
    refine ⟨?_, ?_, ?_⟩
    · simp only [pushElem]
      split <;> simp <;> omega
    · intro hr
      obtain ⟨h2a, h2b⟩ := h2 hr
      refine ⟨h2a, ?_⟩
      cases out with
      | nil => simp at h2b
      | cons c cs =>
        simp only [List.head?_cons, Option.some.injEq] at h2b
        subst h2b
        simp only [pushElem]
        split <;> simp
    · intro hr
      have h3 := h3 hr
      subst hr
      cases out with
      | nil =>
        obtain ⟨hne, -, -, hns⟩ := hreg
        cases e with
        | nil => exact absurd rfl hne
        | cons c cs =>
          have := hns c (List.mem_cons_self _ _)
          simpa [pushElem] using this
      | cons c cs =>
        simp only [List.head?_cons, ne_eq, Option.some.injEq] at h3
        simp only [pushElem]
        split <;> simpa using h3
  | @dotdot out hr _ ih =>
    obtain ⟨-, -, h3⟩ := ih
    refine ⟨le_refl _, ?_, ?_⟩
    · intro hr2
      rw [hr] at hr2
      cases hr2
    · intro _
      have h3 := h3 hr
      cases out with
      | nil => simp [pushDotDot]
      | cons c cs =>
        simp only [List.head?_cons, ne_eq, Option.some.injEq] at h3
        simpa [pushDotDot] using h3

theorem reach_pop {r : Bool} {out : Str} {dd : Nat} (h : Reach r (out, dd)) (hgt : out.length > dd) :
    Reach r (out.take (backtrack out dd (out.length - 1)), dd) := by
  generalize hs : (out, dd) = s at h
  cases h with
  | init =>
    cases r <;> simp [initState] at hs <;> obtain ⟨rfl, rfl⟩ := hs <;> simp at hgt
  | @push out1 dd1 e h1 hreg =>
    simp only [Prod.mk.injEq] at hs
    obtain ⟨rfl, rfl⟩ := hs
    obtain ⟨hne, -, -, hns⟩ := hreg
    obtain ⟨i1, i2, i3⟩ := reach_inv h1
    simp only at i1 i2 i3
    have hpos : 0 < e.length := List.length_pos.mpr hne
    suffices hb : List.take (backtrack (pushElem r out1 e) dd
        ((pushElem r out1 e).length - 1)) (pushElem r out1 e) = out1 by
      rw [hb]
      exact h1
    by_cases hsep : ((r && out1.length != 1) || (!r && out1.length != 0)) = true
    · have hp : pushElem r out1 e = out1 ++ '/' :: e := by
        simp [pushElem, hsep]
      rw [hp]
      have hl : (out1 ++ '/' :: e).length - 1 = out1.length + e.length := by
        simp
      rw [hl, backtrack_sep out1 e dd hns i1 e.length (le_refl _)]
      simp
    · have hp : pushElem r out1 e = out1 ++ e := by
        simp [pushElem, hsep]
      have hdd : dd = out1.length := by
        cases r with
        | true =>
          obtain ⟨i2a, -⟩ := i2 rfl
          simp at hsep
          omega
        | false =>
          simp at hsep
          simp [hsep] at i1 ⊢
          exact i1
      rw [hp, hdd]
      have hl : (out1 ++ e).length - 1 = out1.length + (e.length - 1) := by
        simp
        omega
      rw [hl, backtrack_nosep out1 e hns (e.length - 1) (by omega)]
      simp
  | @dotdot out1 hr h1 =>
    simp only [Prod.mk.injEq] at hs
    obtain ⟨rfl, rfl⟩ := hs
    simp at hgt

theorem reach_step {r : Bool} {s : Str × Nat} (h : Reach r s) (e : Str)
    (he : ∀ c ∈ e, c ≠ '/') : Reach r (stepElem r s e) := by
  obtain ⟨out, dd⟩ := s
  unfold stepElem
  by_cases h0 : e = [] ∨ e = ['.']
  · rw [if_pos h0]
    exact h
  · rw [if_neg h0]
    by_cases h2 : e = ['.', '.']
    · rw [if_pos h2]
      by_cases hgt : out.length > dd
      · simp only [hgt, if_true]
        exact reach_pop h hgt
      · simp only [hgt, if_false]
        cases r with
        | true => simpa using h
        | false =>
          simp only [Bool.not_false, if_true]
          have hle := (reach_inv h).1
          simp only at hle
          have hdd : dd = out.length := by omega
          subst hdd
          exact Reach.dotdot rfl h
    · rw [if_neg h2]
      push_neg at h0
      exact Reach.push h ⟨h0.1, h0.2, h2, he⟩

theorem splitSep_ne_nil (p : Str) : splitSep p ≠ [] := by
  cases p with
  | nil => simp [splitSep]
  | cons c cs =>
    rw [splitSep]
    split <;> simp

theorem splitSep_append (a b : Str) : splitSep (a ++ '/' :: b) = splitSep a ++ splitSep b := by
  induction a with
  | nil => simp [splitSep, IsPathSeparator]
  | cons c cs ih =>
    rw [List.cons_append, splitSep, splitSep, ih]
    have hne := splitSep_ne_nil cs
    cases hs : splitSep cs with
    | nil => exact absurd hs hne
    | cons x xs =>
      split <;> simp

theorem splitSep_noSep (e : Str) (he : ∀ c ∈ e, c ≠ '/') : splitSep e = [e] := by
  induction e with
  | nil => rfl
  | cons c cs ih =>
    have hc : IsPathSeparator c = false := by
      simpa [IsPathSeparator] using he c (List.mem_cons_self _ _)
    rw [splitSep, ih (fun x hx => he x (List.mem_cons_of_mem _ hx))]
    simp [hc]

theorem splitSep_mem (p : Str) : ∀ e ∈ splitSep p, ∀ c ∈ e, c ≠ '/' := by
  induction p with
  | nil => simp [splitSep]
  | cons c cs ih =>
    intro e he
    rw [splitSep] at he
    have hne := splitSep_ne_nil cs
    cases hs : splitSep cs with
    | nil => exact absurd hs hne
    | cons x xs =>
      rw [hs] at he ih
      by_cases hc : IsPathSeparator c = true
      · simp only [hc, if_true, List.mem_cons] at he
        rcases he with rfl | he
        · simp
        · exact ih e (by simpa using he)
      · simp only [hc, Bool.false_eq_true, if_false, List.headD_cons, List.tail_cons,
          List.mem_cons] at he
        rcases he with rfl | he
        · intro d hd
          rcases List.mem_cons.mp hd with rfl | hd
          · simpa [IsPathSeparator] using hc
          · exact ih x (List.mem_cons_self _ _) d hd
        · exact ih e (List.mem_cons_of_mem _ he)

theorem reach_foldl {r : Bool} (es : List Str) : ∀ {s : Str × Nat}, Reach r s →
    (∀ e ∈ es, ∀ c ∈ e, c ≠ '/') → Reach r (es.foldl (stepElem r) s) := by
  induction es with
  | nil => intro s h _; exact h
  | cons e es ih =>
    intro s h he
    rw [List.foldl_cons]
    exact ih (reach_step h e (he e (List.mem_cons_self _ _)))
      (fun x hx => he x (List.mem_cons_of_mem _ hx))

theorem stepElem_regular (r : Bool) (s : Str × Nat) {e : Str} (he : Regular e) :
    stepElem r s e = (pushElem r s.1 e, s.2) := by
  obtain ⟨h0, h1, h2, -⟩ := he
  simp [stepElem, h0, h1, h2]

theorem reach_replay {r : Bool} {s : Str × Nat} (h : Reach r s) :
    (splitSep (s.1.drop (if r then 1 else 0))).foldl (stepElem r) (initState r) = s := by
  induction h with
  | init => cases r <;> simp [initState, splitSep, stepElem_nil]
  | @push out dd e h1 hreg ih =>
    obtain ⟨i1, i2, i3⟩ := reach_inv h1
    simp only at i1 i2 i3 ih
    by_cases hsep : ((r && out.length != 1) || (!r && out.length != 0)) = true
    · have hp : pushElem r out e = out ++ '/' :: e := by
        simp [pushElem, hsep]
      have hd : (out ++ '/' :: e).drop (if r then 1 else 0)
          = out.drop (if r then 1 else 0) ++ '/' :: e := by
        cases r with
        | true =>
          obtain ⟨-, i2b⟩ := i2 rfl
          cases out with
          | nil => simp at i2b
          | cons c cs => simp
        | false => simp
      simp only [hp, hd, splitSep_append, List.foldl_append, ih, splitSep_noSep e hreg.2.2.2,
        List.foldl_cons, List.foldl_nil, stepElem_regular r _ hreg]
    · have hp : pushElem r out e = out ++ e := by
        simp [pushElem, hsep]
      cases r with
      | true =>
        obtain ⟨i2a, i2b⟩ := i2 rfl
        simp at hsep
        cases out with
        | nil => simp at i2b
        | cons c cs =>
          simp only [List.head?_cons, Option.some.injEq] at i2b
          simp only [List.length_cons, Nat.add_eq_right, List.length_eq_zero] at hsep
          subst i2b hsep i2a
          simp only [hp, if_true, List.cons_append, List.nil_append, List.drop_succ_cons,
            List.drop_zero, splitSep_noSep e hreg.2.2.2, List.foldl_cons, List.foldl_nil,
            stepElem_regular true _ hreg, initState]
      | false =>
        simp at hsep
        subst hsep
        simp only [List.length_nil, Nat.le_zero_eq] at i1
        subst i1
        simp only [hp, List.nil_append, Bool.false_eq_true, if_false, List.drop_zero,
          splitSep_noSep e hreg.2.2.2, List.foldl_cons, List.foldl_nil,
          stepElem_regular false _ hreg, initState]
  | @dotdot out hr h1 ih =>
    subst hr
    simp only [Bool.false_eq_true, if_false, List.drop_zero] at ih ⊢
    cases out with
    | nil =>
      have : splitSep (pushDotDot []) = [['.', '.']] := by
        simp [pushDotDot, splitSep, IsPathSeparator]
      rw [this]
      simp [initState, stepElem, pushDotDot]
    | cons c cs =>
      have hp : pushDotDot (c :: cs) = (c :: cs) ++ '/' :: ['.', '.'] := by
        simp [pushDotDot]
      have h2 : splitSep ['.', '.'] = [['.', '.']] := by
        simp [splitSep, IsPathSeparator]
      rw [hp, splitSep_append, List.foldl_append, ih, h2]
      simp [stepElem, pushDotDot]

theorem cleanState_reach (p : Str) : Reach (isRooted p) (cleanState p) :=
  reach_foldl _ Reach.init (splitSep_mem _)

theorem clean_eq (p : Str) :
    Clean p = if (cleanState p).1.length = 0 then ['.'] else (cleanState p).1 := by
  cases p with
  | nil => simp [Clean, cleanState, isRooted, initState, splitSep, stepElem_nil]
  | cons c rest =>
    by_cases hc : IsPathSeparator c = true
    · have hr : isRooted (c :: rest) = true := by
        simpa [isRooted, IsPathSeparator] using hc
      have := cleanLoop_eq_foldl true (c :: rest).length rest (['/'], 1) (by simp)
      simp only at this
      simp only [Clean, hc, if_true, this, cleanState, hr, List.drop_succ_cons, List.drop_zero,
        initState]
    · have hr : isRooted (c :: rest) = false := by
        simpa [isRooted, IsPathSeparator] using hc
      have := cleanLoop_eq_foldl false (c :: rest).length (c :: rest) ([], 0) (le_refl _)
      simp only at this
      simp only [Clean, hc, Bool.false_eq_true, if_false, this, cleanState, hr, List.drop_zero,
        initState]

theorem clean_ne_nil (p : Str) : Clean p ≠ [] := by
  rw [clean_eq]
  split
  · simp
  · rename_i h
    intro h2
    rw [h2] at h
    simp at h

theorem cleanState_eq_nil {p : Str} (h : (cleanState p).1.length = 0) :
    isRooted p = false ∧ cleanState p = ([], 0) := by
  have hr := cleanState_reach p
  obtain ⟨i1, i2, -⟩ := reach_inv hr
  have h1 : (cleanState p).1 = [] := List.length_eq_zero.mp h
  have hroot : isRooted p = false := by
    cases hb : isRooted p with
    | false => rfl
    | true =>
      have := (i2 hb).2
      rw [h1] at this
      simp at this
  refine ⟨hroot, ?_⟩
  rw [h] at i1
  exact Prod.ext h1 (Nat.le_zero.mp i1)

theorem isRooted_clean (p : Str) : isRooted (Clean p) = isRooted p := by
  rw [clean_eq]
  split
  · rename_i h
    rw [(cleanState_eq_nil h).1]
    rfl
  · obtain ⟨-, i2, i3⟩ := reach_inv (cleanState_reach p)
    cases hb : isRooted p with
    | true =>
      have := (i2 hb).2
      simp [isRooted, this]
    | false =>
      have := i3 hb
      simpa [isRooted] using this

theorem cleanState_clean (p : Str) : cleanState (Clean p) = cleanState p := by
  have hroot := isRooted_clean p
  rw [clean_eq] at hroot ⊢
  split
  · rename_i h
    obtain ⟨-, h2⟩ := cleanState_eq_nil h
    rw [h2]
    simp [cleanState, isRooted, initState, splitSep, IsPathSeparator, stepElem_dot]
  · rename_i h
    rw [if_neg h] at hroot
    have := reach_replay (cleanState_reach p)
    rw [cleanState, hroot]
    exact this

theorem clean_idem (p : Str) : Clean (Clean p) = Clean p := by
  rw [clean_eq (Clean p), cleanState_clean, ← clean_eq]

theorem cleanState_append (a b : Str) (ha : a ≠ []) :
    cleanState (a ++ '/' :: b) = (splitSep b).foldl (stepElem (isRooted a)) (cleanState a) := by
  cases a with
  | nil => exact absurd rfl ha
  | cons c cs =>
    have hr : isRooted (c :: cs ++ '/' :: b) = isRooted (c :: cs) := by
      simp [isRooted]
    rw [cleanState, hr, cleanState]
    cases hb : isRooted (c :: cs) with
    | true =>
      simp only [if_true, List.cons_append, List.drop_succ_cons, List.drop_zero]
      rw [splitSep_append, List.foldl_append]
    | false =>
      simp only [Bool.false_eq_true, if_false, List.drop_zero]
      rw [splitSep_append, List.foldl_append]

theorem cleanState_slash (a : Str) (ha : a ≠ []) : cleanState (a ++ ['/']) = cleanState a := by
  rw [cleanState_append a [] ha]
  simp [splitSep, stepElem_nil]

theorem isRooted_append (a b : Str) (ha : a ≠ []) : isRooted (a ++ b) = isRooted a := by
  cases a with
  | nil => exact absurd rfl ha
  | cons c cs => simp [isRooted]

theorem cleanState_dirPart_append (a b : Str) :
    cleanState ((a ++ ['/']) ++ b)
      = (splitSep b).foldl (stepElem (isRooted (a ++ ['/']))) (cleanState (a ++ ['/'])) := by
  cases a with
  | nil =>
    simp [cleanState, isRooted, splitSep, stepElem_nil]
  | cons c cs =>
    have ha : (c :: cs) ≠ [] := by simp
    rw [List.append_assoc, List.singleton_append, cleanState_append _ _ ha, cleanState_slash _ ha,
      isRooted_append _ _ ha]

theorem clean_of_state {p q : Str} (h : cleanState p = cleanState q) : Clean p = Clean q := by
  rw [clean_eq, clean_eq, h]

theorem join_pair (d x : Str) (hd : d ≠ []) : Join [d, x] = Clean (d ++ '/' :: x) := by
  simp [Join, hd, List.intercalate]

theorem join_clean (a x : Str) (ha : IsDirPart a) (hx : a = [] → isRooted x = false) :
    Join [Clean a, x] = Clean (a ++ x) := by
  rw [join_pair _ _ (clean_ne_nil a)]
  apply clean_of_state
  rw [cleanState_append _ _ (clean_ne_nil a), cleanState_clean, isRooted_clean]
  rcases ha with rfl | ⟨b, rfl⟩
  · have hx := hx rfl
    rw [List.nil_append]
    cases x with
    | nil => simp [cleanState, isRooted, initState, splitSep, stepElem_nil]
    | cons c cs =>
      have hc : c ≠ '/' := by simpa [isRooted] using hx
      have hb : (c == '/') = false := beq_false_of_ne hc
      simp [cleanState, isRooted, initState, hc, hb, splitSep, stepElem_nil]
  · rw [cleanState_dirPart_append]

/-! ## `Dir`, `Base` and `Ext` -/

theorem lastElemStart_noSep (a b : Str) (hb : NoSep b) :
    ∀ j, j ≤ b.length → lastElemStart (a ++ b) (a.length + j) = lastElemStart (a ++ b) a.length := by
  intro j
  induction j with
  | zero => intro _; rfl
  | succ j ih =>
    intro hj
    have hj2 : j < b.length := hj
    have hne : b.getD j '/' ≠ '/' := by
      rw [List.getD_eq_getElem _ _ hj2]
      exact hb _ (List.getElem_mem _)
    rw [← Nat.add_assoc, lastElemStart, getD_append_add]
    simp only [IsPathSeparator, beq_iff_eq, hne, if_false]
    exact ih (Nat.le_of_lt hj2)

theorem lastElemStart_dirPart (a b : Str) (ha : IsDirPart a) :
    lastElemStart (a ++ b) a.length = a.length := by
  rcases ha with rfl | ⟨c, rfl⟩
  · rfl
  · have hg : (c ++ ['/'] ++ b).getD c.length '/' = '/' := by
      have := getD_append_add c ('/' :: b) 0 '/'
      simpa using this
    have hl : (c ++ ['/']).length = c.length + 1 := by simp
    rw [hl, lastElemStart, hg]
    simp [IsPathSeparator]

theorem lastElemStart_append (a b : Str) (ha : IsDirPart a) (hb : NoSep b) :
    lastElemStart (a ++ b) (a ++ b).length = a.length := by
  rw [List.length_append, lastElemStart_noSep a b hb b.length (le_refl _),
    lastElemStart_dirPart a b ha]

theorem dir_append (a b : Str) (ha : IsDirPart a) (hb : NoSep b) : Dir (a ++ b) = Clean a := by
  rw [Dir, lastElemStart_append a b ha hb]
  simp

theorem path_decompose (p : Str) : ∃ a b, p = a ++ b ∧ IsDirPart a ∧ NoSep b := by
  induction p using List.reverseRecOn with
  | nil => exact ⟨[], [], rfl, Or.inl rfl, by simp [NoSep]⟩
  | append_singleton q c ih =>
    by_cases hc : c = '/'
    · subst hc
      exact ⟨q ++ ['/'], [], by simp, Or.inr ⟨q, rfl⟩, by simp [NoSep]⟩
    · obtain ⟨a, b, rfl, ha, hb⟩ := ih
      refine ⟨a, b ++ [c], by simp, ha, ?_⟩
      intro x hx
      rcases List.mem_append.mp hx with hx | hx
      · exact hb x hx
      · simp at hx
        rw [hx]
        exact hc

theorem stripTrailing_last (q : Str) (c : Char) (hc : c ≠ '/') :
    stripTrailing (q ++ [c]) (q ++ [c]).length = (q ++ [c]).length := by
  have hg : (q ++ [c]).getD q.length '/' = c := by
    simp
  have hl : (q ++ [c]).length = q.length + 1 := by simp
  rw [hl, stripTrailing, hg]
  simp [IsPathSeparator, hc]

theorem base_append (a b : Str) (ha : IsDirPart a) (hb : NoSep b) (hne : b ≠ []) :
    Base (a ++ b) = b := by
  obtain ⟨q, c, rfl⟩ : ∃ q c, b = q ++ [c] := by
    rcases List.eq_nil_or_concat b with h | ⟨q, c, h⟩
    · exact absurd h hne
    · exact ⟨q, c, by simp [h]⟩
  have hc : c ≠ '/' := hb c (by simp)
  have hs : stripTrailing (a ++ (q ++ [c])) (a ++ (q ++ [c])).length
      = (a ++ (q ++ [c])).length := by
    rw [← List.append_assoc]
    exact stripTrailing_last (a ++ q) c hc
  have hnil : a ++ (q ++ [c]) ≠ [] := by simp
  rw [Base, if_neg hnil]
  simp only [hs, List.take_length, lastElemStart_append a (q ++ [c]) ha hb,
    List.drop_left]
  simp

theorem extLoop_noDotSep (a b : Str) (hs : NoSep b) (hd : NoDot b) :
    ∀ j, j ≤ b.length → extLoop (a ++ b) (a.length + j) = extLoop (a ++ b) a.length := by
  intro j
  induction j with
  | zero => intro _; rfl
  | succ j ih =>
    intro hj
    have hj2 : j < b.length := hj
    have hne : b.getD j '/' ≠ '/' := by
      rw [List.getD_eq_getElem _ _ hj2]
      exact hs _ (List.getElem_mem _)
    have hne2 : b.getD j '/' ≠ '.' := by
      rw [List.getD_eq_getElem _ _ hj2]
      exact hd _ (List.getElem_mem _)
    rw [← Nat.add_assoc, extLoop, getD_append_add]
    simp only [IsPathSeparator, beq_iff_eq, hne, hne2, if_false]
    exact ih (Nat.le_of_lt hj2)

theorem ext_dot (x e : Str) (hs : NoSep e) (hd : NoDot e) : Ext (x ++ '.' :: e) = '.' :: e := by
  have hp : x ++ '.' :: e = (x ++ ['.']) ++ e := by simp
  have hg : ((x ++ ['.']) ++ e).getD x.length '/' = '.' := by
    have := getD_append_add x ('.' :: e) 0 '/'
    simpa using this
  have hl : (x ++ ['.']).length = x.length + 1 := by simp
  rw [Ext, hp, List.length_append, extLoop_noDotSep _ e hs hd e.length (le_refl _), hl, extLoop, hg]
  simp [IsPathSeparator]

theorem ext_none (a n : Str) (ha : IsDirPart a) (hs : NoSep n) (hd : NoDot n) :
    Ext (a ++ n) = [] := by
  rw [Ext, List.length_append, extLoop_noDotSep a n hs hd n.length (le_refl _)]
  rcases ha with rfl | ⟨c, rfl⟩
  · rfl
  · have hg : (c ++ ['/'] ++ n).getD c.length '/' = '/' := by
      have := getD_append_add c ('/' :: n) 0 '/'
      simpa using this
    have hl : (c ++ ['/']).length = c.length + 1 := by simp
    rw [hl, extLoop, hg]
    simp [IsPathSeparator]

theorem dot_split (b : Str) : NoDot b ∨ ∃ n e, b = n ++ '.' :: e ∧ NoDot e := by
  induction b with
  | nil => exact Or.inl (by simp [NoDot])
  | cons c cs ih =>
    rcases ih with h | ⟨n, e, rfl, he⟩
    · by_cases hc : c = '.'
      · subst hc
        exact Or.inr ⟨[], cs, rfl, h⟩
      · left
        intro x hx
        rcases List.mem_cons.mp hx with rfl | hx
        · exact hc
        · exact h x hx
    · exact Or.inr ⟨c :: n, e, rfl, he⟩

theorem trimSuffix_append (n x : Str) : TrimSuffix (n ++ x) x = n := by
  have h : HasSuffix (n ++ x) x = true := by
    rw [HasSuffix, List.isSuffixOf_iff_suffix]
    exact List.suffix_append n x
  rw [TrimSuffix, if_pos h]
  simp

theorem trimSuffix_nil (n : Str) : TrimSuffix n [] = n := by
  have := trimSuffix_append n []
  simpa using this

theorem any_audioExts (ext : Str) :
    audioExts.any (fun audioExt => ext == audioExt) = decide (ext ∈ audioExts) := by
  rw [Bool.eq_iff_iff, List.any_eq_true, decide_eq_true_eq]
  constructor
  · rintro ⟨x, hx, h⟩
    rw [beq_iff_eq] at h
    rw [h]
    exact hx
  · intro h
    exact ⟨ext, h, by simp⟩

theorem getOutputPath_eq (p : Str) :
    GetOutputPath p = Join [Dir p, TrimSuffix (Base p) (Ext p) ++ newExt (Ext p)] := by
  simp only [GetOutputPath, any_audioExts, newExt, decide_eq_true_eq]
  split <;> rfl

theorem noSep_append {a b : Str} (ha : NoSep a) (hb : NoSep b) : NoSep (a ++ b) := by
  intro c hc
  rcases List.mem_append.mp hc with h | h
  · exact ha c h
  · exact hb c h

theorem noSep_mp3 : NoSep mp3 := by
  intro c hc
  simp [mp3] at hc
  rcases hc with rfl | rfl | rfl | rfl <;> decide

theorem noSep_mp4 : NoSep mp4 := by
  intro c hc
  simp [mp4] at hc
  rcases hc with rfl | rfl | rfl | rfl <;> decide

theorem newExt_cases (ext : Str) : newExt ext = mp3 ∨ newExt ext = mp4 := by
  unfold newExt
  split
  · exact Or.inl rfl
  · exact Or.inr rfl

theorem noSep_newExt (ext : Str) : NoSep (newExt ext) := by
  rcases newExt_cases ext with h | h <;> rw [h]
  · exact noSep_mp3
  · exact noSep_mp4

theorem isRooted_of_noSep (n x : Str) (hn : NoSep n) (hx : NoSep x) : isRooted (n ++ x) = false := by
  have h := noSep_append hn hx
  cases hnx : n ++ x with
  | nil => rfl
  | cons c cs =>
    have : c ≠ '/' := h c (by rw [hnx]; exact List.mem_cons_self _ _)
    simpa [isRooted] using this

theorem getOutputPath_ext (a n e : Str) (ha : IsDirPart a) (hn : NoSep n) (he : NoSep e)
    (hd : NoDot e) :
    GetOutputPath (a ++ n ++ '.' :: e) = Clean (a ++ n ++ newExt ('.' :: e)) := by
  have hb : NoSep (n ++ '.' :: e) := by
    apply noSep_append hn
    intro c hc
    rcases List.mem_cons.mp hc with rfl | hc
    · decide
    · exact he c hc
  have hext : Ext (a ++ n ++ '.' :: e) = '.' :: e := ext_dot (a ++ n) e he hd
  have hdir : Dir (a ++ n ++ '.' :: e) = Clean a := by
    rw [List.append_assoc]
    exact dir_append a _ ha hb
  have hbase : Base (a ++ n ++ '.' :: e) = n ++ '.' :: e := by
    rw [List.append_assoc]
    exact base_append a _ ha hb (by simp)
  rw [getOutputPath_eq, hext, hdir, hbase, trimSuffix_append,
    join_clean a _ ha (fun _ => isRooted_of_noSep n _ hn (noSep_newExt _)), List.append_assoc]

theorem newExt_nil : newExt [] = mp4 := by
  decide

theorem getOutputPath_noext (a n : Str) (ha : IsDirPart a) (hn : NoSep n) (hd : NoDot n)
    (hne : n ≠ []) :
    GetOutputPath (a ++ n) = Clean (a ++ n ++ mp4) := by
  rw [getOutputPath_eq, ext_none a n ha hn hd, dir_append a n ha hn, base_append a n ha hn hne,
    trimSuffix_nil, newExt_nil,
    join_clean a _ ha (fun _ => isRooted_of_noSep n _ hn noSep_mp4), List.append_assoc]

theorem cleanState_append_regular (a el : Str) (ha : IsDirPart a) (hel : Regular el) :
    cleanState (a ++ el) = (pushElem (isRooted a) (cleanState a).1 el, (cleanState a).2) := by
  have hs : splitSep el = [el] := splitSep_noSep el hel.2.2.2
  rcases ha with rfl | ⟨b, rfl⟩
  · have hr : isRooted el = false := by
      have := isRooted_of_noSep el [] hel.2.2.2 (by simp [NoSep])
      simpa using this
    have h0 : cleanState [] = ([], 0) := by
      simp [cleanState, isRooted, initState, splitSep, stepElem_nil]
    rw [List.nil_append, h0]
    simp only [cleanState, hr, Bool.false_eq_true, if_false, List.drop_zero, hs, List.foldl_cons,
      List.foldl_nil, stepElem_regular _ _ hel, initState]
    rfl
  · rw [cleanState_dirPart_append, hs]
    simp only [List.foldl_cons, List.foldl_nil, stepElem_regular _ _ hel]

theorem pushElem_length_pos (r : Bool) (o : Str) {el : Str} (hel : el ≠ []) :
    (pushElem r o el).length ≠ 0 := by
  have := List.length_pos.mpr hel
  simp only [pushElem, List.length_append]
  omega

theorem clean_append_regular (a el : Str) (ha : IsDirPart a) (hel : Regular el) :
    ∃ d, IsDirPart d ∧ Clean (a ++ el) = d ++ el ∧ Clean d = Clean a := by
  have hC : Clean (a ++ el) = pushElem (isRooted a) (cleanState a).1 el := by
    rw [clean_eq, cleanState_append_regular a el ha hel]
    exact if_neg (pushElem_length_pos _ _ hel.1)
  obtain ⟨-, i2, -⟩ := reach_inv (cleanState_reach a)
  have hself : (cleanState a).1 ≠ [] → Clean (cleanState a).1 = Clean a := by
    intro hne
    have h1 : Clean a = (cleanState a).1 := by
      rw [clean_eq]
      exact if_neg (fun h => hne (List.length_eq_zero.mp h))
    rw [← h1, clean_idem]
  by_cases hsep : ((isRooted a && (cleanState a).1.length != 1)
      || (!isRooted a && (cleanState a).1.length != 0)) = true
  · have hne : (cleanState a).1 ≠ [] := by
      intro h0
      cases hb : isRooted a with
      | true =>
        have := (i2 hb).2
        rw [h0] at this
        simp at this
      | false => simp [hb, h0] at hsep
    refine ⟨(cleanState a).1 ++ ['/'], Or.inr ⟨_, rfl⟩, ?_, ?_⟩
    · rw [hC]
      simp [pushElem, hsep]
    · rw [clean_of_state (cleanState_slash _ hne)]
      exact hself hne
  · refine ⟨(cleanState a).1, ?_, ?_, ?_⟩
    · cases hb : isRooted a with
      | true =>
        obtain ⟨-, hh⟩ := i2 hb
        simp only [hb, Bool.true_and, Bool.not_true, Bool.false_and, Bool.or_false,
          bne_iff_ne, ne_eq, Decidable.not_not] at hsep
        cases ho : (cleanState a).1 with
        | nil => rw [ho] at hh; simp at hh
        | cons c cs =>
          rw [ho] at hh hsep
          simp only [List.head?_cons, Option.some.injEq] at hh
          simp only [List.length_cons, Nat.add_eq_right, List.length_eq_zero] at hsep
          subst hh hsep
          exact Or.inr ⟨[], rfl⟩
      | false =>
        simp only [hb, Bool.false_and, Bool.not_false, Bool.true_and, Bool.false_or,
          bne_iff_ne, ne_eq, Decidable.not_not] at hsep
        exact Or.inl (List.length_eq_zero.mp hsep)
    · rw [hC]
      simp [pushElem, hsep]
    · by_cases hne : (cleanState a).1 = []
      · rw [hne, clean_eq a, hne]
        rfl
      · exact hself hne

theorem regular_with_ext (n : Str) {x : Str} (hn : NoSep n) (hx : NoSep x) (hlen : 3 ≤ x.length) :
    Regular (n ++ x) := by
  refine ⟨?_, ?_, ?_, noSep_append hn hx⟩
  · intro h
    have := congrArg List.length h
    rw [List.length_append] at this
    simp only [List.length_nil] at this
    omega
  · intro h
    have := congrArg List.length h
    rw [List.length_append] at this
    simp only [List.length_cons, List.length_nil] at this
    omega
  · intro h
    have := congrArg List.length h
    rw [List.length_append] at this
    simp only [List.length_cons, List.length_nil] at this
    omega

theorem newExt_length (ext : Str) : 3 ≤ (newExt ext).length := by
  rcases newExt_cases ext with h | h <;> rw [h] <;> decide

theorem dir_base_of_clean_append (a n x : Str) (ha : IsDirPart a) (hn : NoSep n) (hx : NoSep x)
    (hlen : 3 ≤ x.length) :
    Dir (Clean (a ++ n ++ x)) = Clean a ∧ Base (Clean (a ++ n ++ x)) = n ++ x := by
  have hreg := regular_with_ext n hn hx hlen
  obtain ⟨d, hd, hC, hcd⟩ := clean_append_regular a (n ++ x) ha hreg
  rw [List.append_assoc, hC]
  exact ⟨by rw [dir_append d _ hd hreg.2.2.2, hcd], base_append d _ hd hreg.2.2.2 hreg.1⟩

theorem newExt_mp3 : newExt mp3 = mp3 := by decide

theorem newExt_mp4 : newExt mp4 = mp4 := by decide

theorem getOutputPath_fixed (q : Str) (hc : Clean q = q) (he : Ext q = mp3 ∨ Ext q = mp4) :
    GetOutputPath q = q := by
  obtain ⟨a, b, rfl, ha, hb⟩ := path_decompose q
  rcases dot_split b with hnd | ⟨n, e, rfl, hde⟩
  · rw [ext_none a b ha hb hnd] at he
    rcases he with he | he <;> simp [mp3, mp4] at he
  · have hn : NoSep n := fun c hc => hb c (List.mem_append_left _ hc)
    have hes : NoSep e := fun c hc => hb c (List.mem_append_right _ (List.mem_cons_of_mem _ hc))
    have hext : Ext (a ++ (n ++ '.' :: e)) = '.' :: e := by
      rw [← List.append_assoc]
      exact ext_dot (a ++ n) e hes hde
    rw [hext] at he
    have hnew : newExt ('.' :: e) = '.' :: e := by
      rcases he with he | he <;> rw [he]
      · exact newExt_mp3
      · exact newExt_mp4
    rw [← List.append_assoc, getOutputPath_ext a n e ha hn hes hde, hnew]
    rw [← List.append_assoc] at hc
    exact hc

theorem getOutputPath_clean (p : Str) : Clean (GetOutputPath p) = GetOutputPath p := by
  rw [getOutputPath_eq, join_pair _ _ (by rw [Dir]; exact clean_ne_nil _), clean_idem]

theorem ext_clean_append (y x : Str) (hs : NoSep x) (hd : NoDot x) (hlen : 2 ≤ x.length) :
    Ext (Clean (y ++ '.' :: x)) = '.' :: x := by
  obtain ⟨a, b, rfl, ha, hb⟩ := path_decompose y
  have hdx : NoSep ('.' :: x) := by
    intro c hc
    rcases List.mem_cons.mp hc with rfl | hc
    · decide
    · exact hs c hc
  have hreg : Regular (b ++ '.' :: x) :=
    regular_with_ext b hb hdx (by simp only [List.length_cons]; omega)
  obtain ⟨d, -, hC, -⟩ := clean_append_regular a (b ++ '.' :: x) ha hreg
  rw [List.append_assoc, hC, ← List.append_assoc]
  exact ext_dot (d ++ b) x hs hd

theorem getOutputPath_ext_new (p : Str) :
    Ext (GetOutputPath p) = mp3 ∨ Ext (GetOutputPath p) = mp4 := by
  rw [getOutputPath_eq, join_pair _ _ (by rw [Dir]; exact clean_ne_nil _)]
  have hassoc : ∀ x : Str, Dir p ++ '/' :: (TrimSuffix (Base p) (Ext p) ++ x)
      = (Dir p ++ '/' :: TrimSuffix (Base p) (Ext p)) ++ x := by
    intro x
    simp
  rcases newExt_cases (Ext p) with h | h
  · left
    rw [h, hassoc]
    exact ext_clean_append _ ['m', 'p', '3'] (by unfold NoSep; decide) (by unfold NoDot; decide)
      (by decide)
  · right
    rw [h, hassoc]
    exact ext_clean_append _ ['m', 'p', '4'] (by unfold NoSep; decide) (by unfold NoDot; decide)
      (by decide)

theorem getOutputPath_idem (p : Str) : GetOutputPath (GetOutputPath p) = GetOutputPath p :=
  getOutputPath_fixed _ (getOutputPath_clean p) (getOutputPath_ext_new p)

/-- C1: for an input `dir ++ name ++ "." ++ ext` (`dir` empty or ending in the
separator, no separator in `name` and `ext`, no dot in `ext`), `GetOutputPath`
returns the cleaned `dir ++ name ++ ".mp3"` when the lower-cased extension is one
of `.wav .mp3 .ogg .m4a .flac .aac` and the cleaned `dir ++ name ++ ".mp4"`
otherwise, also when there is no extension at all; the result lies in the
directory of the input and its last element is the stem with the new
extension. -/
theorem GetOutputPath_contract (dir name ext : Str) (hdir : IsDirPart dir) (hname : NoSep name)
    (hext : NoSep ext) (hdot : NoDot ext) :
    (ToLower ('.' :: ext) ∈ [".wav".toList, ".mp3".toList, ".ogg".toList, ".m4a".toList,
          ".flac".toList, ".aac".toList] →
        GetOutputPath (dir ++ name ++ '.' :: ext) = Clean (dir ++ name ++ ".mp3".toList)
        ∧ Dir (GetOutputPath (dir ++ name ++ '.' :: ext)) = Dir (dir ++ name ++ '.' :: ext)
        ∧ Base (GetOutputPath (dir ++ name ++ '.' :: ext)) = name ++ ".mp3".toList)
    ∧ (ToLower ('.' :: ext) ∉ [".wav".toList, ".mp3".toList, ".ogg".toList, ".m4a".toList,
          ".flac".toList, ".aac".toList] →
        GetOutputPath (dir ++ name ++ '.' :: ext) = Clean (dir ++ name ++ ".mp4".toList)
        ∧ Dir (GetOutputPath (dir ++ name ++ '.' :: ext)) = Dir (dir ++ name ++ '.' :: ext)
        ∧ Base (GetOutputPath (dir ++ name ++ '.' :: ext)) = name ++ ".mp4".toList)
    ∧ (NoDot name → name ≠ [] →
        GetOutputPath (dir ++ name) = Clean (dir ++ name ++ ".mp4".toList)
        ∧ Dir (GetOutputPath (dir ++ name)) = Dir (dir ++ name)
        ∧ Base (GetOutputPath (dir ++ name)) = name ++ ".mp4".toList)
    ∧ GetOutputPath "/home/u/clip.MOV".toList = "/home/u/clip.mp4".toList
    ∧ GetOutputPath "music/Song.FLAC".toList = "music/Song.mp3".toList
    ∧ GetOutputPath "video.avi".toList = "video.mp4".toList
    ∧ GetOutputPath "notes".toList = "notes.mp4".toList := by
  have hb : NoSep (name ++ '.' :: ext) := by
    apply noSep_append hname
    intro c hc
    rcases List.mem_cons.mp hc with rfl | hc
    · decide
    · exact hext c hc
  have hdirp : Dir (dir ++ name ++ '.' :: ext) = Clean dir := by
    rw [List.append_assoc]
    exact dir_append dir _ hdir hb
  have h3 : (3 : Nat) ≤ mp3.length := by decide
  have h4 : (3 : Nat) ≤ mp4.length := by decide
  refine ⟨?_, ?_, ?_, by decide, by decide, by decide, by decide⟩
  · intro hin
    have hnew : newExt ('.' :: ext) = mp3 := if_pos hin
    have hG := getOutputPath_ext dir name ext hdir hname hext hdot
    rw [hnew] at hG
    have hdb := dir_base_of_clean_append dir name mp3 hdir hname noSep_mp3 h3
    rw [hG, hdirp]
    exact ⟨rfl, hdb.1, hdb.2⟩
  · intro hin
    have hnew : newExt ('.' :: ext) = mp4 := if_neg hin
    have hG := getOutputPath_ext dir name ext hdir hname hext hdot
    rw [hnew] at hG
    have hdb := dir_base_of_clean_append dir name mp4 hdir hname noSep_mp4 h4
    rw [hG, hdirp]
    exact ⟨rfl, hdb.1, hdb.2⟩
  · intro hnd hne
    have hG := getOutputPath_noext dir name hdir hname hnd hne
    have hdb := dir_base_of_clean_append dir name mp4 hdir hname noSep_mp4 h4
    rw [hG, dir_append dir name hdir hname]
    exact ⟨rfl, hdb.1, hdb.2⟩

/-- Witness for C1: the input `/tmp/a.b.WaV`. -/
theorem GetOutputPath_contract_witness :
    IsDirPart "/tmp/".toList ∧ NoSep "a.b".toList ∧ NoSep "WaV".toList ∧ NoDot "WaV".toList
    ∧ GetOutputPath ("/tmp/".toList ++ "a.b".toList ++ '.' :: "WaV".toList)
        = Clean ("/tmp/".toList ++ "a.b".toList ++ ".mp3".toList)
    ∧ GetOutputPath "/tmp/a.b.WaV".toList = "/tmp/a.b.mp3".toList :=
  have h1 : IsDirPart "/tmp/".toList := Or.inr ⟨"/tmp".toList, by decide⟩
  have h2 : NoSep "a.b".toList := by unfold NoSep; decide
  have h3 : NoSep "WaV".toList := by unfold NoSep; decide
  have h4 : NoDot "WaV".toList := by unfold NoDot; decide
  ⟨h1, h2, h3, h4,
    ((GetOutputPath_contract "/tmp/".toList "a.b".toList "WaV".toList h1 h2 h3 h4).1
      (by decide)).1, by decide⟩

/-! ## The file system -/

theorem lookup_eq_none {fs : FS} {x : Str} (h : ∀ e ∈ fs, e.1 ≠ x) : lookup fs x = none := by
  induction fs with
  | nil => rfl
  | cons e es ih =>
    obtain ⟨n, k⟩ := e
    rw [lookup, if_neg (h (n, k) (List.mem_cons_self _ _))]
    exact ih (fun e he => h e (List.mem_cons_of_mem _ he))

theorem isBelow_length {d p : Str} (h : isBelow d p = true) : d.length < p.length := by
  have := (List.isPrefixOf_iff_prefix.mp h).length_le
  rw [List.length_append] at this
  simp only [List.length_singleton] at this
  omega

theorem isBelow_append (d r : Str) : isBelow d (d ++ '/' :: r) = true := by
  rw [isBelow, List.isPrefixOf_iff_prefix]
  exact ⟨r, by simp⟩

theorem isBelow_drop {d p : Str} (h : isBelow d p = true) :
    ∃ r, p = d ++ '/' :: r ∧ p.drop d.length = '/' :: r := by
  obtain ⟨r, hr⟩ := List.isPrefixOf_iff_prefix.mp h
  refine ⟨r, by rw [← hr]; simp, ?_⟩
  rw [← hr, List.append_assoc, List.drop_left]
  rfl

/-- After a rename that succeeds, to another name, the old name is bound to nothing. -/
theorem rename_gone {env : Env} {fs fs2 : FS} {o n : Str} (h : Rename env fs o n = some fs2)
    (hne : o ≠ n) : lookup fs2 o = none := by
  unfold Rename at h
  by_cases h1 : env.renameError fs o n = true
  · rw [if_pos h1] at h
    cases h
  rw [if_neg h1] at h
  cases hl : lookup fs o with
  | none =>
    rw [hl] at h
    cases h
  | some k =>
    rw [hl] at h
    simp only [] at h
    rw [if_neg hne] at h
    by_cases hb : (isBelow o n || isBelow n o) = true
    · rw [if_pos hb] at h
      cases h
    rw [if_neg hb] at h
    by_cases h3 : lookup fs n ≠ none ∧ lookup fs n ≠ some k
    · rw [if_pos h3] at h
      cases h
    rw [if_neg h3] at h
    by_cases h4 : (fs.any (fun e => isBelow n e.1)) = true
    · rw [if_pos h4] at h
      cases h
    rw [if_neg h4] at h
    simp only [Option.some.injEq] at h
    subst h
    apply lookup_eq_none
    intro e he
    obtain ⟨e0, -, rfl⟩ := List.mem_map.mp he
    simp only [rebase]
    split
    · exact fun h => hne h.symm
    · rename_i hne0
      split
      · rename_i hbel
        obtain ⟨r, -, hr⟩ := isBelow_drop hbel
        rw [hr]
        intro hc
        apply hb
        rw [← hc, isBelow_append]
        simp
      · exact hne0

/-- A rename that succeeds had an old name that was bound. -/
theorem rename_bound {env : Env} {fs fs2 : FS} {o n : Str} (h : Rename env fs o n = some fs2) :
    lookup fs o ≠ none := by
  unfold Rename at h
  intro hc
  split at h
  · cases h
  · rw [hc] at h
    cases h

theorem stat_notExist {env : Env} {fs : FS} {x : Str} (h : Stat env fs x = StatResult.notExist) :
    env.statError fs x = false ∧ lookup fs x = none := by
  unfold Stat at h
  split at h
  · cases h
  · rename_i he
    split at h
    · cases h
    · rename_i hl
      exact ⟨by simpa using he, hl⟩

theorem stripTrailing_le (p : Str) : ∀ n, stripTrailing p n ≤ n := by
  intro n
  induction n with
  | zero => simp [stripTrailing]
  | succ n ih =>
    rw [stripTrailing]
    split
    · exact Nat.le_succ_of_le ih
    · exact le_refl _

theorem lastElemStart_le (p : Str) : ∀ n, lastElemStart p n ≤ n := by
  intro n
  induction n with
  | zero => simp [lastElemStart]
  | succ n ih =>
    rw [lastElemStart]
    split
    · exact le_refl _
    · exact Nat.le_succ_of_le ih

/-- The fuel `MkdirAll` is given is enough: more of it changes nothing. -/
theorem mkdirAll_fuel (env : Env) : ∀ (fuel : Nat) (fs : FS) (p : Str), p.length < fuel →
    MkdirAll env fs (fuel + 1) p = MkdirAll env fs fuel p := by
  intro fuel
  induction fuel with
  | zero => intro fs p h; omega
  | succ fuel ih =>
    intro fs p h
    rw [MkdirAll, MkdirAll]
    have key : (if lastElemStart p (stripTrailing p p.length) > 1 then
          match MkdirAll env fs (fuel + 1)
              (List.take (lastElemStart p (stripTrailing p p.length) - 1) p) with
          | none => none
          | some fs1 => Mkdir env fs1 p
        else Mkdir env fs p)
        = (if lastElemStart p (stripTrailing p p.length) > 1 then
          match MkdirAll env fs fuel
              (List.take (lastElemStart p (stripTrailing p p.length) - 1) p) with
          | none => none
          | some fs1 => Mkdir env fs1 p
        else Mkdir env fs p) := by
      split
      · rename_i hj
        have h1 := lastElemStart_le p (stripTrailing p p.length)
        have h2 := stripTrailing_le p p.length
        have hlen : (List.take (lastElemStart p (stripTrailing p p.length) - 1) p).length
            < fuel := by
          rw [List.length_take]
          omega
        rw [ih fs _ hlen]
      · rfl
    cases hs : Stat env fs p with
    | ok k => cases k <;> rfl
    | notExist => exact key
    | failed => exact key

theorem mkdirAll_of_dir (env : Env) (fs : FS) (fuel : Nat) (p : Str)
    (h : Stat env fs p = StatResult.ok Kind.dir) :
    MkdirAll env fs (fuel + 1) p = some fs := by
  simp [MkdirAll, h]

/-! ## The counter in decimal -/

theorem digitChar_val : ∀ k, k < 10 → (Nat.digitChar k).toNat - 48 = k ∧ isDigit (Nat.digitChar k) = true := by
  intro k hk
  interval_cases k <;> decide

theorem decimalValue_concat (xs : Str) (d : Char) :
    decimalValue (xs ++ [d]) = 10 * decimalValue xs + (d.toNat - 48) := by
  simp [decimalValue, List.foldl_append]

theorem toDigitsCore_acc : ∀ (fuel n : Nat) (ds : Str),
    Nat.toDigitsCore 10 fuel n ds = Nat.toDigitsCore 10 fuel n [] ++ ds := by
  intro fuel
  induction fuel with
  | zero => intro n ds; simp [Nat.toDigitsCore]
  | succ fuel ih =>
    intro n ds
    simp only [Nat.toDigitsCore]
    split
    · simp
    · rw [ih (n / 10) (_ :: ds), ih (n / 10) [_]]
      simp

theorem toDigitsCore_spec : ∀ (fuel n : Nat), n < fuel →
    decimalValue (Nat.toDigitsCore 10 fuel n []) = n
      ∧ Nat.toDigitsCore 10 fuel n [] ≠ []
      ∧ ∀ c ∈ Nat.toDigitsCore 10 fuel n [], isDigit c = true := by
  intro fuel
  induction fuel with
  | zero => intro n h; omega
  | succ fuel ih =>
    intro n hn
    have hd := digitChar_val (n % 10) (Nat.mod_lt _ (by decide))
    simp only [Nat.toDigitsCore]
    split
    · rename_i h0
      have hlt : n < 10 := by omega
      have hmod : n % 10 = n := Nat.mod_eq_of_lt hlt
      rw [hmod] at hd ⊢
      refine ⟨?_, by simp, ?_⟩
      · simp [decimalValue, hd.1]
      · intro c hc
        simp at hc
        rw [hc]
        exact hd.2
    · rename_i h0
      have hlt : n / 10 < fuel := by omega
      obtain ⟨h1, h2, h3⟩ := ih (n / 10) hlt
      rw [toDigitsCore_acc]
      refine ⟨?_, by simp, ?_⟩
      · rw [decimalValue_concat, h1, hd.1]
        omega
      · intro c hc
        rcases List.mem_append.mp hc with hc | hc
        · exact h3 c hc
        · simp at hc
          rw [hc]
          exact hd.2

theorem itoa_spec (n : Nat) :
    decimalValue (itoa n) = n ∧ itoa n ≠ [] ∧ ∀ c ∈ itoa n, isDigit c = true :=
  toDigitsCore_spec (n + 1) n (Nat.lt_succ_self n)

theorem itoa_injective : Function.Injective itoa := by
  intro m n h
  have h1 := (itoa_spec m).1
  rw [h, (itoa_spec n).1] at h1
  exact h1.symm

theorem noSep_of_digits {x : Str} (h : ∀ c ∈ x, isDigit c = true) : NoSep x := by
  intro c hc hs
  have := h c hc
  rw [hs] at this
  revert this
  decide

theorem noDot_of_digits {x : Str} (h : ∀ c ∈ x, isDigit c = true) : NoDot x := by
  intro c hc hs
  have := h c hc
  rw [hs] at this
  revert this
  decide

/-! ## The backup paths -/

theorem regular_dot (b x : Str) (hb : NoSep b) (hx : NoSep x) (hd : NoDot x) (hne : x ≠ []) :
    Regular (b ++ '.' :: x) := by
  have hpos := List.length_pos.mpr hne
  refine ⟨by simp, ?_, ?_, ?_⟩
  · intro h
    have := congrArg List.length h
    rw [List.length_append] at this
    simp only [List.length_cons, List.length_nil] at this
    omega
  · intro h
    cases b with
    | nil =>
      simp only [List.nil_append, List.cons.injEq, true_and] at h
      exact hd '.' (by rw [h]; simp) rfl
    | cons c cs =>
      have := congrArg List.length h
      rw [List.length_append] at this
      simp only [List.length_cons, List.length_nil] at this
      omega
  · apply noSep_append hb
    intro c hc
    rcases List.mem_cons.mp hc with rfl | hc
    · decide
    · exact hx c hc

theorem stepElem_length (r : Bool) (s : Str × Nat) (e : Str) :
    (stepElem r s e).1.length ≤ s.1.length + 1 + e.length := by
  unfold stepElem
  split
  · omega
  · split
    · rename_i h2
      subst h2
      split
      · simp only [List.length_take]
        omega
      · split
        · simp only [pushDotDot]
          split <;> simp
        · omega
    · simp only [pushElem]
      split
      · simp only [List.length_append, List.length_cons, List.length_nil]
        omega
      · simp only [List.length_append]
        omega

theorem base_cases (p : Str) : Base p = ['/'] ∨ (NoSep (Base p) ∧ Base p ≠ []) := by
  unfold Base
  by_cases hp : p = []
  · rw [if_pos hp]
    right
    exact ⟨by unfold NoSep; decide, by simp⟩
  · rw [if_neg hp]
    obtain ⟨a, b, hq, ha, hb⟩ := path_decompose (p.take (stripTrailing p p.length))
    simp only [hq, lastElemStart_append a b ha hb, List.drop_left]
    by_cases hbn : b = []
    · left
      rw [if_pos hbn]
    · right
      rw [if_neg hbn]
      exact ⟨hb, hbn⟩

theorem regular_backupName : Regular backupName := by
  refine ⟨by decide, by decide, by decide, ?_⟩
  intro c hc
  simp [backupName] at hc
  rcases hc with rfl | rfl | rfl | rfl | rfl | rfl <;> decide

theorem dir_ne_nil (p : Str) : Dir p ≠ [] := by
  rw [Dir]
  exact clean_ne_nil _

theorem backupDir_state (o : Str) :
    ∃ dd, cleanState (backupDirOf o) = (backupDirOf o, dd) ∧ 6 ≤ (backupDirOf o).length := by
  have hX : cleanState (Dir o ++ '/' :: backupName)
      = (pushElem (isRooted (Dir o)) (cleanState (Dir o)).1 backupName, (cleanState (Dir o)).2) := by
    rw [cleanState_append _ _ (dir_ne_nil o), splitSep_noSep _ regular_backupName.2.2.2]
    simp only [List.foldl_cons, List.foldl_nil, stepElem_regular _ _ regular_backupName]
  have hbd : backupDirOf o = pushElem (isRooted (Dir o)) (cleanState (Dir o)).1 backupName := by
    rw [backupDirOf, join_pair _ _ (dir_ne_nil o), clean_eq, hX]
    exact if_neg (pushElem_length_pos _ _ regular_backupName.1)
  refine ⟨(cleanState (Dir o)).2, ?_, ?_⟩
  · have h1 : cleanState (backupDirOf o) = cleanState (Dir o ++ '/' :: backupName) := by
      rw [backupDirOf, join_pair _ _ (dir_ne_nil o), cleanState_clean]
    rw [h1, hX, ← hbd]
  · rw [hbd]
    simp only [pushElem, List.length_append]
    have : backupName.length = 6 := by decide
    omega

theorem pushElem_long (r : Bool) (o el : Str) (h : 6 ≤ o.length) :
    pushElem r o el = o ++ '/' :: el := by
  have h1 : o.length ≠ 1 := by omega
  have h0 : o.length ≠ 0 := by omega
  cases r <;> simp [pushElem, h1, h0]

theorem clean_backupDir_append (o z : Str) :
    ∃ dd, cleanState (backupDirOf o) = (backupDirOf o, dd)
      ∧ cleanState (backupDirOf o ++ '/' :: z)
        = (splitSep z).foldl (stepElem (isRooted (backupDirOf o))) (backupDirOf o, dd) := by
  obtain ⟨dd, hs, hl⟩ := backupDir_state o
  have hne : backupDirOf o ≠ [] := by
    intro h
    rw [h] at hl
    simp at hl
  exact ⟨dd, hs, by rw [cleanState_append _ _ hne, hs]⟩

theorem join_backupDir_regular (o el : Str) (hel : Regular el) :
    Join [backupDirOf o, el] = backupDirOf o ++ '/' :: el := by
  obtain ⟨dd, hs, hl⟩ := backupDir_state o
  have hne : backupDirOf o ≠ [] := by
    intro h
    rw [h] at hl
    simp at hl
  rw [join_pair _ _ hne, clean_eq, cleanState_append _ _ hne, hs, splitSep_noSep _ hel.2.2.2]
  simp only [List.foldl_cons, List.foldl_nil, stepElem_regular _ _ hel, pushElem_long _ _ _ hl]
  rw [if_neg]
  simp

theorem join_backupDir_length (o b : Str) (hb : NoSep b) :
    (Join [backupDirOf o, b]).length ≤ (backupDirOf o).length + 1 + b.length := by
  obtain ⟨dd, hs, hl⟩ := backupDir_state o
  have hne : backupDirOf o ≠ [] := by
    intro h
    rw [h] at hl
    simp at hl
  rw [join_pair _ _ hne, clean_eq, cleanState_append _ _ hne, hs, splitSep_noSep _ hb]
  simp only [List.foldl_cons, List.foldl_nil]
  have := stepElem_length (isRooted (backupDirOf o)) (backupDirOf o, dd) b
  simp only at this
  split
  · simp only [List.length_cons, List.length_nil]
    omega
  · exact this

theorem candidate_shape (o : Str) :
    ∃ b, NoSep b ∧ (NoSep (Base o) → b = Base o)
      ∧ (∀ n, 0 < n → candidate o n = backupDirOf o ++ '/' :: (b ++ '.' :: itoa n))
      ∧ (candidate o 0).length ≤ (backupDirOf o).length + 1 + b.length := by
  have hreg : ∀ (b : Str) (n : Nat), NoSep b → Regular (b ++ '.' :: itoa n) := fun b n hb =>
    regular_dot b (itoa n) hb (noSep_of_digits (itoa_spec n).2.2)
      (noDot_of_digits (itoa_spec n).2.2) (itoa_spec n).2.1
  rcases base_cases o with hb | ⟨hb, hbn⟩
  · refine ⟨[], by simp [NoSep], ?_, ?_, ?_⟩
    · intro h
      rw [hb] at h
      exact absurd rfl (h '/' (by simp))
    · intro n hn
      have h0 : n ≠ 0 := by omega
      obtain ⟨dd, hs, hl⟩ := backupDir_state o
      have hne : backupDirOf o ≠ [] := by
        intro h
        rw [h] at hl
        simp at hl
      have hreg0 := hreg [] n (by simp [NoSep])
      rw [List.nil_append] at hreg0 ⊢
      have hsp : splitSep ('/' :: '.' :: itoa n) = [[], '.' :: itoa n] := by
        rw [splitSep]
        simp [IsPathSeparator, splitSep_noSep _ hreg0.2.2.2]
      rw [candidate, if_neg h0, hb, join_pair _ _ hne, clean_eq, List.singleton_append,
        cleanState_append _ _ hne, hs, hsp]
      simp only [List.foldl_cons, List.foldl_nil, stepElem_nil, stepElem_regular _ _ hreg0,
        pushElem_long _ _ _ hl]
      rw [if_neg]
      simp
    · obtain ⟨dd, hs, hl⟩ := backupDir_state o
      have hne : backupDirOf o ≠ [] := by
        intro h
        rw [h] at hl
        simp at hl
      have hsp : splitSep ['/'] = [[], []] := by
        simp [splitSep, IsPathSeparator]
      rw [candidate, if_pos rfl, hb, join_pair _ _ hne, clean_eq, cleanState_append _ _ hne, hs,
        hsp]
      simp only [List.foldl_cons, List.foldl_nil, stepElem_nil]
      split
      · rename_i h0
        omega
      · simp
  · refine ⟨Base o, hb, fun _ => rfl, ?_, ?_⟩
    · intro n hn
      have h0 : n ≠ 0 := by omega
      rw [candidate, if_neg h0]
      exact join_backupDir_regular o _ (hreg (Base o) n hb)
    · rw [candidate, if_pos rfl]
      exact join_backupDir_length o _ hb

theorem candidate_injective (o : Str) : Function.Injective (candidate o) := by
  obtain ⟨b, -, -, hsh, hlen⟩ := candidate_shape o
  have hz : ∀ n, 0 < n → candidate o 0 ≠ candidate o n := by
    intro n hn h
    rw [h, hsh n hn] at hlen
    simp only [List.length_append, List.length_cons] at hlen
    omega
  intro m n h
  rcases Nat.eq_zero_or_pos m with hm | hm
  · rcases Nat.eq_zero_or_pos n with hn | hn
    · rw [hm, hn]
    · rw [hm] at h
      exact absurd h (hz n hn)
  · rcases Nat.eq_zero_or_pos n with hn | hn
    · rw [hn] at h
      exact absurd h.symm (hz m hm)
    · rw [hsh m hm, hsh n hn] at h
      have h1 := List.append_cancel_left h
      simp only [List.cons.injEq, true_and] at h1
      have h2 := List.append_cancel_left h1
      simp only [List.cons.injEq, true_and] at h2
      exact itoa_injective h2

theorem candidate_succ (o : Str) (m : Nat) :
    Join [backupDirOf o, Base o ++ '.' :: itoa (m + 1)] = candidate o (m + 1) := by
  rw [candidate, if_neg (Nat.succ_ne_zero m)]

/-- With enough fuel the search ends on the first candidate of which `os.Stat`
says that it does not exist. -/
theorem probeLoop_find (env : Env) (fs : FS) (o : Str) (n : Nat)
    (hfree : Stat env fs (candidate o n) = StatResult.notExist)
    (hbusy : ∀ k, k < n → Stat env fs (candidate o k) ≠ StatResult.notExist) :
    ∀ fuel m, m ≤ n → n - m < fuel →
      probeLoop env fs (backupDirOf o) (Base o) fuel (m + 1) (candidate o m)
        = some (candidate o n) := by
  intro fuel
  induction fuel with
  | zero => intro m _ h; omega
  | succ fuel ih =>
    intro m hm hf
    rw [probeLoop]
    rcases Nat.eq_or_lt_of_le hm with rfl | hlt
    · rw [if_pos hfree]
    · rw [if_neg (hbusy m hlt), candidate_succ]
      exact ih (m + 1) hlt (by omega)

/-- What the search returns is a candidate of which `os.Stat` says that it does
not exist, the first such one. -/
theorem probeLoop_some (env : Env) (fs : FS) (o : Str) : ∀ (fuel m : Nat) (p : Str),
    probeLoop env fs (backupDirOf o) (Base o) fuel (m + 1) (candidate o m) = some p →
    ∃ n, m ≤ n ∧ p = candidate o n ∧ Stat env fs p = StatResult.notExist
      ∧ ∀ k, m ≤ k → k < n → Stat env fs (candidate o k) ≠ StatResult.notExist := by
  intro fuel
  induction fuel with
  | zero =>
    intro m p h
    rw [probeLoop] at h
    cases h
  | succ fuel ih =>
    intro m p h
    rw [probeLoop] at h
    by_cases hs : Stat env fs (candidate o m) = StatResult.notExist
    · rw [if_pos hs] at h
      cases h
      exact ⟨m, le_refl _, rfl, hs, fun k h1 h2 => by omega⟩
    · rw [if_neg hs, candidate_succ] at h
      obtain ⟨n, hn, hp, hfree, hbusy⟩ := ih (m + 1) p h
      refine ⟨n, by omega, hp, hfree, ?_⟩
      intro k h1 h2
      rcases Nat.eq_or_lt_of_le h1 with rfl | hlt
      · exact hs
      · exact hbusy k hlt h2

/-- When `os.Stat` says of no candidate that it does not exist, the search does
not end, whatever the fuel. -/
theorem probeLoop_never (env : Env) (fs : FS) (o : Str)
    (h : ∀ n, Stat env fs (candidate o n) ≠ StatResult.notExist) :
    ∀ fuel m, probeLoop env fs (backupDirOf o) (Base o) fuel (m + 1) (candidate o m) = none := by
  intro fuel
  induction fuel with
  | zero =>
    intro m
    rw [probeLoop]
  | succ fuel ih =>
    intro m
    rw [probeLoop, if_neg (h m), candidate_succ]
    exact ih (m + 1)

theorem candidate_zero (o : Str) : candidate o 0 = Join [Join [Dir o, backupName], Base o] := by
  rw [candidate, if_pos rfl, backupDirOf]

theorem backup_never (fc : FFmpegConverter) (env : Env) (fs fs1 : FS) (o : Str)
    (hex : Stat env fs o ≠ StatResult.notExist)
    (hmk : MkdirAll env fs ((backupDirOf o).length + 1) (backupDirOf o) = some fs1)
    (h : ∀ n, Stat env fs1 (candidate o n) ≠ StatResult.notExist) (fuel : Nat) :
    BackupExistingFile fc env fuel fs o = none := by
  have hp := probeLoop_never env fs1 o h fuel 0
  rw [candidate_zero] at hp
  unfold backupDirOf at hmk hp
  simp only [BackupExistingFile, if_neg hex, hmk, hp]

/-- A backup that returned without error, of a path of which `os.Stat` did not
say that it does not exist: the directory was made, the search ended on the
first candidate that does not exist, and the rename to it succeeded. -/
theorem backup_some (fc : FFmpegConverter) (env : Env) (fuel : Nat) (fs : FS) (o : Str)
    (b : Outcome) (hex : Stat env fs o ≠ StatResult.notExist)
    (hb : BackupExistingFile fc env fuel fs o = some b) (herr : b.err = none) :
    ∃ n fs1, MkdirAll env fs ((backupDirOf o).length + 1) (backupDirOf o) = some fs1
      ∧ Stat env fs1 (candidate o n) = StatResult.notExist
      ∧ (∀ k, k < n → Stat env fs1 (candidate o k) ≠ StatResult.notExist)
      ∧ Rename env fs1 o (candidate o n) = some b.fs
      ∧ b.log = [Action.mkdirAll (backupDirOf o)]
          ++ (if fc.statusCallback then
                [Action.call (Event.status (Status.backup (candidate o n)))] else [])
          ++ [Action.rename o (candidate o n)] := by
  simp only [BackupExistingFile, if_neg hex] at hb
  cases hmk : MkdirAll env fs ((Join [Dir o, backupName]).length + 1)
      (Join [Dir o, backupName]) with
  | none =>
    rw [hmk] at hb
    simp only [Option.some.injEq] at hb
    rw [← hb] at herr
    cases herr
  | some fs1 =>
    rw [hmk] at hb
    simp only [] at hb
    cases hp : probeLoop env fs1 (Join [Dir o, backupName]) (Base o) fuel 1
        (Join [Join [Dir o, backupName], Base o]) with
    | none =>
      rw [hp] at hb
      cases hb
    | some p =>
      rw [hp] at hb
      simp only [] at hb
      have hp2 := hp
      rw [← candidate_zero] at hp2
      obtain ⟨n, -, hpn, hfree, hbusy⟩ := probeLoop_some env fs1 o fuel 0 p hp2
      subst hpn
      cases hr : Rename env fs1 o (candidate o n) with
      | none =>
        rw [hr] at hb
        simp only [Option.some.injEq] at hb
        rw [← hb] at herr
        cases herr
      | some fs2 =>
        rw [hr] at hb
        simp only [Option.some.injEq] at hb
        subst hb
        exact ⟨n, fs1, hmk, hfree, fun k hk => hbusy k (Nat.zero_le _) hk, hr, rfl⟩

theorem byteLen_append (a b : Str) : byteLen (a ++ b) = byteLen a + byteLen b := by
  induction a with
  | nil => simp [byteLen]
  | cons c cs ih =>
    rw [List.cons_append, byteLen, byteLen, ih]
    omega

theorem byteLen_replicate_x (n : Nat) : byteLen (List.replicate n 'x') = n := by
  induction n with
  | zero => rfl
  | succ n ih =>
    rw [List.replicate_succ, byteLen, ih]
    have : Char.utf8Size 'x' = 1 := by decide
    omega

theorem lookup_cons_eq (x : Str) (k : Kind) (r : FS) : lookup ((x, k) :: r) x = some k := by
  rw [lookup, if_pos rfl]

theorem lookup_cons_ne {n x : Str} (k : Kind) (r : FS) (h : n ≠ x) :
    lookup ((n, k) :: r) x = lookup r x := by
  rw [lookup, if_neg h]

theorem nameLimit_statError (fs : FS) (p : Str) : nameLimit.statError fs p = tooLong p := rfl

theorem longBase_length : longBase.length = 255 := by
  rw [longBase, List.length_append, List.length_replicate]
  rfl

theorem longBase_noSep : NoSep longBase := by
  have hlit : ∀ c ∈ ['.', 'm', 'p', '4'], c ≠ '/' := by decide
  intro c hc
  rcases List.mem_append.mp hc with h | h
  · rw [List.eq_of_mem_replicate h]
    decide
  · exact hlit c h

theorem longBase_regular : Regular longBase := by
  refine ⟨?_, ?_, ?_, longBase_noSep⟩ <;>
  · intro h
    have := congrArg List.length h
    rw [longBase_length] at this
    simp at this

theorem longPath_backupDir : backupDirOf longPath = "/v/backup".toList := by
  have hd : Dir longPath = ['/', 'v'] := by
    rw [longPath, dir_append ['/', 'v', '/'] longBase (Or.inr ⟨['/', 'v'], rfl⟩) longBase_noSep]
    decide
  rw [backupDirOf, hd]
  decide

theorem longPath_base : Base longPath = longBase :=
  base_append ['/', 'v', '/'] longBase (Or.inr ⟨['/', 'v'], rfl⟩) longBase_noSep
    longBase_regular.1

theorem longPath_candidate_zero : candidate longPath 0 = "/v/backup/".toList ++ longBase := by
  rw [candidate, if_pos rfl, longPath_base, join_backupDir_regular _ _ longBase_regular,
    longPath_backupDir]
  rfl

theorem longPath_candidate (n : Nat) (hn : 0 < n) :
    candidate longPath n = "/v/backup/".toList ++ (longBase ++ '.' :: itoa n) := by
  have hreg := regular_dot longBase (itoa n) longBase_noSep (noSep_of_digits (itoa_spec n).2.2)
    (noDot_of_digits (itoa_spec n).2.2) (itoa_spec n).2.1
  rw [candidate, if_neg (by omega), longPath_base, join_backupDir_regular _ _ hreg,
    longPath_backupDir]
  rfl

theorem tooLong_append (a e : Str) (he : NoSep e) :
    tooLong (a ++ '/' :: e) = (tooLong a || decide (255 < byteLen e)) := by
  unfold tooLong
  rw [splitSep_append, splitSep_noSep e he, List.any_append]
  simp

/-- C2, the code at an input where it departs from the claim: the output path
`/v/` followed by a name of 255 bytes exists, the backup directory `/v/backup`
is there, and so is the first backup path.  Every further candidate has a name
of more than 255 bytes, `os.Stat` fails for it with an error other than "does
not exist", and the search of `BackupExistingFile` takes this for "exists":
although none of these candidates is bound, it never ends, whatever the fuel. -/
theorem BackupExistingFile_never_returns :
    byteLen longBase = 255
    ∧ Stat nameLimit longFS longPath = StatResult.ok Kind.file
    ∧ MkdirAll nameLimit longFS ((backupDirOf longPath).length + 1) (backupDirOf longPath)
        = some longFS
    ∧ candidate longPath 0 = "/v/backup/".toList ++ longBase
    ∧ Stat nameLimit longFS (candidate longPath 0) = StatResult.ok Kind.file
    ∧ (∀ n, 0 < n →
        candidate longPath n = "/v/backup/".toList ++ (longBase ++ '.' :: itoa n)
        ∧ lookup longFS (candidate longPath n) = none
        ∧ Stat nameLimit longFS (candidate longPath n) = StatResult.failed)
    ∧ ∀ (fc : FFmpegConverter) (fuel : Nat),
        BackupExistingFile fc nameLimit fuel longFS longPath = none := by
  have hbl : byteLen longBase = 255 := by
    rw [longBase, byteLen_append, byteLen_replicate_x]
    rfl
  have hlen : longPath.length = 258 := by
    rw [longPath, List.length_append, longBase_length]
    rfl
  have hlen0 : ("/v/backup/".toList ++ longBase).length = 265 := by
    rw [List.length_append, longBase_length]
    rfl
  have hne1 : longPath ≠ "/v/backup".toList := by
    intro h
    have := congrArg List.length h
    rw [hlen] at this
    revert this
    decide
  have hne2 : longPath ≠ "/v/backup/".toList ++ longBase := by
    intro h
    have := congrArg List.length h
    rw [hlen, hlen0] at this
    omega
  have hne3 : "/v/backup".toList ≠ "/v/backup/".toList ++ longBase := by
    intro h
    have := congrArg List.length h
    rw [hlen0] at this
    revert this
    decide
  have hst : Stat nameLimit longFS longPath = StatResult.ok Kind.file := by
    have h1 : tooLong longPath = false := by
      have hpath : longPath = ['/', 'v'] ++ '/' :: longBase := rfl
      rw [hpath, tooLong_append _ _ longBase_noSep, hbl]
      decide
    have h2 : lookup longFS longPath = some Kind.file := lookup_cons_eq _ _ _
    have h3 : nameLimit.statError longFS longPath = false := by
      rw [nameLimit_statError]
      exact h1
    simp only [Stat, h3, h2]
    rfl
  have hbkd : Stat nameLimit longFS "/v/backup".toList = StatResult.ok Kind.dir := by
    have h0 : tooLong "/v/backup".toList = false := by decide
    have h1 : nameLimit.statError longFS "/v/backup".toList = false := h0
    have h2 : lookup longFS "/v/backup".toList = some Kind.dir :=
      (lookup_cons_ne _ _ hne1).trans (lookup_cons_eq _ _ _)
    simp only [Stat, h1, h2]
    rfl
  have hmk : MkdirAll nameLimit longFS ((backupDirOf longPath).length + 1) (backupDirOf longPath)
      = some longFS := by
    rw [longPath_backupDir]
    exact mkdirAll_of_dir nameLimit longFS _ _ hbkd
  have hst0 : Stat nameLimit longFS (candidate longPath 0) = StatResult.ok Kind.file := by
    rw [longPath_candidate_zero]
    have h1 : tooLong ("/v/backup/".toList ++ longBase) = false := by
      have hpath : "/v/backup/".toList ++ longBase = "/v/backup".toList ++ '/' :: longBase := rfl
      rw [hpath, tooLong_append _ _ longBase_noSep, hbl]
      decide
    have h2 : lookup longFS ("/v/backup/".toList ++ longBase) = some Kind.file :=
      (lookup_cons_ne _ _ hne2).trans ((lookup_cons_ne _ _ hne3).trans (lookup_cons_eq _ _ _))
    have h3 : nameLimit.statError longFS ("/v/backup/".toList ++ longBase) = false := by
      rw [nameLimit_statError]
      exact h1
    simp only [Stat, h3, h2]
    rfl
  have hstn : ∀ n, 0 < n →
      candidate longPath n = "/v/backup/".toList ++ (longBase ++ '.' :: itoa n)
      ∧ lookup longFS (candidate longPath n) = none
      ∧ Stat nameLimit longFS (candidate longPath n) = StatResult.failed := by
    intro n hn
    have hc := longPath_candidate n hn
    have hreg := regular_dot longBase (itoa n) longBase_noSep
      (noSep_of_digits (itoa_spec n).2.2) (noDot_of_digits (itoa_spec n).2.2) (itoa_spec n).2.1
    have hlenn : 266 ≤ (candidate longPath n).length := by
      rw [hc, List.length_append, List.length_append, longBase_length]
      have : ("/v/backup/".toList).length = 10 := rfl
      rw [this, List.length_cons]
      omega
    refine ⟨hc, ?_, ?_⟩
    · apply lookup_eq_none
      intro e he
      intro h
      have hl := congrArg List.length h
      rw [longFS] at he
      simp only [List.mem_cons, List.mem_singleton, List.not_mem_nil, or_false] at he
      rcases he with rfl | rfl | rfl | rfl
      · simp only [] at hl
        rw [hlen] at hl
        omega
      · simp only [List.length_cons, List.length_nil] at hl
        omega
      · have h0 : (['/', 'v', '/', 'b', 'a', 'c', 'k', 'u', 'p', '/'] ++ longBase).length
            = 265 := hlen0
        simp only [] at hl
        rw [h0] at hl
        omega
      · simp only [List.length_cons, List.length_nil] at hl
        omega
    · have h1 : tooLong (candidate longPath n) = true := by
        have hpath : "/v/backup/".toList ++ (longBase ++ '.' :: itoa n)
            = "/v/backup".toList ++ '/' :: (longBase ++ '.' :: itoa n) := rfl
        rw [hc, hpath, tooLong_append _ _ hreg.2.2.2, byteLen_append, hbl]
        have : byteLen ('.' :: itoa n) = 1 + byteLen (itoa n) := rfl
        rw [this]
        have : decide (255 < 255 + (1 + byteLen (itoa n))) = true := by
          rw [decide_eq_true_iff]
          omega
        rw [this, Bool.or_true]
      have h3 : nameLimit.statError longFS (candidate longPath n) = true := by
        rw [nameLimit_statError]
        exact h1
      simp only [Stat, h3, if_true]
  refine ⟨hbl, hst, hmk, longPath_candidate_zero, hst0, hstn, ?_⟩
  intro fc fuel
  refine backup_never fc nameLimit longFS longFS longPath ?_ hmk ?_ fuel
  · rw [hst]
    exact fun h => StatResult.noConfusion h
  · intro n
    rcases Nat.eq_zero_or_pos n with rfl | hn
    · rw [hst0]
      exact fun h => StatResult.noConfusion h
    · rw [(hstn n hn).2.2]
      exact fun h => StatResult.noConfusion h

/-- When `os.Stat` says that the output path does not exist, `BackupExistingFile`
returns without error and does nothing. -/
theorem backup_absent (fc : FFmpegConverter) (env : Env) (fuel : Nat) (fs : FS) (o : Str)
    (h : Stat env fs o = StatResult.notExist) :
    BackupExistingFile fc env fuel fs o = some ⟨none, fs, []⟩ := by
  rw [BackupExistingFile, if_pos h]

/-- C8, the code at an input where it departs from the claim: `/v/f` is a regular
file, so the output path `/v/f/a.mp4` does not exist, and `os.Stat` fails for
it with an error other than "does not exist".  `BackupExistingFile` does not
return at its guard: it tries to make the directory `/v/f/backup` and returns
the error of that attempt, not success. -/
theorem BackupExistingFile_below_file :
    lookup [("/v".toList, Kind.dir), ("/v/f".toList, Kind.file)] "/v/f/a.mp4".toList = none
    ∧ Stat notDir [("/v".toList, Kind.dir), ("/v/f".toList, Kind.file)] "/v/f/a.mp4".toList
        = StatResult.failed
    ∧ ∀ (fc : FFmpegConverter) (fuel : Nat),
        BackupExistingFile fc notDir fuel [("/v".toList, Kind.dir), ("/v/f".toList, Kind.file)]
            "/v/f/a.mp4".toList
          = some ⟨some Error.mkdirFailed, [("/v".toList, Kind.dir), ("/v/f".toList, Kind.file)],
              [Action.mkdirAll "/v/f/backup".toList]⟩ := by
  have h2 : Stat notDir [("/v".toList, Kind.dir), ("/v/f".toList, Kind.file)] "/v/f/a.mp4".toList
      = StatResult.failed := by decide
  have hj : Join [Dir "/v/f/a.mp4".toList, backupName] = "/v/f/backup".toList := by decide
  have hmk : MkdirAll notDir [("/v".toList, Kind.dir), ("/v/f".toList, Kind.file)]
      ("/v/f/backup".toList.length + 1) "/v/f/backup".toList = none := by decide
  refine ⟨by decide, h2, ?_⟩
  intro fc fuel
  rw [BackupExistingFile, if_neg (by rw [h2]; exact fun h => StatResult.noConfusion h)]
  simp only [hj, hmk]

/-! ## The scanner -/

theorem scanFrom_line (l : Str) (hl : NoNewline l) : ∀ (cur rest : Str),
    scanFrom cur (l ++ '\n' :: rest)
      = if maxScanTokenSize ≤ byteLen (cur ++ l) then []
        else dropCR (cur ++ l) :: scanFrom [] rest := by
  induction l with
  | nil =>
    intro cur rest
    simp [scanFrom]
  | cons c cs ih =>
    intro cur rest
    have hc : c ≠ '\n' := hl c (List.mem_cons_self _ _)
    have hcs : NoNewline cs := fun x hx => hl x (List.mem_cons_of_mem _ hx)
    rw [List.cons_append, scanFrom, if_neg hc, ih hcs]
    simp

theorem scanLines_join (pre : List Str) (hpre : ∀ l ∈ pre, Scannable l) (s : Str) :
    scanLines (joinLines pre ++ s) = pre ++ scanLines s := by
  induction pre with
  | nil => rfl
  | cons l ls ih =>
    obtain ⟨h1, h2, h3⟩ := hpre l (List.mem_cons_self _ _)
    have ih := ih (fun x hx => hpre x (List.mem_cons_of_mem _ hx))
    unfold scanLines at ih ⊢
    rw [joinLines, List.append_assoc, List.cons_append, scanFrom_line l h1, List.nil_append,
      if_neg (not_le.mpr h2), ih, dropCR, if_neg h3]
    rfl

theorem scanLines_joinLines (ls : List Str) (h : ∀ l ∈ ls, Scannable l) :
    scanLines (joinLines ls) = ls := by
  have := scanLines_join ls h []
  rw [List.append_nil] at this
  rw [this]
  simp [scanLines, scanFrom]

theorem scanLines_tooLong (pre : List Str) (hpre : ∀ l ∈ pre, Scannable l) (l rest : Str)
    (hl : NoNewline l) (hlong : maxScanTokenSize ≤ byteLen l) :
    scanLines (joinLines pre ++ (l ++ '\n' :: rest)) = pre := by
  rw [scanLines_join pre hpre, scanLines, scanFrom_line l hl, List.nil_append, if_pos hlong,
    List.append_nil]

/-! ## The progress monitor and the duration scan -/

theorem outTimeLine_head (h1 h2 m1 m2 s1 s2 f1 f2 f3 f4 f5 f6 : Char) :
    HasPrefix (outTimeLine h1 h2 m1 m2 s1 s2 f1 f2 f3 f4 f5 f6) outTimeLit = true
      ∧ (outTimeLine h1 h2 m1 m2 s1 s2 f1 f2 f3 f4 f5 f6).drop 9
          = timeText h1 h2 m1 m2 s1 s2 [f1, f2, f3, f4, f5, f6] := by
  constructor
  · rw [hasPrefix_iff]
    exact ⟨_, rfl⟩
  · rfl

theorem monitorLines_nil_of_zero (fc : FFmpegConverter) (T : ℚ) (hT : T ≤ 0)
    (lines : List Str) : monitorLines fc T lines = [] := by
  induction lines with
  | nil => rfl
  | cons l ls ih =>
    rw [monitorLines, ih, monitorLine_eq_nil fc T l (Or.inr (Or.inr hT))]
    rfl

theorem monitorLines_insert (fc : FFmpegConverter) (T : ℚ) (pre post : List Str) (line : Str) :
    monitorLines fc T (pre ++ line :: post)
      = monitorLines fc T pre ++ (monitorLine fc T line ++ monitorLines fc T post) := by
  rw [monitorLines_append, monitorLines]

/-- C6: for two-digit hours, minutes and seconds and a six-digit fraction,
`parseTimeString` returns hours times 3600 plus minutes times 60 plus seconds
plus the fraction over one million, exactly; this is the string that
`monitorLines` cuts from the line `out_time=...`, and
`out_time=00:01:30.450000` gives 90.45. -/
theorem parseTimeString_value (h1 h2 m1 m2 s1 s2 f1 f2 f3 f4 f5 f6 : Char)
    (hh1 : isDigit h1 = true) (hh2 : isDigit h2 = true) (hm1 : isDigit m1 = true)
    (hm2 : isDigit m2 = true) (hs1 : isDigit s1 = true) (hs2 : isDigit s2 = true)
    (hf1 : isDigit f1 = true) (hf2 : isDigit f2 = true) (hf3 : isDigit f3 = true)
    (hf4 : isDigit f4 = true) (hf5 : isDigit f5 = true) (hf6 : isDigit f6 = true) :
    parseTimeString [h1, h2, ':', m1, m2, ':', s1, s2, '.', f1, f2, f3, f4, f5, f6]
        = (((10 * digitVal h1 + digitVal h2) * 3600 + (10 * digitVal m1 + digitVal m2) * 60
            + (10 * digitVal s1 + digitVal s2) : Nat) : ℚ)
          + ((100000 * digitVal f1 + 10000 * digitVal f2 + 1000 * digitVal f3
              + 100 * digitVal f4 + 10 * digitVal f5 + digitVal f6 : Nat) : ℚ) / 1000000
    ∧ TrimPrefix (outTimeLit ++ [h1, h2, ':', m1, m2, ':', s1, s2, '.', f1, f2, f3, f4, f5, f6])
          outTimeLit
        = [h1, h2, ':', m1, m2, ':', s1, s2, '.', f1, f2, f3, f4, f5, f6]
    ∧ parseTimeString (TrimPrefix "out_time=00:01:30.450000".toList outTimeLit) = 9045 / 100 := by
  have hp := parseTimeString_exact h1 h2 m1 m2 s1 s2 f1 f2 f3 f4 f5 f6 hh1 hh2 hm1 hm2 hs1 hs2
    hf1 hf2 hf3 hf4 hf5 hf6
  refine ⟨hp, ?_, ?_⟩
  · have := outTimeLine_head h1 h2 m1 m2 s1 s2 f1 f2 f3 f4 f5 f6
    exact (trimPrefix_outTime _ this.1).trans this.2
  · have h := parseTimeString_exact '0' '0' '0' '1' '3' '0' '4' '5' '0' '0' '0' '0'
      (by decide) (by decide) (by decide) (by decide) (by decide) (by decide)
      (by decide) (by decide) (by decide) (by decide) (by decide) (by decide)
    have ht : TrimPrefix "out_time=00:01:30.450000".toList outTimeLit
        = timeText '0' '0' '0' '1' '3' '0' ['4', '5', '0', '0', '0', '0'] := by decide
    have hw : wholeSeconds '0' '0' '0' '1' '3' '0' = 90 := by decide
    have hf : 100000 * digitVal '4' + 10000 * digitVal '5' + 1000 * digitVal '0'
        + 100 * digitVal '0' + 10 * digitVal '0' + digitVal '0' = 450000 := by decide
    rw [ht, h, microTime, hw, hf]
    norm_num

/-- Witness for C6: the time `12:34:56.789012`. -/
theorem parseTimeString_value_witness :
    parseTimeString "12:34:56.789012".toList = 45296789012 / 1000000 := by
  have h := (parseTimeString_value '1' '2' '3' '4' '5' '6' '7' '8' '9' '0' '1' '2'
    (by decide) (by decide) (by decide) (by decide) (by decide) (by decide)
    (by decide) (by decide) (by decide) (by decide) (by decide) (by decide)).1
  have ht : "12:34:56.789012".toList
      = ['1', '2', ':', '3', '4', ':', '5', '6', '.', '7', '8', '9', '0', '1', '2'] := by decide
  have hw : (10 * digitVal '1' + digitVal '2') * 3600 + (10 * digitVal '3' + digitVal '4') * 60
      + (10 * digitVal '5' + digitVal '6') = 45296 := by decide
  have hf : 100000 * digitVal '7' + 10000 * digitVal '8' + 1000 * digitVal '9'
      + 100 * digitVal '0' + 10 * digitVal '1' + digitVal '2' = 789012 := by decide
  rw [ht, h, hw, hf]
  norm_num

theorem microTime_of (h1 h2 m1 m2 s1 s2 f1 f2 f3 f4 f5 f6 : Char) (w f : Nat)
    (hw : wholeSeconds h1 h2 m1 m2 s1 s2 = w)
    (hf : 100000 * digitVal f1 + 10000 * digitVal f2 + 1000 * digitVal f3
        + 100 * digitVal f4 + 10 * digitVal f5 + digitVal f6 = f) :
    microTime h1 h2 m1 m2 s1 s2 f1 f2 f3 f4 f5 f6 = (w : ℚ) + (f : ℚ) / 1000000 := by
  rw [microTime, hw, hf]

theorem samples_outTimeLine (h1 h2 m1 m2 s1 s2 f1 f2 f3 f4 f5 f6 : Char) (rest : List Str)
    (hh1 : isDigit h1 = true) (hh2 : isDigit h2 = true) (hm1 : isDigit m1 = true)
    (hm2 : isDigit m2 = true) (hs1 : isDigit s1 = true) (hs2 : isDigit s2 = true)
    (hf1 : isDigit f1 = true) (hf2 : isDigit f2 = true) (hf3 : isDigit f3 = true)
    (hf4 : isDigit f4 = true) (hf5 : isDigit f5 = true) (hf6 : isDigit f6 = true) :
    samples (outTimeLine h1 h2 m1 m2 s1 s2 f1 f2 f3 f4 f5 f6 :: rest)
      = if 0 < microTime h1 h2 m1 m2 s1 s2 f1 f2 f3 f4 f5 f6 then
          microTime h1 h2 m1 m2 s1 s2 f1 f2 f3 f4 f5 f6 :: samples rest
        else samples rest := by
  obtain ⟨hp, hd⟩ := outTimeLine_head h1 h2 m1 m2 s1 s2 f1 f2 f3 f4 f5 f6
  rw [samples, hd, parseTimeString_exact h1 h2 m1 m2 s1 s2 f1 f2 f3 f4 f5 f6 hh1 hh2 hm1 hm2 hs1
    hs2 hf1 hf2 hf3 hf4 hf5 hf6]
  simp only [hp, true_and]

theorem samples_skip (line : Str) (rest : List Str)
    (h : HasPrefix line outTimeLit = false ∨ parseTimeString (line.drop 9) = 0) :
    samples (line :: rest) = samples rest := by
  rw [samples, if_neg]
  rintro ⟨h1, h2⟩
  rcases h with h | h
  · rw [h] at h1
    cases h1
  · rw [h] at h2
    exact lt_irrefl _ h2

theorem scanLines_cons (line rest : Str) (h : Scannable line) :
    scanLines (line ++ '\n' :: rest) = line :: scanLines rest := by
  have := scanLines_join [line] (fun l hl => by rw [List.mem_singleton.mp hl]; exact h) rest
  simpa [joinLines] using this

theorem samples_four :
    samples ["out_time=00:00:30.000000".toList, "out_time=00:01:00.000000".toList,
      "out_time=00:01:30.000000".toList, "out_time=00:02:10.000000".toList]
      = [30, 60, 90, 130] := by
  have e1 : "out_time=00:00:30.000000".toList
      = outTimeLine '0' '0' '0' '0' '3' '0' '0' '0' '0' '0' '0' '0' := by decide
  have e2 : "out_time=00:01:00.000000".toList
      = outTimeLine '0' '0' '0' '1' '0' '0' '0' '0' '0' '0' '0' '0' := by decide
  have e3 : "out_time=00:01:30.000000".toList
      = outTimeLine '0' '0' '0' '1' '3' '0' '0' '0' '0' '0' '0' '0' := by decide
  have e4 : "out_time=00:02:10.000000".toList
      = outTimeLine '0' '0' '0' '2' '1' '0' '0' '0' '0' '0' '0' '0' := by decide
  have d0 : isDigit '0' = true := by decide
  have d1 : isDigit '1' = true := by decide
  have d2 : isDigit '2' = true := by decide
  have d3 : isDigit '3' = true := by decide
  rw [e1, e2, e3, e4, samples_outTimeLine _ _ _ _ _ _ _ _ _ _ _ _ _ d0 d0 d0 d0 d3 d0 d0 d0 d0
    d0 d0 d0, samples_outTimeLine _ _ _ _ _ _ _ _ _ _ _ _ _ d0 d0 d0 d1 d0 d0 d0 d0 d0 d0 d0 d0,
    samples_outTimeLine _ _ _ _ _ _ _ _ _ _ _ _ _ d0 d0 d0 d1 d3 d0 d0 d0 d0 d0 d0 d0,
    samples_outTimeLine _ _ _ _ _ _ _ _ _ _ _ _ _ d0 d0 d0 d2 d1 d0 d0 d0 d0 d0 d0 d0,
    microTime_of _ _ _ _ _ _ _ _ _ _ _ _ 30 0 (by decide) (by decide),
    microTime_of _ _ _ _ _ _ _ _ _ _ _ _ 60 0 (by decide) (by decide),
    microTime_of _ _ _ _ _ _ _ _ _ _ _ _ 90 0 (by decide) (by decide),
    microTime_of _ _ _ _ _ _ _ _ _ _ _ _ 130 0 (by decide) (by decide)]
  norm_num [samples]

theorem scanLines_four :
    scanLines ("out_time=00:00:30.000000\nout_time=00:01:00.000000\n".toList
        ++ "out_time=00:01:30.000000\nout_time=00:02:10.000000\n".toList)
      = ["out_time=00:00:30.000000".toList, "out_time=00:01:00.000000".toList,
          "out_time=00:01:30.000000".toList, "out_time=00:02:10.000000".toList] := by
  decide

/-- C3, as the code has it: the fractions `monitorProgress` hands to the progress
callback are non-decreasing whenever the positive `out_time` samples of the
lines the scanner delivers are non-decreasing; the only clamp is the cap at 1. -/
theorem monitorProgress_monotone (fc : FFmpegConverter) (totalDuration : ℚ) (stderr : Str)
    (h : (samples (scanLines stderr)).Pairwise (fun a b => a ≤ b)) :
    (fractions (monitorProgress fc totalDuration stderr)).Pairwise (fun a b => a ≤ b)
      ∧ ∀ p ∈ fractions (monitorProgress fc totalDuration stderr), p ≤ 1 := by
  rw [monitorProgress, fractions_monitorLines]
  split
  · rename_i hT
    refine ⟨?_, ?_⟩
    · apply List.Pairwise.map _ _ h
      intro a b hab
      exact min_le_min (le_refl _) (div_le_div_of_nonneg_right hab (le_of_lt hT.1))
    · intro p hp
      obtain ⟨e, -, rfl⟩ := List.mem_map.mp hp
      exact min_le_left _ _
  · exact ⟨List.Pairwise.nil, by simp⟩

/-- Witness for C3: the samples 30 s, 60 s, 90 s and 130 s of a stream of 120 s. -/
theorem monitorProgress_monotone_witness :
    (samples (scanLines ("out_time=00:00:30.000000\nout_time=00:01:00.000000\n".toList
        ++ "out_time=00:01:30.000000\nout_time=00:02:10.000000\n".toList))).Pairwise
          (fun a b => a ≤ b)
    ∧ (fractions (monitorProgress ⟨true, true⟩ 120
        ("out_time=00:00:30.000000\nout_time=00:01:00.000000\n".toList
          ++ "out_time=00:01:30.000000\nout_time=00:02:10.000000\n".toList))).Pairwise
          (fun a b => a ≤ b) := by
  have hp : (samples (scanLines ("out_time=00:00:30.000000\nout_time=00:01:00.000000\n".toList
      ++ "out_time=00:01:30.000000\nout_time=00:02:10.000000\n".toList))).Pairwise
        (fun a b => a ≤ b) := by
    rw [scanLines_four, samples_four]
    norm_num
  exact ⟨hp, (monitorProgress_monotone ⟨true, true⟩ 120 _ hp).1⟩

/-- Counterexample to C3 as stated: the samples 60 s and then 30 s of a stream
of 120 s are handed on as 1/2 and then 1/4. -/
theorem monitorProgress_not_clamped :
    fractions (monitorProgress ⟨true, true⟩ 120
        "out_time=00:01:00.000000\nout_time=00:00:30.000000\n".toList) = [1 / 2, 1 / 4]
    ∧ ¬ (fractions (monitorProgress ⟨true, true⟩ 120
        "out_time=00:01:00.000000\nout_time=00:00:30.000000\n".toList)).Pairwise
          (fun a b => a ≤ b) := by
  have hs : scanLines "out_time=00:01:00.000000\nout_time=00:00:30.000000\n".toList
      = [outTimeLine '0' '0' '0' '1' '0' '0' '0' '0' '0' '0' '0' '0',
          outTimeLine '0' '0' '0' '0' '3' '0' '0' '0' '0' '0' '0' '0'] := by decide
  have hf : fractions (monitorProgress ⟨true, true⟩ 120
      "out_time=00:01:00.000000\nout_time=00:00:30.000000\n".toList) = [1 / 2, 1 / 4] := by
    have d0 : isDigit '0' = true := by decide
    have d1 : isDigit '1' = true := by decide
    have d3 : isDigit '3' = true := by decide
    rw [monitorProgress, hs, fractions_monitorLines,
      samples_outTimeLine _ _ _ _ _ _ _ _ _ _ _ _ _ d0 d0 d0 d1 d0 d0 d0 d0 d0 d0 d0 d0,
      samples_outTimeLine _ _ _ _ _ _ _ _ _ _ _ _ _ d0 d0 d0 d0 d3 d0 d0 d0 d0 d0 d0 d0,
      microTime_of _ _ _ _ _ _ _ _ _ _ _ _ 60 0 (by decide) (by decide),
      microTime_of _ _ _ _ _ _ _ _ _ _ _ _ 30 0 (by decide) (by decide)]
    norm_num [samples]
  refine ⟨hf, ?_⟩
  rw [hf]
  norm_num

theorem monitorProgress_split (fc : FFmpegConverter) (T : ℚ) (pre : List Str) (line rest : Str)
    (hpre : ∀ l ∈ pre, Scannable l) (hline : Scannable line) :
    monitorProgress fc T (joinLines pre ++ (line ++ '\n' :: rest))
      = monitorProgress fc T (joinLines pre)
        ++ (monitorLine fc T line ++ monitorProgress fc T rest) := by
  rw [monitorProgress, monitorProgress, monitorProgress, scanLines_join pre hpre,
    scanLines_cons line rest hline, scanLines_joinLines pre hpre, monitorLines_insert]

/-- C4, as the code has it: with a progress callback installed and a total
duration above 0, a line that starts with `out_time=`, is delivered by the
scanner and is parsed to an elapsed time `e` above 0 yields exactly one
fraction, `min 1 (e / total)`, which lies in `[0, 1]`; a line parsed to 0
yields no call at all, and for a total duration of 0 no stream does.  For the
form `out_time=HH:MM:SS.ffffff` the elapsed time is the one written, and for
120 s and the samples 30 s, 60 s, 90 s, 130 s the fractions are 1/4, 1/2, 3/4,
1. -/
theorem monitorProgress_fraction (fc : FFmpegConverter) (totalDuration : ℚ)
    (pre : List Str) (line rest : Str) (hpre : ∀ l ∈ pre, Scannable l) (hline : Scannable line)
    (hp : HasPrefix line outTimeLit = true) :
    (0 < totalDuration → 0 < parseTimeString (TrimPrefix line outTimeLit) →
      fc.progressCallback = true →
        fractions (monitorProgress fc totalDuration (joinLines pre ++ (line ++ '\n' :: rest)))
          = fractions (monitorProgress fc totalDuration (joinLines pre))
            ++ min 1 (parseTimeString (TrimPrefix line outTimeLit) / totalDuration)
              :: fractions (monitorProgress fc totalDuration rest)
        ∧ 0 ≤ min 1 (parseTimeString (TrimPrefix line outTimeLit) / totalDuration)
        ∧ min 1 (parseTimeString (TrimPrefix line outTimeLit) / totalDuration) ≤ 1)
    ∧ (parseTimeString (TrimPrefix line outTimeLit) = 0 →
        monitorProgress fc totalDuration (joinLines pre ++ (line ++ '\n' :: rest))
          = monitorProgress fc totalDuration (joinLines pre)
            ++ monitorProgress fc totalDuration rest)
    ∧ (∀ stderr, monitorProgress fc 0 stderr = [])
    ∧ (∀ h1 h2 m1 m2 s1 s2 f1 f2 f3 f4 f5 f6 : Char, isDigit h1 = true → isDigit h2 = true →
        isDigit m1 = true → isDigit m2 = true → isDigit s1 = true → isDigit s2 = true →
        isDigit f1 = true → isDigit f2 = true → isDigit f3 = true → isDigit f4 = true →
        isDigit f5 = true → isDigit f6 = true →
        parseTimeString
            (TrimPrefix (outTimeLine h1 h2 m1 m2 s1 s2 f1 f2 f3 f4 f5 f6) outTimeLit)
          = microTime h1 h2 m1 m2 s1 s2 f1 f2 f3 f4 f5 f6)
    ∧ fractions (monitorProgress ⟨true, true⟩ 120
        ("out_time=00:00:30.000000\nout_time=00:01:00.000000\n".toList
          ++ "out_time=00:01:30.000000\nout_time=00:02:10.000000\n".toList))
        = [1 / 4, 1 / 2, 3 / 4, 1] := by
  have ht := trimPrefix_outTime line hp
  refine ⟨?_, ?_, fun stderr => monitorLines_nil_of_zero fc 0 (le_refl _) _, ?_, ?_⟩
  · intro hT he hcb
    refine ⟨?_, ?_, min_le_left _ _⟩
    · rw [ht] at he ⊢
      rw [monitorProgress_split fc totalDuration pre line rest hpre hline, fractions_append,
        fractions_append, fractions_monitorLine]
      simp [hp, he, hT, hcb]
    · exact le_min zero_le_one (div_nonneg (le_of_lt he) (le_of_lt hT))
  · intro he
    rw [ht] at he
    rw [monitorProgress_split fc totalDuration pre line rest hpre hline,
      monitorLine_eq_nil fc totalDuration _ (Or.inr (Or.inl he))]
    rfl
  · intro h1 h2 m1 m2 s1 s2 f1 f2 f3 f4 f5 f6 hh1 hh2 hm1 hm2 hs1 hs2 hf1 hf2 hf3 hf4 hf5 hf6
    obtain ⟨hq, hd⟩ := outTimeLine_head h1 h2 m1 m2 s1 s2 f1 f2 f3 f4 f5 f6
    rw [trimPrefix_outTime _ hq, hd]
    exact parseTimeString_exact h1 h2 m1 m2 s1 s2 f1 f2 f3 f4 f5 f6 hh1 hh2 hm1 hm2 hs1 hs2
      hf1 hf2 hf3 hf4 hf5 hf6
  · rw [monitorProgress, scanLines_four, fractions_monitorLines, samples_four]
    norm_num

/-- Witness for C4: the line `out_time=00:00:45.500000` in a stream of 91 s. -/
theorem monitorProgress_fraction_witness :
    fractions (monitorProgress ⟨true, false⟩ 91
        (joinLines ["frame=1".toList]
          ++ ("out_time=00:00:45.500000".toList ++ '\n' :: "speed=2x\n".toList)))
      = [1 / 2] := by
  have hpre : ∀ l ∈ ["frame=1".toList], Scannable l := by
    intro l hl
    rw [List.mem_singleton.mp hl]
    exact ⟨by unfold NoNewline; decide, by decide, by decide⟩
  have hline : Scannable "out_time=00:00:45.500000".toList :=
    ⟨by unfold NoNewline; decide, by decide, by decide⟩
  have hq : HasPrefix "out_time=00:00:45.500000".toList outTimeLit = true := by decide
  have d0 : isDigit '0' = true := by decide
  have d4 : isDigit '4' = true := by decide
  have d5 : isDigit '5' = true := by decide
  have hthm := monitorProgress_fraction ⟨true, false⟩ 91 ["frame=1".toList]
    "out_time=00:00:45.500000".toList "speed=2x\n".toList hpre hline hq
  have hm : parseTimeString (TrimPrefix "out_time=00:00:45.500000".toList outTimeLit)
      = 91 / 2 := by
    have e : "out_time=00:00:45.500000".toList
        = outTimeLine '0' '0' '0' '0' '4' '5' '5' '0' '0' '0' '0' '0' := by decide
    rw [e, hthm.2.2.2.1 _ _ _ _ _ _ _ _ _ _ _ _ d0 d0 d0 d0 d4 d5 d5 d0 d0 d0 d0 d0,
      microTime_of _ _ _ _ _ _ _ _ _ _ _ _ 45 500000 (by decide) (by decide)]
    norm_num
  have h := (hthm.1 (by norm_num) (by rw [hm]; norm_num) rfl).1
  have h1 : fractions (monitorProgress ⟨true, false⟩ 91 (joinLines ["frame=1".toList]))
      = [] := by decide
  have h2 : fractions (monitorProgress ⟨true, false⟩ 91 "speed=2x\n".toList) = [] := by decide
  rw [h, h1, h2, hm]
  norm_num

/-- Counterexample to C4 as stated: the line `out_time=00:00:00.000000` is
recognised, its elapsed time is 0, the total duration is 120, and no fraction
is handed on although `min 1 (0 / 120)` is 0. -/
theorem monitorProgress_zero_elapsed :
    parseTimeString (TrimPrefix "out_time=00:00:00.000000".toList outTimeLit) = 0
    ∧ fractions (monitorProgress ⟨true, true⟩ 120 "out_time=00:00:00.000000\n".toList) = []
    ∧ fractions (monitorProgress ⟨true, true⟩ 120 "out_time=00:00:00.000000\n".toList)
        ≠ [min 1 (0 / 120)] := by
  have hs : scanLines "out_time=00:00:00.000000\n".toList
      = [outTimeLine '0' '0' '0' '0' '0' '0' '0' '0' '0' '0' '0' '0'] := by decide
  have e : "out_time=00:00:00.000000".toList
      = outTimeLine '0' '0' '0' '0' '0' '0' '0' '0' '0' '0' '0' '0' := by decide
  have d0 : isDigit '0' = true := by decide
  have hm : microTime '0' '0' '0' '0' '0' '0' '0' '0' '0' '0' '0' '0' = 0 := by
    rw [microTime_of _ _ _ _ _ _ _ _ _ _ _ _ 0 0 (by decide) (by decide)]
    norm_num
  obtain ⟨hp, hd⟩ := outTimeLine_head '0' '0' '0' '0' '0' '0' '0' '0' '0' '0' '0' '0'
  have hparse := parseTimeString_exact '0' '0' '0' '0' '0' '0' '0' '0' '0' '0' '0' '0'
    d0 d0 d0 d0 d0 d0 d0 d0 d0 d0 d0 d0
  have hf : fractions (monitorProgress ⟨true, true⟩ 120 "out_time=00:00:00.000000\n".toList)
      = [] := by
    rw [monitorProgress, hs, fractions_monitorLines, samples_outTimeLine _ _ _ _ _ _ _ _ _ _ _ _ _
      d0 d0 d0 d0 d0 d0 d0 d0 d0 d0 d0 d0, hm]
    simp [samples]
  refine ⟨?_, hf, ?_⟩
  · rw [e, trimPrefix_outTime _ hp, hd, hparse, hm]
  · rw [hf]
    simp

theorem timeReFind_leftmost {h1 h2 m1 m2 s1 s2 f : Char} (x z : Str)
    (hh1 : isDigit h1 = true) (hh2 : isDigit h2 = true) (hm1 : isDigit m1 = true)
    (hm2 : isDigit m2 = true) (hs1 : isDigit s1 = true) (hs2 : isDigit s2 = true)
    (hf : isDigit f = true)
    (hleft : ∀ a b k1 k2 k3 k4 k5 k6 k7, isDigit k1 = true → isDigit k2 = true →
      isDigit k3 = true → isDigit k4 = true → isDigit k5 = true → isDigit k6 = true →
      isDigit k7 = true →
      x ++ (timeText h1 h2 m1 m2 s1 s2 [f] ++ z)
        = a ++ (timeText k1 k2 k3 k4 k5 k6 [k7] ++ b) → x.length ≤ a.length) :
    timeReFind (x ++ (timeText h1 h2 m1 m2 s1 s2 [f] ++ z))
      = some ⟨[h1, h2], [m1, m2], [s1, s2], f :: z.takeWhile isDigit⟩ := by
  induction x with
  | nil =>
    rw [List.nil_append]
    exact timeReFind_of_at (timeReAt_shape z hh1 hh2 hm1 hm2 hs1 hs2 hf)
  | cons c cs ih =>
    rw [List.cons_append, timeReFind]
    split
    · rename_i g hat
      obtain ⟨k1, k2, k3, k4, k5, k6, k7, b, a1, a2, a3, a4, a5, a6, a7, he⟩ := timeReAt_inv hat
      have := hleft [] b k1 k2 k3 k4 k5 k6 k7 a1 a2 a3 a4 a5 a6 a7
        (by rw [List.cons_append, he]; rfl)
      simp at this
    · apply ih
      intro a b k1 k2 k3 k4 k5 k6 k7 a1 a2 a3 a4 a5 a6 a7 he
      have := hleft (c :: a) b k1 k2 k3 k4 k5 k6 k7 a1 a2 a3 a4 a5 a6 a7
        (by rw [List.cons_append, he]; rfl)
      simpa using this

/-- C5, as the code has it: a line that does not start with `out_time=`, or
whose rest holds no occurrence of two digits, a colon, two digits, a colon, two
digits, a dot and a digit, yields no call of either callback, whatever the
total duration, and a stream whose lines up to it are delivered by the scanner
is handled as if the line were not there.  A line that starts with `out_time=`
and whose rest holds such an occurrence anywhere is parsed from the leftmost
one, with all the digits that follow the dot, and yields a fraction when the
parsed time and the total duration are above 0. -/
theorem monitorProgress_skips (fc : FFmpegConverter) (totalDuration : ℚ) (pre : List Str)
    (line rest : Str) (hpre : ∀ l ∈ pre, Scannable l) (hline : Scannable line) :
    ((HasPrefix line outTimeLit = false ∨ ¬ HasTimeMatch (line.drop 9)) →
      monitorLine fc totalDuration line = []
      ∧ monitorProgress fc totalDuration (joinLines pre ++ (line ++ '\n' :: rest))
          = monitorProgress fc totalDuration (joinLines pre ++ rest))
    ∧ (∀ (x z : Str) (h1 h2 m1 m2 s1 s2 f : Char), isDigit h1 = true → isDigit h2 = true →
        isDigit m1 = true → isDigit m2 = true → isDigit s1 = true → isDigit s2 = true →
        isDigit f = true →
        line = outTimeLit ++ (x ++ (timeText h1 h2 m1 m2 s1 s2 [f] ++ z)) →
        (∀ a b k1 k2 k3 k4 k5 k6 k7, isDigit k1 = true → isDigit k2 = true →
          isDigit k3 = true → isDigit k4 = true → isDigit k5 = true → isDigit k6 = true →
          isDigit k7 = true →
          x ++ (timeText h1 h2 m1 m2 s1 s2 [f] ++ z)
            = a ++ (timeText k1 k2 k3 k4 k5 k6 [k7] ++ b) → x.length ≤ a.length) →
        parseTimeString (TrimPrefix line outTimeLit)
            = (wholeSeconds h1 h2 m1 m2 s1 s2 : ℚ)
              + (Atoi (f :: z.takeWhile isDigit) : ℚ) / 1000000
        ∧ (0 < totalDuration → fc.progressCallback = true →
            0 < parseTimeString (TrimPrefix line outTimeLit) →
            fractions (monitorProgress fc totalDuration
                (joinLines pre ++ (line ++ '\n' :: rest)))
              = fractions (monitorProgress fc totalDuration (joinLines pre))
                ++ min 1 (parseTimeString (TrimPrefix line outTimeLit) / totalDuration)
                  :: fractions (monitorProgress fc totalDuration rest))) := by
  have hsplit := monitorProgress_split fc totalDuration pre line rest hpre hline
  constructor
  · intro h
    have hl : monitorLine fc totalDuration line = [] := by
      apply monitorLine_eq_nil
      rcases h with h | h
      · exact Or.inl h
      · right
        left
        rw [parseTimeString, (timeReFind_eq_none_iff _).mpr h]
    refine ⟨hl, ?_⟩
    rw [hsplit, hl, monitorProgress, monitorProgress, monitorProgress, scanLines_join pre hpre,
      scanLines_joinLines pre hpre, monitorLines_append]
    rfl
  · intro x z h1 h2 m1 m2 s1 s2 f hh1 hh2 hm1 hm2 hs1 hs2 hf hline_eq hleft
    have hp : HasPrefix line outTimeLit = true := by
      rw [hasPrefix_iff]
      exact ⟨_, hline_eq⟩
    have hd : line.drop 9 = x ++ (timeText h1 h2 m1 m2 s1 s2 [f] ++ z) := by
      rw [hline_eq]
      rfl
    have ht := trimPrefix_outTime line hp
    have hfind := timeReFind_leftmost x z hh1 hh2 hm1 hm2 hs1 hs2 hf hleft
    have hv : parseTimeString (TrimPrefix line outTimeLit)
        = (wholeSeconds h1 h2 m1 m2 s1 s2 : ℚ)
          + (Atoi (f :: z.takeWhile isDigit) : ℚ) / 1000000 := by
      rw [ht, hd, parseTimeString_of_find hfind]
      simp only [atoi_two hh1 hh2, atoi_two hm1 hm2, atoi_two hs1 hs2, wholeSeconds]
    refine ⟨hv, ?_⟩
    intro hT hcb he
    rw [ht] at he ⊢
    rw [hsplit, fractions_append, fractions_append, fractions_monitorLine]
    simp [hp, he, hT, hcb]

/-- Witness for C5: the line `out_time=N/A`, which starts with `out_time=`. -/
theorem monitorProgress_skips_witness :
    HasPrefix "out_time=N/A".toList outTimeLit = true
    ∧ ¬ HasTimeMatch ("out_time=N/A".toList.drop 9)
    ∧ monitorProgress ⟨true, true⟩ 120
        (joinLines ["frame=1".toList] ++ ("out_time=N/A".toList ++ '\n' :: "speed=2x\n".toList))
        = monitorProgress ⟨true, true⟩ 120 (joinLines ["frame=1".toList] ++ "speed=2x\n".toList) :=
  have hn : ¬ HasTimeMatch ("out_time=N/A".toList.drop 9) :=
    (timeReFind_eq_none_iff _).mp (by decide)
  have hpre : ∀ l ∈ ["frame=1".toList], Scannable l := fun l hl => by
    rw [List.mem_singleton.mp hl]
    exact ⟨by unfold NoNewline; decide, by decide, by decide⟩
  have hline : Scannable "out_time=N/A".toList :=
    ⟨by unfold NoNewline; decide, by decide, by decide⟩
  ⟨by decide, hn,
    ((monitorProgress_skips ⟨true, true⟩ 120 ["frame=1".toList] "out_time=N/A".toList
      "speed=2x\n".toList hpre hline).1 (Or.inr hn)).2⟩

/-- Counterexample to C5 as stated: the lines `out_time=00:01:30.45` and
`out_time=x00:01:30.450000` are not of the form `out_time=HH:MM:SS.ffffff`,
and still a fraction is handed on for each. -/
theorem monitorProgress_short_fraction :
    (∀ h1 h2 m1 m2 s1 s2 f1 f2 f3 f4 f5 f6 : Char, "out_time=00:01:30.45".toList
        ≠ outTimeLit ++ [h1, h2, ':', m1, m2, ':', s1, s2, '.', f1, f2, f3, f4, f5, f6])
    ∧ fractions (monitorProgress ⟨true, true⟩ 120 "out_time=00:01:30.45\n".toList)
        = [6000003 / 8000000]
    ∧ fractions (monitorProgress ⟨true, true⟩ 120 "out_time=x00:01:30.450000\n".toList)
        = [603 / 800] := by
  refine ⟨?_, ?_, ?_⟩
  · intro h1 h2 m1 m2 s1 s2 f1 f2 f3 f4 f5 f6 h
    have := congrArg List.length h
    rw [List.length_append] at this
    have hl : "out_time=00:01:30.45".toList.length = 20 := by decide
    have hl2 : outTimeLit.length = 9 := by decide
    rw [hl, hl2] at this
    simp only [List.length_cons, List.length_nil] at this
    omega
  · have hs : scanLines "out_time=00:01:30.45\n".toList = ["out_time=00:01:30.45".toList] := by
      decide
    have hp : HasPrefix "out_time=00:01:30.45".toList outTimeLit = true := by decide
    have hfind : timeReFind ("out_time=00:01:30.45".toList.drop 9)
        = some ⟨"00".toList, "01".toList, "30".toList, "45".toList⟩ := by decide
    have a1 : Atoi "00".toList = 0 := by decide
    have a2 : Atoi "01".toList = 1 := by decide
    have a3 : Atoi "30".toList = 30 := by decide
    have a4 : Atoi "45".toList = 45 := by decide
    rw [monitorProgress, hs, fractions_monitorLines]
    simp only [samples, hp, parseTimeString_of_find hfind, a1, a2, a3, a4]
    norm_num
  · have hs : scanLines "out_time=x00:01:30.450000\n".toList
        = ["out_time=x00:01:30.450000".toList] := by decide
    have hp : HasPrefix "out_time=x00:01:30.450000".toList outTimeLit = true := by decide
    have hfind : timeReFind ("out_time=x00:01:30.450000".toList.drop 9)
        = some ⟨"00".toList, "01".toList, "30".toList, "450000".toList⟩ := by decide
    have a1 : Atoi "00".toList = 0 := by decide
    have a2 : Atoi "01".toList = 1 := by decide
    have a3 : Atoi "30".toList = 30 := by decide
    have a4 : Atoi "450000".toList = 450000 := by decide
    rw [monitorProgress, hs, fractions_monitorLines]
    simp only [samples, hp, parseTimeString_of_find hfind, a1, a2, a3, a4]
    norm_num

/-- C7, as the code has it: when the lines before it are delivered by the scanner
and hold no occurrence of `Duration: HH:MM:SS.cc`, and the line
`x ++ "Duration: h1h2:m1m2:s1s2.c1c2" ++ y` is delivered and has its first
occurrence after `x`, the scan of `GetVideoDuration` returns hours times 3600
plus minutes times 60 plus seconds plus the hundredths over 100, whatever
follows; when no delivered line holds an occurrence it returns 0; and
`GetVideoDuration` reports no error for a scan that ran.
`Duration: 00:01:30.45` gives 90.45. -/
theorem scanDuration_first_match (pre : List Str) (x y rest : Str)
    (h1 h2 m1 m2 s1 s2 c1 c2 : Char)
    (hh1 : isDigit h1 = true) (hh2 : isDigit h2 = true) (hm1 : isDigit m1 = true)
    (hm2 : isDigit m2 = true) (hs1 : isDigit s1 = true) (hs2 : isDigit s2 = true)
    (hc1 : isDigit c1 = true) (hc2 : isDigit c2 = true)
    (hscan : ∀ l ∈ pre, Scannable l)
    (hpre : ∀ l ∈ pre, ¬ HasDurationMatch l)
    (hline : Scannable (x ++ (durationText h1 h2 m1 m2 s1 s2 c1 c2 ++ y)))
    (hleft : ∀ a b k1 k2 k3 k4 k5 k6 k7 k8, isDigit k1 = true → isDigit k2 = true →
      isDigit k3 = true → isDigit k4 = true → isDigit k5 = true → isDigit k6 = true →
      isDigit k7 = true → isDigit k8 = true →
      x ++ (durationText h1 h2 m1 m2 s1 s2 c1 c2 ++ y)
        = a ++ (durationText k1 k2 k3 k4 k5 k6 k7 k8 ++ b) → x.length ≤ a.length) :
    scanDuration (joinLines pre
          ++ ((x ++ (durationText h1 h2 m1 m2 s1 s2 c1 c2 ++ y)) ++ '\n' :: rest))
        = (((10 * digitVal h1 + digitVal h2) * 3600 + (10 * digitVal m1 + digitVal m2) * 60
            + (10 * digitVal s1 + digitVal s2) : Nat) : ℚ)
          + ((10 * digitVal c1 + digitVal c2 : Nat) : ℚ) / 100
    ∧ scanDuration (joinLines pre) = 0
    ∧ (∀ stderr, (∀ l ∈ scanLines stderr, ¬ HasDurationMatch l) → scanDuration stderr = 0)
    ∧ (∀ (env : Env) (fs : FS) (inputPath : Str) (stderr : Str),
        env.probe fs inputPath = some stderr →
          GetVideoDuration env fs inputPath = (scanDuration stderr, false))
    ∧ scanDuration ("ffmpeg version 4.4\n".toList
          ++ "  Duration: 00:01:30.45, start: 0.000000, bitrate: 1205 kb/s\n".toList
          ++ "  Duration: 00:00:07.00\n".toList) = 9045 / 100 := by
  have hzero : ∀ ls : List Str, (∀ l ∈ ls, ¬ HasDurationMatch l) → scanDurationLines ls = 0 := by
    intro ls hls
    have := scanDurationLines_skip_all ls [] hls
    rw [List.append_nil] at this
    rw [this]
    rfl
  refine ⟨?_, ?_, ?_, ?_, ?_⟩
  · rw [scanDuration, scanLines_join pre hscan, scanLines_cons _ rest hline,
      scanDurationLines_skip_all pre _ hpre,
      scanDurationLines_of_find _ (contains_durationText x y h1 h2 m1 m2 s1 s2 c1 c2)
        (durationReFind_leftmost x y hh1 hh2 hm1 hm2 hs1 hs2 hc1 hc2 hleft)]
    simp only [atoi_two hh1 hh2, atoi_two hm1 hm2, atoi_two hs1 hs2, atoi_two hc1 hc2]
  · rw [scanDuration, scanLines_joinLines pre hscan]
    exact hzero pre hpre
  · intro stderr h
    exact hzero _ h
  · intro env fs inputPath stderr hl
    simp only [GetVideoDuration, hl]
  · have hs : scanLines ("ffmpeg version 4.4\n".toList
          ++ "  Duration: 00:01:30.45, start: 0.000000, bitrate: 1205 kb/s\n".toList
          ++ "  Duration: 00:00:07.00\n".toList)
        = ["ffmpeg version 4.4".toList,
            "  Duration: 00:01:30.45, start: 0.000000, bitrate: 1205 kb/s".toList,
            "  Duration: 00:00:07.00".toList] := by decide
    have hn : ¬ HasDurationMatch "ffmpeg version 4.4".toList :=
      (durationReFind_eq_none_iff _).mp (by decide)
    have hf : durationReFind
        "  Duration: 00:01:30.45, start: 0.000000, bitrate: 1205 kb/s".toList
        = some ⟨"00".toList, "01".toList, "30".toList, "45".toList⟩ := by decide
    have hc : Contains "  Duration: 00:01:30.45, start: 0.000000, bitrate: 1205 kb/s".toList
        ['D', 'u', 'r', 'a', 't', 'i', 'o', 'n', ':'] = true := by decide
    have a1 : Atoi "00".toList = 0 := by decide
    have a2 : Atoi "01".toList = 1 := by decide
    have a3 : Atoi "30".toList = 30 := by decide
    have a4 : Atoi "45".toList = 45 := by decide
    rw [scanDuration, hs, scanDurationLines_skip _ _ hn, scanDurationLines_of_find _ hc hf]
    simp only [a1, a2, a3, a4]
    norm_num

/-- Witness for C7: a header line, then `  Duration: 00:01:30.45, start: 0.0`,
then a later line with another duration. -/
theorem scanDuration_first_match_witness :
    (∀ l ∈ ["ffmpeg version 4.4".toList], Scannable l)
    ∧ (∀ l ∈ ["ffmpeg version 4.4".toList], ¬ HasDurationMatch l)
    ∧ Scannable
        ("  ".toList ++ (durationText '0' '0' '0' '1' '3' '0' '4' '5' ++ ", start: 0.0".toList))
    ∧ scanDuration (joinLines ["ffmpeg version 4.4".toList]
        ++ (("  ".toList ++ (durationText '0' '0' '0' '1' '3' '0' '4' '5'
              ++ ", start: 0.0".toList)) ++ '\n' :: "  Duration: 00:00:07.00\n".toList))
        = 9045 / 100 := by
  have hscan : ∀ l ∈ ["ffmpeg version 4.4".toList], Scannable l := by
    intro l hl
    rw [List.mem_singleton.mp hl]
    exact ⟨by unfold NoNewline; decide, by decide, by decide⟩
  have hpre : ∀ l ∈ ["ffmpeg version 4.4".toList], ¬ HasDurationMatch l := by
    intro l hl
    rw [List.mem_singleton] at hl
    rw [hl]
    exact (durationReFind_eq_none_iff _).mp (by decide)
  have hline : Scannable
      ("  ".toList ++ (durationText '0' '0' '0' '1' '3' '0' '4' '5' ++ ", start: 0.0".toList)) :=
    ⟨by unfold NoNewline; decide, by decide, by decide⟩
  have hleft : ∀ a b k1 k2 k3 k4 k5 k6 k7 k8, isDigit k1 = true → isDigit k2 = true →
      isDigit k3 = true → isDigit k4 = true → isDigit k5 = true → isDigit k6 = true →
      isDigit k7 = true → isDigit k8 = true →
      "  ".toList ++ (durationText '0' '0' '0' '1' '3' '0' '4' '5' ++ ", start: 0.0".toList)
        = a ++ (durationText k1 k2 k3 k4 k5 k6 k7 k8 ++ b) → "  ".toList.length ≤ a.length := by
    intro a b k1 k2 k3 k4 k5 k6 k7 k8 _ _ _ _ _ _ _ _ h
    cases a with
    | nil => simp [durationText, durationLit] at h
    | cons c cs =>
      cases cs with
      | nil => simp [durationText, durationLit] at h
      | cons d ds => simp
  have h := (scanDuration_first_match ["ffmpeg version 4.4".toList] "  ".toList
    ", start: 0.0".toList "  Duration: 00:00:07.00\n".toList
    '0' '0' '0' '1' '3' '0' '4' '5' (by decide) (by decide) (by decide) (by decide)
    (by decide) (by decide) (by decide) (by decide) hscan hpre hline hleft).1
  have hw : (10 * digitVal '0' + digitVal '0') * 3600 + (10 * digitVal '0' + digitVal '1') * 60
      + (10 * digitVal '3' + digitVal '0') = 90 := by decide
  have hc : 10 * digitVal '4' + digitVal '5' = 45 := by decide
  rw [hw, hc] at h
  refine ⟨hscan, hpre, hline, ?_⟩
  rw [h]
  norm_num

/-- Counterexample to C7 as stated: the only line of the stream holds
`Duration: 00:00:09.00` and is then filled with 70000 letters; the scanner
does not deliver it, and the scan returns 0 instead of 9. -/
theorem scanDuration_long_line :
    HasDurationMatch (" Duration: 00:00:09.00".toList ++ List.replicate 70000 'x')
    ∧ scanDuration ((" Duration: 00:00:09.00".toList ++ List.replicate 70000 'x') ++ ['\n']) = 0
    ∧ scanDuration " Duration: 00:00:09.00\n".toList = 9 := by
  refine ⟨?_, ?_, ?_⟩
  · exact ⟨[' '], '0', '0', '0', '0', '0', '9', '0', '0', List.replicate 70000 'x',
      by decide, by decide, by decide, by decide, by decide, by decide, by decide, by decide,
      by generalize List.replicate 70000 'x' = t; rfl⟩
  · have hlit : ∀ c ∈ " Duration: 00:00:09.00".toList, c ≠ '\n' := by decide
    have hl : NoNewline (" Duration: 00:00:09.00".toList ++ List.replicate 70000 'x') := by
      intro c hc
      rcases List.mem_append.mp hc with h | h
      · exact hlit c h
      · rw [List.eq_of_mem_replicate h]
        decide
    have hlong : maxScanTokenSize
        ≤ byteLen (" Duration: 00:00:09.00".toList ++ List.replicate 70000 'x') := by
      rw [byteLen_append, byteLen_replicate_x]
      unfold maxScanTokenSize
      omega
    have := scanLines_tooLong [] (by simp) _ [] hl hlong
    rw [joinLines, List.nil_append] at this
    rw [scanDuration, this]
    rfl
  · have hs : scanLines " Duration: 00:00:09.00\n".toList = [" Duration: 00:00:09.00".toList] := by
      decide
    have hf : durationReFind " Duration: 00:00:09.00".toList
        = some ⟨"00".toList, "00".toList, "09".toList, "00".toList⟩ := by decide
    have hc : Contains " Duration: 00:00:09.00".toList
        ['D', 'u', 'r', 'a', 't', 'i', 'o', 'n', ':'] = true := by decide
    have a1 : Atoi "00".toList = 0 := by decide
    have a3 : Atoi "09".toList = 9 := by decide
    rw [scanDuration, hs, scanDurationLines_of_find _ hc hf]
    simp only [a1, a3]
    norm_num

/-! ## The session -/

/-- C9: when the presence check fails, `ConvertWithProgress` returns the error of
`CheckFFmpeg`, the file system is the one it started with, and the run of
`ffmpeg -version` is all it did: no directory made, nothing renamed, no probe
and no transcoding run. -/
theorem ConvertWithProgress_missing_binary (env : Env) (fuel : Nat) (fs : FS) (inputPath : Str)
    (progressCallback statusCallback : Bool) (h : CheckFFmpeg env = false) :
    ConvertWithProgress env fuel fs inputPath progressCallback statusCallback
      = some ⟨some Error.ffmpegMissing, fs, [Action.exec ["ffmpeg".toList, "-version".toList]]⟩ := by
  simp only [ConvertWithProgress, h, if_true]
  rfl

/-- Witness for C9: no `ffmpeg`, and an output file that exists. -/
theorem ConvertWithProgress_missing_binary_witness :
    CheckFFmpeg ⟨false, fun _ _ => none, fun _ _ _ => none, fun _ _ => false, fun _ _ => false,
        fun _ _ _ => false⟩ = false
    ∧ ConvertWithProgress ⟨false, fun _ _ => none, fun _ _ _ => none, fun _ _ => false,
        fun _ _ => false, fun _ _ _ => false⟩ 5
        [("/v/a.mp4".toList, Kind.file)] "/v/a.mov".toList true true
      = some ⟨some Error.ffmpegMissing, [("/v/a.mp4".toList, Kind.file)],
          [Action.exec ["ffmpeg".toList, "-version".toList]]⟩ :=
  ⟨rfl, ConvertWithProgress_missing_binary ⟨false, fun _ _ => none, fun _ _ _ => none,
    fun _ _ => false, fun _ _ => false, fun _ _ _ => false⟩ 5
    [("/v/a.mp4".toList, Kind.file)] "/v/a.mov".toList true true rfl⟩

theorem convertFile_log (fc : FFmpegConverter) (env : Env) (fs : FS) (i o : Str) :
    ∃ rest, (ConvertFile fc env fs i o).log
      = [Action.exec [ffmpeg, ['-', 'i'], i], Action.exec (ffmpeg :: transcodeArgs i o)]
        ++ rest := by
  unfold ConvertFile
  cases env.transcode fs i o with
  | none => exact ⟨[], (List.append_nil _).symm⟩
  | some r =>
    obtain ⟨lines, ok, fs1⟩ := r
    cases ok with
    | true => exact ⟨_, List.append_assoc _ _ _⟩
    | false => exact ⟨_, rfl⟩

/-- C10: `GetOutputPath` is idempotent, and a clean path whose extension is `.mp3`
or `.mp4` is a fixed point; for such an input of which `os.Stat` does not say
that it does not exist (so for one that exists), with `ffmpeg` present, when
the backup returns without error, `ConvertWithProgress` has backed up the input
path itself: the backup directory was made, the input was renamed to the first
backup path that did not exist, after which the input path is bound to nothing,
and only then `ConvertFile` is run on the input path, as input and as output. -/
theorem GetOutputPath_idempotent (q : Str) (hclean : Clean q = q)
    (hext : Ext q = ".mp3".toList ∨ Ext q = ".mp4".toList) :
    (∀ p, GetOutputPath (GetOutputPath p) = GetOutputPath p)
    ∧ GetOutputPath q = q
    ∧ ∀ (env : Env) (fs : FS) (fuel : Nat) (b : Outcome) (progressCallback statusCallback : Bool),
        CheckFFmpeg env = true → Stat env fs q ≠ StatResult.notExist →
        BackupExistingFile ⟨progressCallback, statusCallback⟩ env fuel fs (GetOutputPath q)
          = some b →
        b.err = none →
        ∃ n fs1 r tail,
          MkdirAll env fs ((backupDirOf q).length + 1) (backupDirOf q) = some fs1
          ∧ Stat env fs1 (candidate q n) = StatResult.notExist
          ∧ (∀ k, k < n → Stat env fs1 (candidate q k) ≠ StatResult.notExist)
          ∧ Rename env fs1 q (candidate q n) = some b.fs
          ∧ lookup b.fs q = none
          ∧ ConvertWithProgress env fuel fs q progressCallback statusCallback = some r
          ∧ r.err = (ConvertFile ⟨progressCallback, statusCallback⟩ env b.fs q q).err
          ∧ r.fs = (ConvertFile ⟨progressCallback, statusCallback⟩ env b.fs q q).fs
          ∧ r.log = [Action.exec ["ffmpeg".toList, "-version".toList],
                Action.mkdirAll (backupDirOf q)]
              ++ (if statusCallback then
                    [Action.call (Event.status (Status.backup (candidate q n)))] else [])
              ++ [Action.rename q (candidate q n)]
              ++ (if statusCallback then
                    [Action.call (Event.status (Status.start (Base q)))] else [])
              ++ [Action.exec ["ffmpeg".toList, "-i".toList, q],
                  Action.exec ("ffmpeg".toList :: transcodeArgs q q)]
              ++ tail := by
  have hG : GetOutputPath q = q := getOutputPath_fixed q hclean hext
  refine ⟨getOutputPath_idem, hG, ?_⟩
  intro env fs fuel b pc sc hff hex hb herr
  rw [hG] at hb
  obtain ⟨n, fs1, hmk, hfree, hbusy, hren, hlog⟩ := backup_some ⟨pc, sc⟩ env fuel fs q b hex hb herr
  have hne : q ≠ candidate q n := by
    intro h
    apply rename_bound hren
    rw [h]
    exact (stat_notExist hfree).2
  have hgone := rename_gone hren hne
  obtain ⟨rest, hrest⟩ := convertFile_log ⟨pc, sc⟩ env b.fs q q
  have hnf : ¬ (CheckFFmpeg env = false) := by
    rw [hff]
    simp
  cases hc : (ConvertFile ⟨pc, sc⟩ env b.fs q q).err with
  | some e =>
    refine ⟨n, fs1, ⟨some e, (ConvertFile ⟨pc, sc⟩ env b.fs q q).fs,
      [Action.exec [ffmpeg, ['-', 'v', 'e', 'r', 's', 'i', 'o', 'n']]] ++ b.log
        ++ (if sc then [Action.call (Event.status (Status.start (Base q)))] else [])
        ++ (ConvertFile ⟨pc, sc⟩ env b.fs q q).log⟩,
      rest, hmk, hfree, hbusy, hren, hgone, ?_, ?_, ?_, ?_⟩
    · simp only [ConvertWithProgress, if_neg hnf, hG, hb, herr, hc]
    · rfl
    · rfl
    · simp only [hrest, hlog, List.append_assoc]
      rfl
  | none =>
    refine ⟨n, fs1, ⟨none, (ConvertFile ⟨pc, sc⟩ env b.fs q q).fs,
      [Action.exec [ffmpeg, ['-', 'v', 'e', 'r', 's', 'i', 'o', 'n']]] ++ b.log
        ++ (if sc then [Action.call (Event.status (Status.start (Base q)))] else [])
        ++ (ConvertFile ⟨pc, sc⟩ env b.fs q q).log
        ++ (if sc then [Action.call (Event.status (Status.done q))] else [])⟩,
      rest ++ (if sc then [Action.call (Event.status (Status.done q))] else []),
      hmk, hfree, hbusy, hren, hgone, ?_, ?_, ?_, ?_⟩
    · simp only [ConvertWithProgress, if_neg hnf, hG, hb, herr, hc]
    · rfl
    · rfl
    · simp only [hrest, hlog, List.append_assoc]
      rfl

/-- Witness for C10: the input `/v/a.mp4`, which is its own output path, in the
directory `/v`. -/
theorem GetOutputPath_idempotent_witness :
    Clean "/v/a.mp4".toList = "/v/a.mp4".toList
    ∧ Ext "/v/a.mp4".toList = ".mp4".toList
    ∧ CheckFFmpeg plain = true
    ∧ Stat plain [("/v/a.mp4".toList, Kind.file), ("/v".toList, Kind.dir)] "/v/a.mp4".toList
        ≠ StatResult.notExist
    ∧ BackupExistingFile ⟨false, false⟩ plain 3
        [("/v/a.mp4".toList, Kind.file), ("/v".toList, Kind.dir)]
        (GetOutputPath "/v/a.mp4".toList)
      = some ⟨none,
          [("/v/backup".toList, Kind.dir), ("/v/backup/a.mp4".toList, Kind.file),
            ("/v".toList, Kind.dir)],
          [Action.mkdirAll "/v/backup".toList,
            Action.rename "/v/a.mp4".toList "/v/backup/a.mp4".toList]⟩
    ∧ lookup [("/v/backup".toList, Kind.dir), ("/v/backup/a.mp4".toList, Kind.file),
          ("/v".toList, Kind.dir)] "/v/a.mp4".toList = none
    ∧ ConvertWithProgress plain 3 [("/v/a.mp4".toList, Kind.file), ("/v".toList, Kind.dir)]
        "/v/a.mp4".toList false false
      = some ⟨some Error.startFailed,
          [("/v/backup".toList, Kind.dir), ("/v/backup/a.mp4".toList, Kind.file),
            ("/v".toList, Kind.dir)],
          [Action.exec ["ffmpeg".toList, "-version".toList],
            Action.mkdirAll "/v/backup".toList,
            Action.rename "/v/a.mp4".toList "/v/backup/a.mp4".toList,
            Action.exec ["ffmpeg".toList, "-i".toList, "/v/a.mp4".toList],
            Action.exec ("ffmpeg".toList :: transcodeArgs "/v/a.mp4".toList "/v/a.mp4".toList)]⟩ :=
  have h1 : Clean "/v/a.mp4".toList = "/v/a.mp4".toList := by decide
  have h2 : Ext "/v/a.mp4".toList = ".mp4".toList := by decide
  have h3 : Stat plain [("/v/a.mp4".toList, Kind.file), ("/v".toList, Kind.dir)]
      "/v/a.mp4".toList ≠ StatResult.notExist := by decide
  have h4 : BackupExistingFile ⟨false, false⟩ plain 3
      [("/v/a.mp4".toList, Kind.file), ("/v".toList, Kind.dir)]
      (GetOutputPath "/v/a.mp4".toList)
      = some ⟨none,
          [("/v/backup".toList, Kind.dir), ("/v/backup/a.mp4".toList, Kind.file),
            ("/v".toList, Kind.dir)],
          [Action.mkdirAll "/v/backup".toList,
            Action.rename "/v/a.mp4".toList "/v/backup/a.mp4".toList]⟩ := by decide
  have h5 := (GetOutputPath_idempotent "/v/a.mp4".toList h1 (Or.inr h2)).2.2 plain
    [("/v/a.mp4".toList, Kind.file), ("/v".toList, Kind.dir)] 3 _ false false rfl h3 h4 rfl
  ⟨h1, h2, rfl, h3, h4, h5.choose_spec.choose_spec.choose_spec.choose_spec.2.2.2.2.1, by decide⟩

end Kylin
